import Mathlib

/-!
MoonMIR runtime: typed buffers and byte strings (`real_tests/mbtruntime.c`),
with the queue of `ctest/queue.c` and the `fib` of the test programs

A shallow embedding of the growable arrays of the runtime (construction, push,
get, put, length probe) and of its byte strings (construction, concatenation,
indexing, conversions from numbers), with the properties of both; of the
ring-buffer queue, which refines a bounded FIFO list; and of the recursive
`fib`, which ends and computes the Fibonacci numbers.

Conventions of the embedding.

* `int32_t` values are integers; an `int32_t` expression that leaves the
  range is reduced with `wrap32` (two's complement, modulo `2^32`).
* A heap block is a list of slots.  A slot is `none` until it is written
  (what `malloc` returns is indeterminate) and `some v` afterwards.
* An allocation request is a byte count of type `size_t` (64 bits).  A request
  above `PTRDIFF_MAX` gives the null pointer, which is the block with no
  slot; every other request is taken to succeed.
* A function returns `none` when the C code has no defined result: an access
  outside the block, or the read of a slot that was never written.
* The functions take the object a pointer refers to and return the object
  after the call (explicit state passing).
* The C library is modelled where the runtime calls it: `snprintf` with the
  conversions `%d`, `%lld` (decimal text) and `%g` (six significant digits,
  correctly rounded, ties to even), and the reading of decimal texts; a text
  read back as a `double` or `float` gives the value of that kind nearest to
  the decimal number of the text, ties to the even fraction field.
* A `double` or `float` is its IEEE 754 bit pattern.
-/

namespace MoonMIR

/-! ## Machine arithmetic and the heap -/

/-- Reduction of an integer to the `int32_t` range `[-2^31, 2^31)`. -/
def wrap32 (x : Int) : Int := (x + 2147483648) % 4294967296 - 2147483648

/-- The largest request `malloc` and `realloc` serve: `PTRDIFF_MAX` on a 64-bit target. -/
def PTRDIFF_MAX : Nat := 9223372036854775807

/-- The byte count `n * sizeof(T)` of an allocation: the `int32_t` count `n` is
converted to `size_t` and the product is taken modulo `2^64`. -/
def byteCount (n : Int) (sz : Nat) : Nat :=
  ((n % 18446744073709551616).toNat * sz) % 18446744073709551616

/-- A heap block of elements of kind `α`: `none` is a slot not yet written. -/
abbrev Block (α : Type) := List (Option α)

/-- Allocation of `bytes` bytes for elements of `sz` bytes each: the null
pointer (no slot) when the request is too large, otherwise `bytes / sz`
unwritten slots. -/
def malloc {α : Type} (bytes sz : Nat) : Block α :=
  if bytes > PTRDIFF_MAX then [] else List.replicate (bytes / sz) none

/-- Reallocation of `blk` to `bytes` bytes: the null pointer when the request is
too large, otherwise the old slots up to the new size followed by unwritten
slots. -/
def realloc {α : Type} (blk : Block α) (bytes sz : Nat) : Block α :=
  if bytes > PTRDIFF_MAX then []
  else blk.take (bytes / sz) ++ List.replicate (bytes / sz - blk.length) none

/-- The assignment `data[i] = v`; undefined outside the block. -/
def store {α : Type} (blk : Block α) (i : Int) (v : α) : Option (Block α) :=
  if 0 ≤ i ∧ i.toNat < blk.length then some (blk.set i.toNat (some v)) else none

/-- The read `data[i]`; undefined outside the block and on an unwritten slot. -/
def load {α : Type} (blk : Block α) (i : Int) : Option α :=
  if 0 ≤ i then blk[i.toNat]?.join else none

/-- The loop `for (i = i0; i < length; i++) data[i] = init_value;` with `n`
iterations left and loop variable `i`. -/
def fillLoop {α : Type} (init_value : α) : Nat → Int → Block α → Option (Block α)
  | 0, _, blk => some blk
  | n + 1, i, blk => (store blk i init_value).bind (fillLoop init_value n (i + 1))

/-! ## The buffer structures -/

/-- The common shape of `IntArray`, `Int64Array`, `DoubleArray`, `FloatArray`,
`BoolArray`, `CharArray` and `PtrArray`: `length`, `capacity`, `data`, in
this order. -/
structure TypedArray (α : Type) where
  length : Int
  capacity : Int
  data : Block α
  deriving DecidableEq, Repr

/-- An `int32_t` value. -/
abbrev int32_t := Int
/-- An `int64_t` value. -/
abbrev int64_t := Int
/-- A `double`, carried as its 64-bit pattern: the buffers never inspect it. -/
abbrev double := Nat
/-- A `float`, carried as its 32-bit pattern: the buffers never inspect it. -/
abbrev float := Nat
/-- A `uint8_t` value. -/
abbrev uint8_t := Nat
/-- A `char` value. -/
abbrev char := Int
/-- A `void *` value: an address. -/
abbrev voidp := Nat

abbrev IntArray := TypedArray int32_t
abbrev Int64Array := TypedArray int64_t
abbrev DoubleArray := TypedArray double
abbrev FloatArray := TypedArray float
abbrev BoolArray := TypedArray uint8_t
abbrev CharArray := TypedArray char
abbrev PtrArray := TypedArray voidp

/-! ## Construction -/

def make_int_array (length : Int) (init_value : int32_t) : Option IntArray :=
  let capacity := wrap32 (length * 2 + 1)
  let data : Block int32_t := malloc (byteCount capacity 4) 4
  (fillLoop init_value length.toNat 0 data).map fun d =>
    { length := length, capacity := capacity, data := d }

def make_int64_array (length : Int) (init_value : int64_t) : Option Int64Array :=
  let capacity := wrap32 (length * 2 + 1)
  let data : Block int64_t := malloc (byteCount capacity 8) 8
  (fillLoop init_value length.toNat 0 data).map fun d =>
    { length := length, capacity := capacity, data := d }

def make_double_array (length : Int) (init_value : double) : Option DoubleArray :=
  let capacity := wrap32 (length * 2 + 1)
  let data : Block double := malloc (byteCount capacity 8) 8
  (fillLoop init_value length.toNat 0 data).map fun d =>
    { length := length, capacity := capacity, data := d }

def make_float_array (length : Int) (init_value : float) : Option FloatArray :=
  let capacity := wrap32 (length * 2 + 1)
  let data : Block float := malloc (byteCount capacity 4) 4
  (fillLoop init_value length.toNat 0 data).map fun d =>
    { length := length, capacity := capacity, data := d }

def make_bool_array (length : Int) (init_value : uint8_t) : Option BoolArray :=
  let capacity := wrap32 (length * 2 + 1)
  let data : Block uint8_t := malloc (byteCount capacity 1) 1
  (fillLoop init_value length.toNat 0 data).map fun d =>
    { length := length, capacity := capacity, data := d }

def make_char_array (length : Int) (init_value : char) : Option CharArray :=
  let capacity := wrap32 (length * 2 + 1)
  let data : Block char := malloc (byteCount capacity 1) 1
  (fillLoop init_value length.toNat 0 data).map fun d =>
    { length := length, capacity := capacity, data := d }

/-- The pointer constructor assigns `length` and `data` only: `capacity` keeps
the indeterminate content `junk` of the fresh allocation, and the block is
requested for `length` elements. -/
def make_ptr_array (junk : Int) (length : Int) (init_value : voidp) : Option PtrArray :=
  let data : Block voidp := malloc (byteCount length 8) 8
  (fillLoop init_value length.toNat 0 data).map fun d =>
    { length := length, capacity := junk, data := d }

/-! ## Push, get and put -/

def array_int_push (arr : IntArray) (value : int32_t) : Option IntArray :=
  let arr1 : IntArray :=
    if arr.length ≥ arr.capacity then
      let capacity := wrap32 (arr.capacity * 2 + 1)
      { arr with capacity := capacity, data := realloc arr.data (byteCount capacity 4) 4 }
    else arr
  (store arr1.data arr1.length value).map fun d =>
    { arr1 with length := wrap32 (arr1.length + 1), data := d }

def array_int64_push (arr : Int64Array) (value : int64_t) : Option Int64Array :=
  let arr1 : Int64Array :=
    if arr.length ≥ arr.capacity then
      let capacity := wrap32 (arr.capacity * 2 + 1)
      { arr with capacity := capacity, data := realloc arr.data (byteCount capacity 8) 8 }
    else arr
  (store arr1.data arr1.length value).map fun d =>
    { arr1 with length := wrap32 (arr1.length + 1), data := d }

def array_double_push (arr : DoubleArray) (value : double) : Option DoubleArray :=
  let arr1 : DoubleArray :=
    if arr.length ≥ arr.capacity then
      let capacity := wrap32 (arr.capacity * 2 + 1)
      { arr with capacity := capacity, data := realloc arr.data (byteCount capacity 8) 8 }
    else arr
  (store arr1.data arr1.length value).map fun d =>
    { arr1 with length := wrap32 (arr1.length + 1), data := d }

def array_float_push (arr : FloatArray) (value : float) : Option FloatArray :=
  let arr1 : FloatArray :=
    if arr.length ≥ arr.capacity then
      let capacity := wrap32 (arr.capacity * 2 + 1)
      { arr with capacity := capacity, data := realloc arr.data (byteCount capacity 4) 4 }
    else arr
  (store arr1.data arr1.length value).map fun d =>
    { arr1 with length := wrap32 (arr1.length + 1), data := d }

def array_bool_push (arr : BoolArray) (value : uint8_t) : Option BoolArray :=
  let arr1 : BoolArray :=
    if arr.length ≥ arr.capacity then
      let capacity := wrap32 (arr.capacity * 2 + 1)
      { arr with capacity := capacity, data := realloc arr.data (byteCount capacity 1) 1 }
    else arr
  (store arr1.data arr1.length value).map fun d =>
    { arr1 with length := wrap32 (arr1.length + 1), data := d }

def array_char_push (arr : CharArray) (value : char) : Option CharArray :=
  let arr1 : CharArray :=
    if arr.length ≥ arr.capacity then
      let capacity := wrap32 (arr.capacity * 2 + 1)
      { arr with capacity := capacity, data := realloc arr.data (byteCount capacity 1) 1 }
    else arr
  (store arr1.data arr1.length value).map fun d =>
    { arr1 with length := wrap32 (arr1.length + 1), data := d }

def array_ptr_push (arr : PtrArray) (value : voidp) : Option PtrArray :=
  let arr1 : PtrArray :=
    if arr.length ≥ arr.capacity then
      let capacity := wrap32 (arr.capacity * 2 + 1)
      { arr with capacity := capacity, data := realloc arr.data (byteCount capacity 8) 8 }
    else arr
  (store arr1.data arr1.length value).map fun d =>
    { arr1 with length := wrap32 (arr1.length + 1), data := d }

def array_int_get (arr : IntArray) (index : Int) : Option (int32_t × IntArray) :=
  (load arr.data index).map fun v => (v, arr)

def array_int64_get (arr : Int64Array) (index : Int) : Option (int64_t × Int64Array) :=
  (load arr.data index).map fun v => (v, arr)

def array_double_get (arr : DoubleArray) (index : Int) : Option (double × DoubleArray) :=
  (load arr.data index).map fun v => (v, arr)

def array_float_get (arr : FloatArray) (index : Int) : Option (float × FloatArray) :=
  (load arr.data index).map fun v => (v, arr)

def array_bool_get (arr : BoolArray) (index : Int) : Option (uint8_t × BoolArray) :=
  (load arr.data index).map fun v => (v, arr)

def array_char_get (arr : CharArray) (index : Int) : Option (char × CharArray) :=
  (load arr.data index).map fun v => (v, arr)

def array_ptr_get (arr : PtrArray) (index : Int) : Option (voidp × PtrArray) :=
  (load arr.data index).map fun v => (v, arr)

def array_int_put (arr : IntArray) (index : Int) (value : int32_t) : Option IntArray :=
  (store arr.data index value).map fun d => { arr with data := d }

def array_int64_put (arr : Int64Array) (index : Int) (value : int64_t) : Option Int64Array :=
  (store arr.data index value).map fun d => { arr with data := d }

def array_double_put (arr : DoubleArray) (index : Int) (value : double) : Option DoubleArray :=
  (store arr.data index value).map fun d => { arr with data := d }

def array_float_put (arr : FloatArray) (index : Int) (value : float) : Option FloatArray :=
  (store arr.data index value).map fun d => { arr with data := d }

def array_bool_put (arr : BoolArray) (index : Int) (value : uint8_t) : Option BoolArray :=
  (store arr.data index value).map fun d => { arr with data := d }

def array_char_put (arr : CharArray) (index : Int) (value : char) : Option CharArray :=
  (store arr.data index value).map fun d => { arr with data := d }

def array_ptr_put (arr : PtrArray) (index : Int) (value : voidp) : Option PtrArray :=
  (store arr.data index value).map fun d => { arr with data := d }

/-! ## The length probe -/

/-- The object representation of an `int32_t`: four bytes, least significant
first, two's complement. -/
def int32_bytes (x : Int) : List Nat :=
  let u := (x % 4294967296).toNat
  [u % 256, u / 256 % 256, u / 65536 % 256, u / 16777216 % 256]

/-- The object representation of a pointer: the eight bytes of its address. -/
def pointer_bytes (a : Nat) : List Nat :=
  (List.range 8).map fun k => a / 256 ^ k % 256

/-- The read `*((int32_t *)p)` of the four bytes at the start of the object `p`
points to; undefined when the object is shorter. -/
def read_int32 : List Nat → Option Int
  | b0 :: b1 :: b2 :: b3 :: _ =>
    some (wrap32 ((b0 : Int) + 256 * b1 + 65536 * b2 + 16777216 * b3))
  | _ => none

/-- The bytes of a buffer structure whose `data` member holds the address
`addr`: the members in declaration order, `length` at offset 0, `capacity` at
offset 4, `data` at offset 8.  A `void *` handle to the buffer points to these
bytes. -/
def object_bytes {α : Type} (addr : Nat) (b : TypedArray α) : List Nat :=
  int32_bytes b.length ++ int32_bytes b.capacity ++ pointer_bytes addr

def get_array_length (array : List Nat) : Option Int :=
  read_int32 array

/-! ## The operations by element kind -/

/-- The six element kinds whose constructor sets all three members. -/
inductive ScalarKind where
  | int32 | int64 | float64 | float32 | boolean | character
  deriving DecidableEq, Repr

/-- The seven element kinds. -/
inductive Kind where
  | scalar (s : ScalarKind)
  | ptr
  deriving DecidableEq, Repr

/-- The element type of a scalar kind. -/
@[reducible] def ScalarKind.elem : ScalarKind → Type
  | .int32 => int32_t
  | .int64 => int64_t
  | .float64 => double
  | .float32 => float
  | .boolean => uint8_t
  | .character => char

/-- The element type of a kind. -/
@[reducible] def Kind.elem : Kind → Type
  | .scalar s => s.elem
  | .ptr => voidp

/-- The operation `Construct(length, fill)` of a scalar kind: its
`make_<kind>_array`. -/
def Construct : (s : ScalarKind) → Int → s.elem → Option (TypedArray s.elem)
  | .int32 => make_int_array
  | .int64 => make_int64_array
  | .float64 => make_double_array
  | .float32 => make_float_array
  | .boolean => make_bool_array
  | .character => make_char_array

/-- The operation `Push(buffer, value)` of a kind: its `array_<kind>_push`. -/
def Push : (k : Kind) → TypedArray k.elem → k.elem → Option (TypedArray k.elem)
  | .scalar .int32 => array_int_push
  | .scalar .int64 => array_int64_push
  | .scalar .float64 => array_double_push
  | .scalar .float32 => array_float_push
  | .scalar .boolean => array_bool_push
  | .scalar .character => array_char_push
  | .ptr => array_ptr_push

/-- The operation `Get(buffer, index)` of a kind: its `array_<kind>_get`. -/
def Get : (k : Kind) → TypedArray k.elem → Int → Option (k.elem × TypedArray k.elem)
  | .scalar .int32 => array_int_get
  | .scalar .int64 => array_int64_get
  | .scalar .float64 => array_double_get
  | .scalar .float32 => array_float_get
  | .scalar .boolean => array_bool_get
  | .scalar .character => array_char_get
  | .ptr => array_ptr_get

/-- The operation `Put(buffer, index, value)` of a kind: its `array_<kind>_put`. -/
def Put : (k : Kind) → TypedArray k.elem → Int → k.elem → Option (TypedArray k.elem)
  | .scalar .int32 => array_int_put
  | .scalar .int64 => array_int64_put
  | .scalar .float64 => array_double_put
  | .scalar .float32 => array_float_put
  | .scalar .boolean => array_bool_put
  | .scalar .character => array_char_put
  | .ptr => array_ptr_put

/-- The calls `Push(b, v_1); ...; Push(b, v_n)` in sequence. -/
def pushAll (k : Kind) : TypedArray k.elem → List k.elem → Option (TypedArray k.elem)
  | b, [] => some b
  | b, v :: vs => (Push k b v).bind fun b1 => pushAll k b1 vs

/-! ## The data model -/

/-- The invariant of the data model on the two counters: `0 ≤ length ≤ capacity`. -/
def Invariant {α : Type} (b : TypedArray α) : Prop :=
  0 ≤ b.length ∧ b.length ≤ b.capacity

/-- A buffer of the data model: the invariant holds and `data` is an allocation
of `capacity` slots. -/
def IsBuffer {α : Type} (b : TypedArray α) : Prop :=
  Invariant b ∧ (b.data.length : Int) = b.capacity

/-- The buffers of a scalar kind that a program obtains from `Construct` with a
length `≥ 0` by calls of `Push` and `Put` (with any arguments) that have a
defined result. -/
inductive Reachable (s : ScalarKind) : TypedArray s.elem → Prop where
  | construct (length : Int) (fill : s.elem) (b : TypedArray s.elem) :
      0 ≤ length → Construct s length fill = some b → Reachable s b
  | push (b b1 : TypedArray s.elem) (v : s.elem) :
      Reachable s b → Push (.scalar s) b v = some b1 → Reachable s b1
  | put (b b1 : TypedArray s.elem) (i : Int) (v : s.elem) :
      Reachable s b → Put (.scalar s) b i v = some b1 → Reachable s b1

instance {α : Type} (b : TypedArray α) : Decidable (Invariant b) := by
  unfold Invariant; infer_instance

instance {α : Type} (b : TypedArray α) : Decidable (IsBuffer b) := by
  unfold IsBuffer; infer_instance

/-! ## The common text of the per-kind functions

The functions of the seven kinds differ in the element type and in
`sizeof(T)` only.  The definitions below are that common text with the size as
a parameter; each per-kind function unfolds to one of them. -/

/-- The common text of the six scalar constructors. -/
def makeWith {α : Type} (sz : Nat) (length : Int) (init_value : α) : Option (TypedArray α) :=
  let capacity := wrap32 (length * 2 + 1)
  let data : Block α := malloc (byteCount capacity sz) sz
  (fillLoop init_value length.toNat 0 data).map fun d =>
    { length := length, capacity := capacity, data := d }

/-- The common text of the seven push functions. -/
def pushWith {α : Type} (sz : Nat) (arr : TypedArray α) (value : α) : Option (TypedArray α) :=
  let arr1 : TypedArray α :=
    if arr.length ≥ arr.capacity then
      let capacity := wrap32 (arr.capacity * 2 + 1)
      { arr with capacity := capacity, data := realloc arr.data (byteCount capacity sz) sz }
    else arr
  (store arr1.data arr1.length value).map fun d =>
    { arr1 with length := wrap32 (arr1.length + 1), data := d }

/-- The common text of the seven get functions. -/
def getWith {α : Type} (arr : TypedArray α) (index : Int) : Option (α × TypedArray α) :=
  (load arr.data index).map fun v => (v, arr)

/-- The common text of the seven put functions. -/
def putWith {α : Type} (arr : TypedArray α) (index : Int) (value : α) : Option (TypedArray α) :=
  (store arr.data index value).map fun d => { arr with data := d }

/-- The size `sizeof(T)` of the elements of a kind. -/
def Kind.size : Kind → Nat
  | .scalar .int32 => 4
  | .scalar .int64 => 8
  | .scalar .float64 => 8
  | .scalar .float32 => 4
  | .scalar .boolean => 1
  | .scalar .character => 1
  | .ptr => 8

/-! ## Byte strings -/

/-- The structure `MoonBitStr`: `data`, then `length`. -/
structure MoonBitStr where
  data : Block char
  length : Int
  deriving DecidableEq, Repr

/-- The loop `while (str[len] != '\0') len++;` of `__builtin_create_string`, at
the point where `len` bytes were read and `str` is what follows them.  The
read is undefined past the end of the object and on an unwritten byte; an
increment of the `int` counter past `INT_MAX` wraps to a negative index, at
which the next read is outside the object. -/
def scanLoop : Block char → Int → Option Int
  | [], _ => none
  | none :: _, _ => none
  | some c :: rest, len =>
    if c ≠ 0 then
      (if wrap32 (len + 1) < 0 then none else scanLoop rest (wrap32 (len + 1)))
    else some len

/-- The loop `for (int i = i0; i < n; i++) dst[off + i] = src[i];` with `n`
iterations left and loop variable `i`; the index `off + i` is an `int32_t`
sum. -/
def copyLoop (src : Block char) (off : Int) : Nat → Int → Block char → Option (Block char)
  | 0, _, dst => some dst
  | n + 1, i, dst =>
    (load src i).bind fun c =>
      (store dst (wrap32 (off + i)) c).bind (copyLoop src off n (i + 1))

def __builtin_create_string (str : Block char) : Option MoonBitStr :=
  (scanLoop str 0).bind fun len =>
    let data : Block char := malloc (byteCount (wrap32 (len + 1)) 1) 1
    (copyLoop str 0 len.toNat 0 data).bind fun d =>
      (store d len 0).map fun d1 => { length := len, data := d1 }

def __builtin_get_string_length (str : MoonBitStr) : Int :=
  str.length

def __builtin_string_concat (str1 str2 : MoonBitStr) : Option MoonBitStr :=
  let length := wrap32 (str1.length + str2.length)
  let data : Block char := malloc (byteCount (wrap32 (length + 1)) 1) 1
  (copyLoop str1.data 0 str1.length.toNat 0 data).bind fun d1 =>
    (copyLoop str2.data str1.length str2.length.toNat 0 d1).bind fun d2 =>
      (store d2 length 0).map fun d3 => { length := length, data := d3 }

def __builtin_get_char_in_string (str : MoonBitStr) (index : Int) : Option char :=
  load str.data index

/-- The C library call `snprintf(buffer, size, format, value)` on an array
`char buffer[size]` of unwritten bytes, where `text` is the character sequence
the conversion of `value` produces: at most `size - 1` characters of `text` are
written, then a terminating zero; the bytes after it stay unwritten. -/
def snprintf (size : Nat) (text : List char) : Block char :=
  if size = 0 then []
  else
    (text.take (size - 1)).map some ++ [some 0]
      ++ List.replicate (size - 1 - (text.take (size - 1)).length) none

/-- The digit loop of a decimal conversion: the character of the last digit of
`n` is put in front of `acc` and the loop goes on with `n / 10` until that is
zero; `fuel` bounds the number of rounds (a number has at most `n + 1`
digits). -/
def digitsLoop : Nat → Nat → List char → List char
  | 0, _, acc => acc
  | fuel + 1, n, acc =>
    if n / 10 = 0 then ((48 + (n % 10 : Nat) : Int) :: acc)
    else digitsLoop fuel (n / 10) ((48 + (n % 10 : Nat) : Int) :: acc)

/-- The decimal digits of a natural number, most significant first, as
characters `'0'`..`'9'`; `"0"` for zero. -/
def decimalDigits (n : Nat) : List char :=
  digitsLoop (n + 1) n []

/-- The character sequence of the C conversions `%d` and `%lld`: a `'-'` for a
negative value, then the decimal digits of the magnitude. -/
def format_d (value : Int) : List char :=
  if value < 0 then 45 :: decimalDigits value.natAbs else decimalDigits value.natAbs

def __builtin_int_to_string (value : int32_t) : Option MoonBitStr :=
  __builtin_create_string (snprintf 32 (format_d value))

def __builtin_int64_to_string (value : int64_t) : Option MoonBitStr :=
  __builtin_create_string (snprintf 64 (format_d value))

def __builtin_char_to_string (value : char) : Option MoonBitStr :=
  __builtin_create_string [some value, some 0]

/-- The bytes of a string literal: the characters and the terminating zero. -/
def literal (text : List char) : Block char :=
  text.map some ++ [some 0]

/-- The content of a run of bytes, when all of them are written. -/
def written : Block char → Option (List char)
  | [] => some []
  | none :: _ => none
  | some c :: rest => (written rest).map fun cs => c :: cs

/-- The bytes of a string below its length, when all of them are written. -/
def MoonBitStr.bytes (s : MoonBitStr) : Option (List char) :=
  written (s.data.take s.length.toNat)

/-- The value of a sequence of decimal digit characters read after the value
`acc`; undefined when a character is not a digit. -/
def parseDigits : List char → Nat → Option Nat
  | [], acc => some acc
  | c :: cs, acc =>
    if 48 ≤ c ∧ c ≤ 57 then parseDigits cs (acc * 10 + (c - 48).toNat) else none

/-- The integer a decimal text denotes: an optional `'-'`, then one digit or
more. -/
def parseDecimal (text : List char) : Option Int :=
  match text with
  | [] => none
  | c :: cs =>
    if c = 45 then
      (if cs = [] then none else (parseDigits cs 0).map fun (n : Nat) => -(Int.ofNat n))
    else (parseDigits (c :: cs) 0).map fun (n : Nat) => Int.ofNat n

/-! ## Floating-point conversions -/

/-- The class of a floating-point value and, when it is finite, its magnitude
`num / den`. -/
inductive FpClass where
  | nan
  | inf
  | finite (num den : Nat)
  deriving DecidableEq, Repr

/-- The sign bit of a `double`. -/
def double_negative (bits : double) : Bool :=
  decide (bits / 9223372036854775808 % 2 = 1)

/-- The class and magnitude of a `double` (IEEE 754 binary64: 11 exponent bits
with bias 1023, 52 fraction bits). -/
def double_class (bits : double) : FpClass :=
  let e := bits / 4503599627370496 % 2048
  let m := bits % 4503599627370496
  if e = 2047 then (if m = 0 then .inf else .nan)
  else if e = 0 then .finite m (2 ^ 1074)
  else if 1075 ≤ e then .finite ((4503599627370496 + m) * 2 ^ (e - 1075)) 1
  else .finite (4503599627370496 + m) (2 ^ (1075 - e))

/-- The sign bit of a `float`. -/
def float_negative (bits : float) : Bool :=
  decide (bits / 2147483648 % 2 = 1)

/-- The class and magnitude of a `float` (IEEE 754 binary32: 8 exponent bits
with bias 127, 23 fraction bits); the promotion to `double` of the variadic
call keeps them. -/
def float_class (bits : float) : FpClass :=
  let e := bits / 8388608 % 256
  let m := bits % 8388608
  if e = 255 then (if m = 0 then .inf else .nan)
  else if e = 0 then .finite m (2 ^ 149)
  else if 150 ≤ e then .finite ((8388608 + m) * 2 ^ (e - 150)) 1
  else .finite (8388608 + m) (2 ^ (150 - e))

/-- The search for the decimal exponent of `num / den ≥ 1`: the number of times
`den` can be multiplied by 10 and stay `≤ num`. -/
def expUp : Nat → Nat → Nat → Nat
  | 0, _, _ => 0
  | fuel + 1, num, den => if den * 10 ≤ num then expUp fuel num (den * 10) + 1 else 0

/-- The search for the decimal exponent of `num / den < 1`: the number of times
`num` has to be multiplied by 10 to reach `den`. -/
def expDown : Nat → Nat → Nat → Nat
  | 0, _, _ => 0
  | fuel + 1, num, den => if num < den then expDown fuel (num * 10) den + 1 else 0

/-- The decimal exponent `X` of a magnitude `num / den > 0`:
`10^X ≤ num / den < 10^(X+1)`. -/
def decimalExponent (num den : Nat) : Int :=
  if den ≤ num then Int.ofNat (expUp num num den) else -(Int.ofNat (expDown den num den))

/-- The quotient `N / D` rounded to the nearest integer, ties to even. -/
def roundHalfEven (N D : Nat) : Nat :=
  if 2 * (N % D) > D ∨ (2 * (N % D) = D ∧ N / D % 2 = 1) then N / D + 1 else N / D

/-- The magnitude `num / den` divided by `10^(X-5)` and rounded to an integer. -/
def significand (num den : Nat) (X : Int) : Nat :=
  if X ≤ 5 then roundHalfEven (num * 10 ^ (5 - X).toNat) den
  else roundHalfEven num (den * 10 ^ (X - 5).toNat)

/-- The six significant decimal digits `d` and the decimal exponent `X` of the
magnitude `num / den > 0` rounded to precision 6: the rounded value is
`d * 10^(X-5)` with `10^5 ≤ d < 10^6`. -/
def sixDigits (num den : Nat) : Nat × Int :=
  if significand num den (decimalExponent num den) = 1000000 then
    (100000, decimalExponent num den + 1)
  else (significand num den (decimalExponent num den), decimalExponent num den)

/-- A run of digits without its trailing `'0'` characters. -/
def stripZeros (ds : List char) : List char :=
  (ds.reverse.dropWhile fun c => decide (c = 48)).reverse

/-- The fractional part of a `%g` text: the digits without trailing zeros after
a `'.'`, or nothing when no digit remains. -/
def fractionText (ds : List char) : List char :=
  if stripZeros ds = [] then [] else 46 :: stripZeros ds

/-- The exponent part of a `%g` text: `'e'`, a sign, and at least two digits. -/
def exponentText (X : Int) : List char :=
  [101, if X < 0 then 45 else 43] ++
    (if X.natAbs < 10 then 48 :: decimalDigits X.natAbs else decimalDigits X.natAbs)

/-- The `%g` text of the rounded magnitude `d * 10^(X-5)`: with precision
`P = 6`, the style of `%e` when `X < -4` or `X ≥ P` and the style of `%f` with
`P - 1 - X` decimals otherwise, trailing zeros and a trailing point removed. -/
def renderG (d : Nat) (X : Int) : List char :=
  if X < -4 ∨ 6 ≤ X then
    (decimalDigits d).take 1 ++ fractionText ((decimalDigits d).drop 1) ++ exponentText X
  else if 0 ≤ X then
    (decimalDigits d).take (X.toNat + 1) ++ fractionText ((decimalDigits d).drop (X.toNat + 1))
  else
    48 :: fractionText (List.replicate (-X - 1).toNat 48 ++ decimalDigits d)

/-- The character sequence of the C conversion `%g` (default precision 6) for a
value with the given sign and class. -/
def format_g (negative : Bool) (c : FpClass) : List char :=
  (if negative then [45] else []) ++
    (match c with
     | .nan => [110, 97, 110]
     | .inf => [105, 110, 102]
     | .finite num den =>
       if num = 0 then [48] else renderG (sixDigits num den).1 (sixDigits num den).2)

def __builtin_float_to_string (value : float) : Option MoonBitStr :=
  __builtin_create_string (snprintf 64 (format_g (float_negative value) (float_class value)))

def __builtin_double_to_string (value : double) : Option MoonBitStr :=
  __builtin_create_string (snprintf 64 (format_g (double_negative value) (double_class value)))

/-- Whether a character is a decimal digit. -/
def isDigit (c : char) : Bool :=
  decide (48 ≤ c ∧ c ≤ 57)

/-- The exponent a decimal floating-point text ends with: nothing (exponent 0),
or `'e'`, an optional sign and one digit or more. -/
def parseExponent (t : List char) : Option Int :=
  match t with
  | [] => some 0
  | c :: rest =>
    if c = 101 then
      (match rest with
       | [] => none
       | s :: ds =>
         if s = 45 then
           (if ds = [] then none else (parseDigits ds 0).map fun (n : Nat) => -(Int.ofNat n))
         else if s = 43 then
           (if ds = [] then none else (parseDigits ds 0).map fun (n : Nat) => Int.ofNat n)
         else (parseDigits (s :: ds) 0).map fun (n : Nat) => Int.ofNat n)
    else none

/-- The digits and the exponent of an unsigned decimal floating-point text:
digits with an optional `'.'`, then an optional exponent.  The result `(M, E)`
stands for `M * 10^E`. -/
def parseUnsigned (t : List char) : Option (Nat × Int) :=
  let ip := t.takeWhile isDigit
  let t1 := t.dropWhile isDigit
  let fp := if t1.head? = some 46 then t1.tail.takeWhile isDigit else []
  let t2 := if t1.head? = some 46 then t1.tail.dropWhile isDigit else t1
  if ip ++ fp = [] then none
  else
    (parseDigits (ip ++ fp) 0).bind fun M =>
      (parseExponent t2).map fun E => (M, E - Int.ofNat fp.length)

/-- The decimal number a floating-point text denotes, as the C library reads it
(`strtod`, `strtof`): an optional `'-'`, then an unsigned decimal text.  The
result `(negative, M, E)` stands for `±M * 10^E`. -/
def parseFloat (text : List char) : Option (Bool × Nat × Int) :=
  match text with
  | [] => none
  | c :: rest =>
    if c = 45 then (parseUnsigned rest).map fun r => (true, r.1, r.2)
    else (parseUnsigned (c :: rest)).map fun r => (false, r.1, r.2)

/-- The decimal number `M * 10^E` is the magnitude `num / den`. -/
def DenotesMagnitude (M : Nat) (E : Int) (num den : Nat) : Prop :=
  if 0 ≤ E then M * 10 ^ E.toNat * den = num else M * den = num * 10 ^ (-E).toNat

instance (M : Nat) (E : Int) (num den : Nat) : Decidable (DenotesMagnitude M E num den) := by
  unfold DenotesMagnitude; infer_instance

/-- The decimal number `M * 10^E` as a fraction `(a, b)` with `M * 10^E = a / b`. -/
def decimalFraction (M : Nat) (E : Int) : Nat × Nat :=
  if 0 ≤ E then (M * 10 ^ E.toNat, 1) else (M, 10 ^ (-E).toNat)

/-- Whether a class is the one of a finite value. -/
def FpClass.isFinite : FpClass → Bool
  | .finite _ _ => true
  | _ => false

/-- The magnitude whose exponent and fraction fields, read as one number, are
`j`, as a fraction.  Consecutive fields are consecutive magnitudes of the
format.  Past the largest finite magnitude, where the fields are those of
infinity, the point is `2^top`, the bound of the finite magnitudes. -/
def gridPoint (cls : Nat → FpClass) (top : Nat) (j : Nat) : Nat × Nat :=
  match cls j with
  | .finite n d => (n, d)
  | _ => (2 ^ top, 1)

/-- The fraction `a / b` is not below the midpoint of the magnitudes `lo` and
`v`, and is on the midpoint only when `tie` holds. -/
def AboveMidpoint (tie : Bool) (lo v : Nat × Nat) (a b : Nat) : Prop :=
  if tie then (lo.1 * v.2 + v.1 * lo.2) * b ≤ 2 * a * (lo.2 * v.2)
  else (lo.1 * v.2 + v.1 * lo.2) * b < 2 * a * (lo.2 * v.2)

/-- The fraction `a / b` is not above the midpoint of the magnitudes `v` and
`hi`, and is on the midpoint only when `tie` holds. -/
def BelowMidpoint (tie : Bool) (v hi : Nat × Nat) (a b : Nat) : Prop :=
  if tie then 2 * a * (v.2 * hi.2) ≤ (v.1 * hi.2 + hi.1 * v.2) * b
  else 2 * a * (v.2 * hi.2) < (v.1 * hi.2 + hi.1 * v.2) * b

/-- Correct rounding (IEEE 754 round to nearest, ties to even): the finite
magnitude with fields `k` is the magnitude of the format nearest to `a / b`,
and of two nearest ones the one with the even fraction field. -/
def RoundsTo (cls : Nat → FpClass) (top : Nat) (k : Nat) (a b : Nat) : Prop :=
  (cls k).isFinite = true ∧
    (k = 0 ∨ AboveMidpoint (decide (k % 2 = 0)) (gridPoint cls top (k - 1)) (gridPoint cls top k)
      a b) ∧
    BelowMidpoint (decide (k % 2 = 0)) (gridPoint cls top k) (gridPoint cls top (k + 1)) a b

/-- Reading the text as a `double` with a correctly rounding `strtod` gives the
finite `double` with the bit pattern `bits`: the sign is the one of the text and
the magnitude is the one nearest to the decimal number of the text. -/
def ReadsBackAsDouble (text : List char) (bits : double) : Prop :=
  match parseFloat text with
  | some (n, M, E) =>
    n = double_negative bits ∧
      RoundsTo double_class 1024 (bits % 9223372036854775808)
        (decimalFraction M E).1 (decimalFraction M E).2
  | none => False

/-- Reading the text as a `float` with a correctly rounding `strtof` gives the
finite `float` with the bit pattern `bits`. -/
def ReadsBackAsFloat (text : List char) (bits : float) : Prop :=
  match parseFloat text with
  | some (n, M, E) =>
    n = float_negative bits ∧
      RoundsTo float_class 128 (bits % 2147483648)
        (decimalFraction M E).1 (decimalFraction M E).2
  | none => False

/-- The magnitude `num / den` with fields `k`, rounded to six significant
decimal digits and then to the nearest magnitude of the format, is itself
again. -/
def SixDigitsRoundBack (cls : Nat → FpClass) (top : Nat) (k : Nat) (num den : Nat) : Prop :=
  num = 0 ∨
    RoundsTo cls top k
      (decimalFraction (sixDigits num den).1 ((sixDigits num den).2 - 5)).1
      (decimalFraction (sixDigits num den).1 ((sixDigits num den).2 - 5)).2

instance (tie : Bool) (lo v : Nat × Nat) (a b : Nat) : Decidable (AboveMidpoint tie lo v a b) := by
  unfold AboveMidpoint; infer_instance

instance (tie : Bool) (v hi : Nat × Nat) (a b : Nat) : Decidable (BelowMidpoint tie v hi a b) := by
  unfold BelowMidpoint; infer_instance

instance (cls : Nat → FpClass) (top k a b : Nat) : Decidable (RoundsTo cls top k a b) := by
  unfold RoundsTo; infer_instance

instance (text : List char) (bits : double) : Decidable (ReadsBackAsDouble text bits) := by
  unfold ReadsBackAsDouble; split <;> infer_instance

instance (text : List char) (bits : float) : Decidable (ReadsBackAsFloat text bits) := by
  unfold ReadsBackAsFloat; split <;> infer_instance

instance (cls : Nat → FpClass) (top k num den : Nat) :
    Decidable (SixDigitsRoundBack cls top k num den) := by
  unfold SixDigitsRoundBack; infer_instance

/-- The magnitude with exponent-and-fraction field `k` of a binary format whose
fraction field counts `P` values, in units of the smallest positive magnitude
of the format. -/
def ordinalValue (P k : Nat) : Nat :=
  if k / P = 0 then k % P else (P + k % P) * 2 ^ (k / P - 1)

/-- The finite value is unchanged by rounding to six significant decimal
digits. -/
def ExactInSixDigits (c : FpClass) : Prop :=
  match c with
  | .finite num den =>
    num = 0 ∨ DenotesMagnitude (sixDigits num den).1 ((sixDigits num den).2 - 5) num den
  | _ => False

instance (c : FpClass) : Decidable (ExactInSixDigits c) := by
  unfold ExactInSixDigits; split <;> infer_instance

/-- The magnitudes between `2^-lo` and `2^hi`, zero apart. -/
def InRange (hi lo : Nat) (c : FpClass) : Prop :=
  ∀ num den, c = .finite num den →
    0 < den ∧ num < 2 ^ hi * den ∧ (0 < num → den ≤ 2 ^ lo * num)

/-- The magnitudes in the range of a `double`: zero, or between `2^-1074` and
`2^1024`. -/
def InDoubleRange (c : FpClass) : Prop :=
  InRange 1024 1074 c

/-- The string of the data model that holds the bytes `bytes`. -/
def MoonBitStr.ofBytes (bytes : List char) : MoonBitStr :=
  { data := bytes.map some ++ [some 0], length := bytes.length }

/-- A string of the data model: a length in the `int32_t` domain and `≥ 0`, and
`data` an allocation of `length + 1` bytes, all written, with a zero at index
`length`. -/
def IsString (s : MoonBitStr) : Prop :=
  0 ≤ s.length ∧ s.length < 2147483648 ∧ (s.data.length : Int) = s.length + 1 ∧
    (∀ slot ∈ s.data, slot ≠ none) ∧ load s.data s.length = some 0

instance (s : MoonBitStr) : Decidable (IsString s) := by
  unfold IsString; infer_instance

/-- The part of the data model C14 states: `data` owns exactly `length + 1` bytes
and the byte at index `length` is the null sentinel. -/
def OwnsSentinel (s : MoonBitStr) : Prop :=
  (s.data.length : Int) = s.length + 1 ∧ load s.data s.length = some 0

instance (s : MoonBitStr) : Decidable (OwnsSentinel s) := by
  unfold OwnsSentinel; infer_instance

/-- The strings a program builds with `__builtin_create_string`,
`__builtin_string_concat`, `__builtin_int_to_string`,
`__builtin_int64_to_string` and `__builtin_char_to_string`. -/
inductive Built : MoonBitStr → Prop where
  | create (str : Block char) (s : MoonBitStr) :
      __builtin_create_string str = some s → Built s
  | concat (a b s : MoonBitStr) :
      Built a → Built b → __builtin_string_concat a b = some s → Built s
  | int (v : int32_t) (s : MoonBitStr) :
      -2147483648 ≤ v → v < 2147483648 → __builtin_int_to_string v = some s → Built s
  | int64 (v : int64_t) (s : MoonBitStr) :
      -9223372036854775808 ≤ v → v < 9223372036854775808 →
      __builtin_int64_to_string v = some s → Built s
  | char (c : char) (s : MoonBitStr) :
      __builtin_char_to_string c = some s → Built s

/-! ## Counting reallocations -/

/-- The number of calls in `Push(b, v_1); ...; Push(b, v_n)` that take the growth
branch `length >= capacity` and reallocate. -/
def growthCount (k : Kind) : TypedArray k.elem → List k.elem → Nat
  | _, [] => 0
  | b, v :: vs =>
    (if b.length ≥ b.capacity then 1 else 0) +
      (match Push k b v with
       | some b1 => growthCount k b1 vs
       | none => 0)

/-! ## The ring-buffer queue of `src/ctest/queue.c`

`Queue` holds `int data[MAX_SIZE]` and the three `int` fields `front`, `rear`
and `size`. The calls to `print_str`, `print_int` and `newline` write to the
standard output and do not touch the queue; they are left out. `%` is the
remainder of C, which truncates towards zero (`Int.tmod`). -/

/-- The constant `#define MAX_SIZE 5`. -/
def MAX_SIZE : Int := 5

/-- The struct `Queue`: `data` is the array of `MAX_SIZE` slots. -/
structure Queue where
  data : Block Int
  front : Int
  rear : Int
  size : Int
deriving DecidableEq, Repr

/-- The function `initQueue`: the three fields are set, `data` is not written. -/
def initQueue (q : Queue) : Queue :=
  { q with front := 0, rear := -1, size := 0 }

/-- The function `isFull`: the `int` value of `q->size == MAX_SIZE`. -/
def isFull (q : Queue) : Int := if q.size = MAX_SIZE then 1 else 0

/-- The function `isEmpty`: the `int` value of `q->size == 0`. -/
def isEmpty (q : Queue) : Int := if q.size = 0 then 1 else 0

/-- The function `enqueue`: returns at once on a full queue, otherwise advances
`rear` around the ring, writes the item there and counts it. -/
def enqueue (q : Queue) (item : Int) : Option Queue :=
  if isFull q ≠ 0 then some q
  else
    let rear := (wrap32 (q.rear + 1)).tmod MAX_SIZE
    (store q.data rear item).map fun d =>
      { q with rear := rear, data := d, size := wrap32 (q.size + 1) }

/-- The function `dequeue`: `-1` on an empty queue, otherwise the item at `front`,
with `front` advanced around the ring and the count decreased. The result is the
returned value and the queue afterwards. -/
def dequeue (q : Queue) : Option (Int × Queue) :=
  if isEmpty q ≠ 0 then some (-1, q)
  else
    (load q.data q.front).map fun item =>
      (item, { q with front := (wrap32 (q.front + 1)).tmod MAX_SIZE,
                      size := wrap32 (q.size - 1) })

/-- The function `peek`: `-1` on an empty queue, otherwise the item at `front`. -/
def peek (q : Queue) : Option Int :=
  if isEmpty q ≠ 0 then some (-1) else load q.data q.front

/-- One call on a queue, as `main` makes them. -/
inductive Call where
  | enqueue (item : Int)
  | dequeue
  | peek
deriving DecidableEq, Repr

/-- Performs one call: the values it returns (none for `enqueue`) and the queue
afterwards. -/
def callQueue (q : Queue) : Call → Option (List Int × Queue)
  | .enqueue item => (enqueue q item).map fun q1 => ([], q1)
  | .dequeue => (dequeue q).map fun r => ([r.1], r.2)
  | .peek => (peek q).map fun v => ([v], q)

/-- Performs a sequence of calls in order and collects the returned values. -/
def runQueue (q : Queue) : List Call → Option (List Int × Queue)
  | [] => some ([], q)
  | c :: cs =>
    (callQueue q c).bind fun r =>
      (runQueue r.2 cs).map fun rs => (r.1 ++ rs.1, rs.2)

/-- The calls of `main` after `initQueue`, in order. -/
def mainCalls : List Call :=
  [.enqueue 10, .enqueue 20, .enqueue 30, .peek, .dequeue, .enqueue 40, .enqueue 50,
   .enqueue 60, .dequeue, .dequeue, .dequeue, .dequeue, .dequeue]

/-- The local variable `Queue q` of `main` before `initQueue`: no slot of `data`
is written; the three fields hold the given values. -/
def freshQueue (front rear size : Int) : Queue :=
  { data := List.replicate 5 none, front := front, rear := rear, size := size }

/-- Reads `n` items around the ring, starting at index `front`. -/
def readRing (data : Block Int) : Int → Nat → Option (List Int)
  | _, 0 => some []
  | front, n + 1 =>
    (load data front).bind fun item =>
      (readRing data ((front + 1).tmod MAX_SIZE) n).map fun rest => item :: rest

/-- The items a queue holds, oldest first: `size` items read from `front`. -/
def Queue.contents (q : Queue) : Option (List Int) :=
  readRing q.data q.front q.size.toNat

/-- The bounded FIFO list of the specification, capacity 5: adding to a full
list changes nothing, otherwise the item goes to the end. -/
def fifoEnqueue (l : List Int) (item : Int) : List Int :=
  if l.length = 5 then l else l ++ [item]

/-- The bounded FIFO list of the specification: removing from the empty list
gives `-1` and changes nothing, otherwise the oldest item is returned and
removed. -/
def fifoDequeue : List Int → Int × List Int
  | [] => (-1, [])
  | x :: xs => (x, xs)

/-- The bounded FIFO list of the specification: the oldest item, `-1` when there
is none. -/
def fifoPeek : List Int → Int
  | [] => -1
  | x :: _ => x

/-- One call on the FIFO list of the specification. -/
def fifoCall (l : List Int) : Call → List Int × List Int
  | .enqueue item => ([], fifoEnqueue l item)
  | .dequeue => ([(fifoDequeue l).1], (fifoDequeue l).2)
  | .peek => ([fifoPeek l], l)

/-- A sequence of calls on the FIFO list of the specification: the returned
values and the list afterwards. -/
def fifoRun (l : List Int) : List Call → List Int × List Int
  | [] => ([], l)
  | c :: cs => ((fifoCall l c).1 ++ (fifoRun (fifoCall l c).2 cs).1,
                (fifoRun (fifoCall l c).2 cs).2)

/-! ## The recursive `fib` of the test programs -/

/-- The function `fib` of `test_small_fib.c`, `test_fib_values.c`,
`test_tiny_fib.c` and `test_fib4.c`, run with a bound on the depth of the call
stack: `none` when a call would exceed the bound. `int` arithmetic wraps as
elsewhere in this development. -/
def fib : Nat → Int → Option Int
  | 0, _ => none
  | depth + 1, n =>
    if n ≤ 1 then some n
    else
      (fib depth (wrap32 (n - 1))).bind fun r1 =>
        (fib depth (wrap32 (n - 2))).bind fun r2 =>
          some (wrap32 (r1 + r2))


/-- The queue `q` holds exactly the items of `l`, oldest first: the fields are in
range and the ring slots from `front` on carry the items. -/
def Holds (q : Queue) (l : List Int) : Prop :=
  q.data.length = 5 ∧ 0 ≤ q.front ∧ q.front < 5 ∧ -1 ≤ q.rear ∧ q.rear < 5 ∧
    q.size = l.length ∧ l.length ≤ 5 ∧ (q.rear + 1) % 5 = (q.front + l.length) % 5 ∧
    ∀ i : Nat, i < l.length → load q.data ((q.front + i) % 5) = l[i]?

/-! ## Unfolding the per-kind functions -/

theorem Construct_eq (s : ScalarKind) (length : Int) (fill : s.elem) :
    Construct s length fill = makeWith (Kind.size (.scalar s)) length fill := by
  cases s <;> rfl

theorem Push_eq (k : Kind) (b : TypedArray k.elem) (v : k.elem) :
    Push k b v = pushWith k.size b v := by
  rcases k with s | _
  · cases s <;> rfl
  · rfl

theorem Get_eq (k : Kind) (b : TypedArray k.elem) (i : Int) :
    Get k b i = getWith b i := by
  rcases k with s | _
  · cases s <;> rfl
  · rfl

theorem Put_eq (k : Kind) (b : TypedArray k.elem) (i : Int) (v : k.elem) :
    Put k b i v = putWith b i v := by
  rcases k with s | _
  · cases s <;> rfl
  · rfl

theorem Kind.size_cases (k : Kind) : k.size = 1 ∨ k.size = 4 ∨ k.size = 8 := by
  rcases k with s | _
  · cases s <;> decide
  · decide

/-! ## Arithmetic and heap lemmas -/

theorem wrap32_of_range (x : Int) (h1 : -2147483648 ≤ x) (h2 : x < 2147483648) :
    wrap32 x = x := by
  unfold wrap32; omega

theorem wrap32_range (x : Int) : -2147483648 ≤ wrap32 x ∧ wrap32 x < 2147483648 := by
  unfold wrap32; omega

theorem wrap32_neg_of_overflow (x : Int) (h1 : 2147483648 ≤ x) (h2 : x < 4294967296) :
    wrap32 x < 0 := by
  unfold wrap32; omega

theorem byteCount_of_nonneg (n : Int) (sz : Nat) (h0 : 0 ≤ n) (h1 : n < 2147483648)
    (hs : sz = 1 ∨ sz = 4 ∨ sz = 8) : byteCount n sz = n.toNat * sz := by
  unfold byteCount
  rcases hs with rfl | rfl | rfl <;> omega

theorem byteCount_of_neg (n : Int) (sz : Nat) (h0 : -2147483648 ≤ n) (h1 : n < 0)
    (hs : sz = 1 ∨ sz = 4 ∨ sz = 8) : PTRDIFF_MAX < byteCount n sz := by
  unfold byteCount PTRDIFF_MAX
  rcases hs with rfl | rfl | rfl <;> omega

theorem malloc_of_nonneg {α : Type} (n : Int) (sz : Nat) (h0 : 0 ≤ n) (h1 : n < 2147483648)
    (hs : sz = 1 ∨ sz = 4 ∨ sz = 8) :
    (malloc (byteCount n sz) sz : Block α) = List.replicate n.toNat none := by
  have hb := byteCount_of_nonneg n sz h0 h1 hs
  have hle : ¬ byteCount n sz > PTRDIFF_MAX := by
    rw [hb]; unfold PTRDIFF_MAX
    rcases hs with rfl | rfl | rfl <;> omega
  unfold malloc
  rw [if_neg hle, hb, Nat.mul_div_cancel _ (by rcases hs with rfl | rfl | rfl <;> decide)]

theorem malloc_of_neg {α : Type} (n : Int) (sz : Nat) (h0 : -2147483648 ≤ n) (h1 : n < 0)
    (hs : sz = 1 ∨ sz = 4 ∨ sz = 8) :
    (malloc (byteCount n sz) sz : Block α) = [] := by
  unfold malloc
  rw [if_pos (byteCount_of_neg n sz h0 h1 hs)]

theorem realloc_of_nonneg {α : Type} (blk : Block α) (n : Int) (sz : Nat) (h0 : 0 ≤ n)
    (h1 : n < 2147483648) (hs : sz = 1 ∨ sz = 4 ∨ sz = 8) :
    realloc blk (byteCount n sz) sz
      = blk.take n.toNat ++ List.replicate (n.toNat - blk.length) none := by
  have hb := byteCount_of_nonneg n sz h0 h1 hs
  have hle : ¬ byteCount n sz > PTRDIFF_MAX := by
    rw [hb]; unfold PTRDIFF_MAX
    rcases hs with rfl | rfl | rfl <;> omega
  unfold realloc
  rw [if_neg hle, hb, Nat.mul_div_cancel _ (by rcases hs with rfl | rfl | rfl <;> decide)]

theorem realloc_of_neg {α : Type} (blk : Block α) (n : Int) (sz : Nat)
    (h0 : -2147483648 ≤ n) (h1 : n < 0) (hs : sz = 1 ∨ sz = 4 ∨ sz = 8) :
    realloc blk (byteCount n sz) sz = [] := by
  unfold realloc
  rw [if_pos (byteCount_of_neg n sz h0 h1 hs)]

theorem store_nil {α : Type} (i : Int) (v : α) : store ([] : Block α) i v = none := by
  simp [store]

theorem store_natCast {α : Type} (blk : Block α) (i : Nat) (v : α) :
    store blk (i : Int) v = if i < blk.length then some (blk.set i (some v)) else none := by
  simp [store]

theorem load_natCast {α : Type} (blk : Block α) (i : Nat) :
    load blk (i : Int) = blk[i]?.join := by
  simp [load]

theorem load_of_neg {α : Type} (blk : Block α) (i : Int) (h : i < 0) : load blk i = none := by
  unfold load
  rw [if_neg (by omega)]

theorem fillLoop_fresh {α : Type} (init : α) (n i m : Nat) :
    fillLoop init n (i : Int) (List.replicate i (some init) ++ List.replicate m none)
      = if n ≤ m then
          some (List.replicate (i + n) (some init) ++ List.replicate (m - n) none)
        else none := by
  induction n generalizing i m with
  | zero => simp [fillLoop]
  | succ n ih =>
    rw [fillLoop, store_natCast]
    cases m with
    | zero => simp
    | succ m =>
      have hlt : i < (List.replicate i (some init) ++ List.replicate (m + 1) (none : Option α)).length := by
        simp
      rw [if_pos hlt]
      have hset : (List.replicate i (some init) ++ List.replicate (m + 1) (none : Option α)).set i (some init)
          = List.replicate (i + 1) (some init) ++ List.replicate m none := by
        rw [List.set_append_right _ _ (by simp), List.replicate_succ' i, List.append_assoc]
        simp [List.replicate_succ]
      rw [hset]
      simp only [Option.some_bind]
      have := ih (i + 1) m
      push_cast at this
      rw [this]
      simp [Nat.add_assoc, Nat.add_comm 1 n]

theorem makeWith_of_small {α : Type} (sz : Nat) (hs : sz = 1 ∨ sz = 4 ∨ sz = 8)
    (length : Int) (init : α) (h0 : 0 ≤ length) (h1 : length < 1073741824) :
    makeWith sz length init
      = some { length := length, capacity := 2 * length + 1,
               data := List.replicate length.toNat (some init)
                        ++ List.replicate (length.toNat + 1) none } := by
  have hc : wrap32 (length * 2 + 1) = 2 * length + 1 := by
    rw [wrap32_of_range _ (by omega) (by omega)]; ring
  unfold makeWith
  simp only [hc]
  rw [malloc_of_nonneg _ _ (by omega) (by omega) hs]
  have hm : (2 * length + 1).toNat = length.toNat + (length.toNat + 1) := by omega
  have := fillLoop_fresh init length.toNat 0 (2 * length + 1).toNat
  simp only [List.replicate_zero, List.nil_append, Nat.cast_zero, Nat.zero_add] at this
  rw [this, if_pos (by omega), hm]
  simp

theorem makeWith_of_large {α : Type} (sz : Nat) (hs : sz = 1 ∨ sz = 4 ∨ sz = 8)
    (length : Int) (init : α) (h0 : 1073741824 ≤ length) (h1 : length < 2147483648) :
    makeWith sz length init = none := by
  have hc : wrap32 (length * 2 + 1) < 0 := wrap32_neg_of_overflow _ (by omega) (by omega)
  unfold makeWith
  simp only
  rw [malloc_of_neg _ _ (wrap32_range _).1 hc hs]
  have := fillLoop_fresh init length.toNat 0 0
  simp only [List.replicate_zero, List.nil_append, Nat.cast_zero, List.append_nil] at this
  rw [this, if_neg (by omega)]
  rfl

theorem load_set {α : Type} (blk : Block α) (j : Nat) (hj : j < blk.length) (v : α) (i : Int) :
    load (blk.set j (some v)) i = if i = (j : Int) then some v else load blk i := by
  by_cases hi : 0 ≤ i
  · lift i to Nat using hi
    rw [load_natCast, load_natCast, List.getElem?_set]
    by_cases hij : j = i
    · subst hij
      simp [hj]
    · have : ¬ ((i : Int) = (j : Int)) := by omega
      simp [hij, this]
  · have hne : ¬ (i = (j : Int)) := by omega
    rw [if_neg hne, load_of_neg _ _ (by omega), load_of_neg _ _ (by omega)]

theorem load_append_fresh {α : Type} (blk : Block α) (k : Nat) (i : Int) :
    load (blk ++ List.replicate k none) i = load blk i := by
  by_cases hi : 0 ≤ i
  · lift i to Nat using hi
    rw [load_natCast, load_natCast]
    by_cases hlt : i < blk.length
    · rw [List.getElem?_append_left hlt]
    · rw [List.getElem?_append_right (by omega)]
      have h1 : blk[i]? = none := List.getElem?_eq_none (by omega)
      rw [h1]
      by_cases h2 : i - blk.length < k
      · simp [List.getElem?_replicate, h2]
      · simp [List.getElem?_replicate, h2]
  · rw [load_of_neg _ _ (by omega), load_of_neg _ _ (by omega)]

theorem load_replicate_some {α : Type} (n m : Nat) (v : α) (i : Int) (h0 : 0 ≤ i)
    (h1 : i < n) :
    load (List.replicate n (some v) ++ List.replicate m none) i = some v := by
  lift i to Nat using h0
  have hi : i < n := by omega
  rw [load_natCast, List.getElem?_append_left (by simpa using hi)]
  simp [List.getElem?_replicate, hi]

/-- The effect of a push on a buffer of the data model whose growth, when it
happens, stays in the `int32_t` range. -/
theorem pushWith_spec {α : Type} (sz : Nat) (hs : sz = 1 ∨ sz = 4 ∨ sz = 8)
    (b : TypedArray α) (v : α) (hb : IsBuffer b) (hc : b.capacity < 2147483648)
    (hg : b.length < b.capacity ∨ b.capacity < 1073741824) :
    ∃ b1, pushWith sz b v = some b1 ∧ b1.length = b.length + 1 ∧
      b1.capacity = (if b.length ≥ b.capacity then 2 * b.capacity + 1 else b.capacity) ∧
      (b1.data.length : Int) = b1.capacity ∧
      load b1.data b.length = some v ∧
      ∀ i : Int, i ≠ b.length → load b1.data i = load b.data i := by
  obtain ⟨len, cap, data⟩ := b
  obtain ⟨⟨h0, hle⟩, hd⟩ := hb
  simp only at h0 hle hd hc hg
  have hlen : (len.toNat : Int) = len := Int.toNat_of_nonneg h0
  have hw : wrap32 (len + 1) = len + 1 := wrap32_of_range _ (by omega) (by omega)
  by_cases hge : len ≥ cap
  · have hcap : cap < 1073741824 := by omega
    have hcw : wrap32 (cap * 2 + 1) = 2 * cap + 1 := by
      rw [wrap32_of_range _ (by omega) (by omega)]; ring
    have hre : realloc data (byteCount (2 * cap + 1) sz) sz
        = data ++ List.replicate (len.toNat + 1) none := by
      rw [realloc_of_nonneg _ _ _ (by omega) (by omega) hs]
      rw [List.take_of_length_le (by omega)]
      congr 2
      omega
    have hin : len.toNat < (data ++ List.replicate (len.toNat + 1) (none : Option α)).length := by
      simp only [List.length_append, List.length_replicate]
      omega
    have hst : store (data ++ List.replicate (len.toNat + 1) none) len v
        = some ((data ++ List.replicate (len.toNat + 1) none).set len.toNat (some v)) := by
      unfold store
      rw [if_pos]
      refine ⟨h0, ?_⟩
      simp only [List.length_append, List.length_replicate]
      omega
    refine ⟨{ length := len + 1, capacity := 2 * cap + 1,
              data := (data ++ List.replicate (len.toNat + 1) none).set len.toNat (some v) }, ?_,
            rfl, ?_, ?_, ?_, ?_⟩
    · unfold pushWith
      simp only [if_pos hge, hcw, hre, hst, hw, Option.map_some']
    · simp only [if_pos hge]
    · simp only [List.length_set, List.length_append, List.length_replicate]
      push_cast
      omega
    · simp only
      rw [load_set _ _ hin, if_pos hlen.symm]
    · intro i hi
      simp only at hi ⊢
      rw [load_set _ _ hin, if_neg (by omega), load_append_fresh]
  · have hst : store data len v = some (data.set len.toNat (some v)) := by
      unfold store
      rw [if_pos]
      exact ⟨h0, by omega⟩
    refine ⟨{ length := len + 1, capacity := cap, data := data.set len.toNat (some v) }, ?_,
            rfl, ?_, ?_, ?_, ?_⟩
    · unfold pushWith
      simp only [if_neg hge, hst, hw, Option.map_some']
    · simp only [if_neg hge]
    · simp only [List.length_set]
      exact hd
    · simp only
      rw [load_set _ _ (by omega), if_pos hlen.symm]
    · intro i hi
      simp only at hi ⊢
      rw [load_set _ _ (by omega), if_neg (by omega)]

/-- The effect of a put inside the allocation. -/
theorem putWith_spec {α : Type} (b : TypedArray α) (i : Int) (v : α) (h0 : 0 ≤ i)
    (h1 : i < b.data.length) :
    ∃ b1, putWith b i v = some b1 ∧ b1.length = b.length ∧ b1.capacity = b.capacity ∧
      b1.data.length = b.data.length ∧ load b1.data i = some v ∧
      ∀ j : Int, j ≠ i → load b1.data j = load b.data j := by
  have hi : i.toNat < b.data.length := by omega
  have hcast : (i.toNat : Int) = i := Int.toNat_of_nonneg h0
  refine ⟨{ b with data := b.data.set i.toNat (some v) }, ?_, rfl, rfl, ?_, ?_, ?_⟩
  · unfold putWith store
    rw [if_pos ⟨h0, hi⟩]
    rfl
  · simp only [List.length_set]
  · simp only
    rw [load_set _ _ hi, if_pos hcast.symm]
  · intro j hj
    simp only
    rw [load_set _ _ hi, if_neg (by omega)]

/-- A put with a defined result changes the slots only. -/
theorem putWith_some {α : Type} (b b1 : TypedArray α) (i : Int) (v : α)
    (h : putWith b i v = some b1) :
    b1.length = b.length ∧ b1.capacity = b.capacity ∧ b1.data.length = b.data.length := by
  unfold putWith store at h
  split at h
  · simp only [Option.map_some', Option.some.injEq] at h
    subst h
    simp
  · simp at h

/-- The members a push with a defined result leaves in the structure. -/
theorem pushWith_some_fields {α : Type} (sz : Nat) (b b1 : TypedArray α) (v : α)
    (h : pushWith sz b v = some b1) :
    b1.length = wrap32 (b.length + 1) ∧
      b1.capacity = (if b.length ≥ b.capacity then wrap32 (b.capacity * 2 + 1) else b.capacity) := by
  unfold pushWith at h
  simp only [Option.map_eq_some'] at h
  obtain ⟨d, _, hd⟩ := h
  subst hd
  by_cases hge : b.length ≥ b.capacity
  · simp [hge]
  · simp [hge]

/-- A push with a defined result keeps the data model, also without a bound
on the capacity: a growth that leaves the `int32_t` range has no defined
result. -/
theorem pushWith_some_isBuffer {α : Type} (sz : Nat) (hs : sz = 1 ∨ sz = 4 ∨ sz = 8)
    (b b1 : TypedArray α) (v : α) (hb : IsBuffer b) (hc : b.capacity < 2147483648)
    (h : pushWith sz b v = some b1) : IsBuffer b1 ∧ b1.capacity < 2147483648 := by
  by_cases hg : b.length < b.capacity ∨ b.capacity < 1073741824
  · obtain ⟨b2, h2, hl, hcap, hd, _, _⟩ := pushWith_spec sz hs b v hb hc hg
    rw [h2] at h
    simp only [Option.some.injEq] at h
    subst h
    obtain ⟨⟨h0, hle⟩, _⟩ := hb
    refine ⟨⟨⟨by omega, ?_⟩, hd⟩, ?_⟩
    · rw [hl, hcap]; split <;> omega
    · rw [hcap]; split <;> omega
  · exfalso
    obtain ⟨⟨h0, hle⟩, hd⟩ := hb
    have hge : b.length ≥ b.capacity := by omega
    have hneg : wrap32 (b.capacity * 2 + 1) < 0 :=
      wrap32_neg_of_overflow _ (by omega) (by omega)
    unfold pushWith at h
    simp only [if_pos hge] at h
    rw [realloc_of_neg _ _ _ (wrap32_range _).1 hneg hs, store_nil] at h
    simp at h

/-- A constructor call with a length `≥ 0` and a defined result gives a buffer of
the data model. -/
theorem makeWith_some_isBuffer {α : Type} (sz : Nat) (hs : sz = 1 ∨ sz = 4 ∨ sz = 8)
    (length : Int) (init : α) (b : TypedArray α) (h0 : 0 ≤ length)
    (h : makeWith sz length init = some b) : IsBuffer b ∧ b.capacity < 2147483648 := by
  unfold makeWith at h
  simp only at h
  have hr := wrap32_range (length * 2 + 1)
  by_cases hneg : wrap32 (length * 2 + 1) < 0
  · exfalso
    rw [malloc_of_neg _ _ hr.1 hneg hs] at h
    have hf := fillLoop_fresh init length.toNat 0 0
    simp only [List.replicate_zero, List.nil_append, Nat.cast_zero, List.append_nil] at hf
    rw [hf] at h
    by_cases hz : length.toNat ≤ 0
    · have : length = 0 := by omega
      subst this
      have : wrap32 (0 * 2 + 1) = 1 := by decide
      omega
    · rw [if_neg hz] at h
      simp at h
  · rw [malloc_of_nonneg _ _ (by omega) hr.2 hs] at h
    have hf := fillLoop_fresh init length.toNat 0 (wrap32 (length * 2 + 1)).toNat
    simp only [List.replicate_zero, List.nil_append, Nat.cast_zero, Nat.zero_add] at hf
    rw [hf] at h
    by_cases hle : length.toNat ≤ (wrap32 (length * 2 + 1)).toNat
    · rw [if_pos hle] at h
      simp only [Option.map_some', Option.some.injEq] at h
      subst h
      refine ⟨⟨⟨h0, ?_⟩, ?_⟩, hr.2⟩
      · simp only; omega
      · simp only [List.length_append, List.length_replicate]
        push_cast
        omega
    · rw [if_neg hle] at h
      simp at h

/-- The buffers a program reaches are buffers of the data model with a capacity
in the `int32_t` range. -/
theorem Reachable.isBuffer {s : ScalarKind} {b : TypedArray s.elem} (h : Reachable s b) :
    IsBuffer b ∧ b.capacity < 2147483648 := by
  induction h with
  | construct length fill b h0 hc =>
    rw [Construct_eq] at hc
    exact makeWith_some_isBuffer _ (Kind.size_cases _) length fill b h0 hc
  | push b b1 v _ hp ih =>
    rw [Push_eq] at hp
    exact pushWith_some_isBuffer _ (Kind.size_cases _) b b1 v ih.1 ih.2 hp
  | put b b1 i v _ hp ih =>
    rw [Put_eq] at hp
    obtain ⟨hl, hc, hd⟩ := putWith_some b b1 i v hp
    obtain ⟨⟨⟨h0, hle⟩, hdata⟩, hcap⟩ := ih
    refine ⟨⟨⟨by omega, by omega⟩, ?_⟩, by omega⟩
    rw [hd, hc]
    exact hdata

/-- The effect of a sequence of pushes that keeps the length below `2^30`. -/
theorem pushAll_spec (k : Kind) (vs : List k.elem) :
    ∀ b : TypedArray k.elem, IsBuffer b → b.capacity ≤ 2 * b.length + 1 →
      b.length + vs.length < 1073741824 →
      ∃ b1, pushAll k b vs = some b1 ∧ IsBuffer b1 ∧ b1.length = b.length + vs.length ∧
        b1.capacity ≤ 2 * b1.length + 1 ∧
        (∀ i : Int, i < b.length → load b1.data i = load b.data i) ∧
        (∀ j : Nat, j < vs.length → load b1.data (b.length + j) = vs[j]?) := by
  induction vs with
  | nil =>
    intro b hb hc _
    refine ⟨b, rfl, hb, by simp, hc, fun _ _ => rfl, ?_⟩
    intro j hj
    simp at hj
  | cons v vs ih =>
    intro b hb hc hn
    simp only [List.length_cons, Nat.cast_add, Nat.cast_one] at hn
    have hb0 := hb
    obtain ⟨⟨h0, hle⟩, hd⟩ := hb0
    obtain ⟨b1, hp, hl1, hc1, hd1, hv1, hf1⟩ :=
      pushWith_spec k.size (Kind.size_cases k) b v hb (by omega) (by omega)
    have hb1 : IsBuffer b1 := by
      refine ⟨⟨by omega, ?_⟩, hd1⟩
      rw [hl1, hc1]; split <;> omega
    have hcap1 : b1.capacity ≤ 2 * b1.length + 1 := by
      rw [hl1, hc1]; split <;> omega
    obtain ⟨b2, hp2, hb2, hl2, hc2, hlow, hnew⟩ := ih b1 hb1 hcap1 (by omega)
    refine ⟨b2, ?_, hb2, ?_, hc2, ?_, ?_⟩
    · rw [pushAll, Push_eq, hp]
      exact hp2
    · rw [hl2, hl1]
      simp only [List.length_cons, Nat.cast_add, Nat.cast_one]
      omega
    · intro i hi
      rw [hlow i (by omega), hf1 i (by omega)]
    · intro j hj
      cases j with
      | zero =>
        simp only [Nat.cast_zero, add_zero, List.getElem?_cons_zero]
        rw [hlow _ (by omega), hv1]
      | succ j =>
        simp only [List.length_cons, Nat.add_lt_add_iff_right] at hj
        have := hnew j hj
        rw [hl1] at this
        simp only [List.getElem?_cons_succ]
        rw [← this]
        congr 1
        push_cast
        omega

/-! ## Construction: length and fill (C1) -/

/-- C1, amended: for each scalar buffer kind, every length with
`0 ≤ length < 2^30` and every fill value, `Construct(length, fill)` returns a
buffer whose length field is `length` and whose `Get(i)` returns `fill`, and
leaves the buffer as it is, for every `0 ≤ i < length`. -/
theorem construct_length_and_fill (s : ScalarKind) (length : Int) (fill : s.elem)
    (h0 : 0 ≤ length) (h1 : length < 1073741824) :
    ∃ b, Construct s length fill = some b ∧ b.length = length ∧
      ∀ i : Int, 0 ≤ i → i < length → Get (.scalar s) b i = some (fill, b) := by
  refine ⟨{ length := length, capacity := 2 * length + 1,
            data := List.replicate length.toNat (some fill)
                      ++ List.replicate (length.toNat + 1) none }, ?_, rfl, ?_⟩
  · rw [Construct_eq]
    exact makeWith_of_small _ (Kind.size_cases _) length fill h0 h1
  · intro i hi0 hi1
    rw [Get_eq]
    unfold getWith
    simp only
    rw [load_replicate_some _ _ _ _ hi0 (by omega)]
    rfl

/-- C1, the scenario of the specification: `make_int_array(5, 1)` has length 5
and its five `get(i)` return `1,1,1,1,1`. -/
theorem construct_length_and_fill_witness :
    (0 : Int) ≤ 5 ∧ (5 : Int) < 1073741824 ∧
    ∃ b, make_int_array 5 1 = some b ∧ b.length = 5 ∧
      ∀ i : Int, 0 ≤ i → i < 5 → array_int_get b i = some (1, b) :=
  ⟨by decide, by decide, construct_length_and_fill .int32 5 1 (by decide) (by decide)⟩

/-- C1 as stated fails at `length = 2^30`: the `int32_t` capacity `length * 2 + 1`
wraps to a negative number, the allocation request is refused, and the first
write of the fill loop goes through the null pointer, so no buffer of length
`2^30` filled with the value is produced. -/
theorem construct_length_and_fill_counterexample :
    make_int_array 1073741824 1 = none ∧
    ¬ ∃ b, make_int_array 1073741824 1 = some b ∧ b.length = 1073741824 ∧
      ∀ i : Int, 0 ≤ i → i < 1073741824 → array_int_get b i = some (1, b) := by
  have h : make_int_array 1073741824 1 = none :=
    makeWith_of_large 4 (by decide) 1073741824 1 (by decide) (by decide)
  refine ⟨h, ?_⟩
  rintro ⟨b, hb, _⟩
  rw [h] at hb
  cases hb

/-! ## The pointer constructor (C2) -/

/-- C2, the code at the failing input: `make_ptr_array(2, p)` never assigns
`capacity`, which keeps whatever the allocation held (`junk`), and requests
storage for `length = 2` slots, not for `2 * 2 + 1 = 5`; and when the stale
capacity happens to be the `5` of the other kinds, the next push writes slot 2
of the two-slot block, outside the allocation. -/
theorem make_ptr_array_leaves_capacity_unset (junk : Int) :
    make_ptr_array junk 2 9
      = some { length := 2, capacity := junk, data := [some 9, some 9] } ∧
    (make_ptr_array 5 2 9).bind (fun b => array_ptr_push b 1) = none ∧
    (make_int_array 2 9).map (fun b => (b.capacity, b.data.length)) = some (5, 5) := by
  refine ⟨rfl, by decide, by decide⟩

/-! ## Push (C3, C4, C5) -/

theorem isBuffer_empty {α : Type} :
    IsBuffer ({ length := 0, capacity := 1, data := [none] } : TypedArray α) ∧
    ({ length := 0, capacity := 1, data := [none] } : TypedArray α).capacity
      ≤ 2 * ({ length := 0, capacity := 1, data := [none] } : TypedArray α).length + 1 := by
  simp [IsBuffer, Invariant]

/-- C3: for each scalar buffer kind and every buffer `b` of the data model with
`0 ≤ length ≤ capacity < 2^30`, `Push(b, v)` has a defined result which stores
`v` at the old index `length`, has length `length + 1`, and returns from
`Get(i)` the value it returned before for every `i` below the old length, with
or without reallocation. -/
theorem push_appends (s : ScalarKind) (b : TypedArray s.elem) (v : s.elem)
    (hb : IsBuffer b) (hc : b.capacity < 1073741824) :
    ∃ b1, Push (.scalar s) b v = some b1 ∧
      Get (.scalar s) b1 b.length = some (v, b1) ∧
      b1.length = b.length + 1 ∧
      ∀ i : Int, 0 ≤ i → i < b.length →
        (Get (.scalar s) b1 i).map Prod.fst = (Get (.scalar s) b i).map Prod.fst := by
  obtain ⟨b1, hp, hl, _, _, hv, hf⟩ :=
    pushWith_spec _ (Kind.size_cases (.scalar s)) b v hb (by omega) (Or.inr hc)
  refine ⟨b1, ?_, ?_, hl, ?_⟩
  · rw [Push_eq]; exact hp
  · rw [Get_eq]
    unfold getWith
    rw [hv]
    rfl
  · intro i _ hi
    rw [Get_eq, Get_eq]
    unfold getWith
    rw [hf i (by omega)]
    simp only [Option.map_map]
    rfl

/-- C3 at a full buffer of three `int32_t` elements: the push reallocates to
seven slots, appends 40 at index 3 and keeps 10, 20, 30. -/
theorem push_appends_witness :
    IsBuffer ({ length := 3, capacity := 3, data := [some 10, some 20, some 30] } : IntArray) ∧
    ∃ b1, array_int_push { length := 3, capacity := 3, data := [some 10, some 20, some 30] } 40
        = some b1 ∧
      array_int_get b1 3 = some (40, b1) ∧
      b1.length = 3 + 1 ∧
      ∀ i : Int, 0 ≤ i → i < 3 →
        (array_int_get b1 i).map Prod.fst
          = (array_int_get { length := 3, capacity := 3, data := [some 10, some 20, some 30] }
              i).map Prod.fst :=
  ⟨by decide,
   push_appends .int32 { length := 3, capacity := 3, data := [some 10, some 20, some 30] } 40
     (by decide) (by decide)⟩

/-- C4: for each scalar buffer kind and every sequence `v_1..v_n` with
`n < 2^30`, pushing the values in order onto `Construct(0, fill)` has a defined
result of length `n` whose `Get(i-1)` returns `v_i` for every `1 ≤ i ≤ n`; in
particular `Get(n-1)` returns the value pushed last. -/
theorem pushes_from_empty (s : ScalarKind) (fill : s.elem) (vs : List s.elem)
    (hn : vs.length < 1073741824) :
    ∃ b, (Construct s 0 fill).bind (fun b0 => pushAll (.scalar s) b0 vs) = some b ∧
      b.length = vs.length ∧
      (∀ (i : Nat) (h : i < vs.length), Get (.scalar s) b i = some (vs[i], b)) ∧
      (∀ x, vs.getLast? = some x → Get (.scalar s) b ((vs.length : Int) - 1) = some (x, b)) := by
  have hc : Construct s 0 fill = some { length := 0, capacity := 1, data := [none] } := by
    rw [Construct_eq]
    exact makeWith_of_small _ (Kind.size_cases _) 0 fill (by decide) (by decide)
  obtain ⟨b, hp, _, hl, _, _, hnew⟩ :=
    pushAll_spec (.scalar s) vs { length := 0, capacity := 1, data := [none] }
      isBuffer_empty.1 isBuffer_empty.2 (by simp only [zero_add]; omega)
  simp only [zero_add] at hl hnew
  have hget : ∀ (i : Nat) (h : i < vs.length), Get (.scalar s) b i = some (vs[i], b) := by
    intro i h
    rw [Get_eq]
    unfold getWith
    rw [hnew i h, List.getElem?_eq_getElem h]
    rfl
  refine ⟨b, ?_, hl, hget, ?_⟩
  · rw [hc]
    exact hp
  · intro x hx
    have hne : vs ≠ [] := by
      rintro rfl
      simp at hx
    have hpos : 0 < vs.length := List.length_pos.mpr hne
    have hi : ((vs.length : Int) - 1) = ((vs.length - 1 : Nat) : Int) := by omega
    rw [hi, hget (vs.length - 1) (by omega)]
    rw [List.getLast?_eq_getElem?, List.getElem?_eq_getElem (by omega)] at hx
    simp only [Option.some.injEq] at hx
    rw [hx]

/-- C4, the scenario of the specification: `array_int_push` six times with
`10,20,30,40,50,60` onto the empty buffer gives length 6 and `Get(5) = 60`. -/
theorem pushes_from_empty_witness :
    ([10, 20, 30, 40, 50, 60] : List Int).length < 1073741824 ∧
    ∃ b, (make_int_array 0 0).bind
        (fun b0 => pushAll (.scalar .int32) b0 [10, 20, 30, 40, 50, 60]) = some b ∧
      b.length = 6 ∧ array_int_get b 5 = some (60, b) := by
  refine ⟨by decide, ?_⟩
  obtain ⟨b, hp, hl, hget, _⟩ :=
    pushes_from_empty .int32 0 [10, 20, 30, 40, 50, 60] (by decide)
  exact ⟨b, hp, hl, hget 5 (by decide)⟩

/-- C5: for each scalar buffer kind and every buffer of the data model with
capacity `< 2^30`, the capacity after `Push` is `2 * old_capacity + 1` when the
old length is `≥` the old capacity and the old capacity otherwise, and it is
`≥` the new length; the first push onto `Construct(0, fill)` leaves the
capacity at 1. -/
theorem push_capacity (s : ScalarKind) (b : TypedArray s.elem) (v : s.elem)
    (hb : IsBuffer b) (hc : b.capacity < 1073741824) :
    (∃ b1, Push (.scalar s) b v = some b1 ∧
      b1.capacity = (if b.length ≥ b.capacity then 2 * b.capacity + 1 else b.capacity) ∧
      b1.length ≤ b1.capacity) ∧
    (∀ fill : s.elem, ∃ b0 b1, Construct s 0 fill = some b0 ∧ b0.capacity = 1 ∧
      Push (.scalar s) b0 v = some b1 ∧ b1.capacity = 1) := by
  constructor
  · obtain ⟨b1, hp, hl, hcap, _, _, _⟩ :=
      pushWith_spec _ (Kind.size_cases (.scalar s)) b v hb (by omega) (Or.inr hc)
    refine ⟨b1, ?_, hcap, ?_⟩
    · rw [Push_eq]; exact hp
    · obtain ⟨⟨h0, hle⟩, _⟩ := hb
      rw [hl, hcap]; split <;> omega
  · intro fill
    have hmk : Construct s 0 fill = some { length := 0, capacity := 1, data := [none] } := by
      rw [Construct_eq]
      exact makeWith_of_small _ (Kind.size_cases _) 0 fill (by decide) (by decide)
    obtain ⟨b1, hp, _, hcap, _, _, _⟩ :=
      pushWith_spec _ (Kind.size_cases (.scalar s))
        ({ length := 0, capacity := 1, data := [none] } : TypedArray s.elem) v
        isBuffer_empty.1 (by simp) (Or.inl (by simp))
    refine ⟨_, b1, hmk, rfl, ?_, ?_⟩
    · rw [Push_eq]; exact hp
    · rw [hcap]; rfl

/-- C5 at a full `int64_t` buffer of capacity 1: the push grows it to capacity 3. -/
theorem push_capacity_witness :
    IsBuffer ({ length := 1, capacity := 1, data := [some 7] } : Int64Array) ∧
    ∃ b1, array_int64_push { length := 1, capacity := 1, data := [some 7] } 8 = some b1 ∧
      b1.capacity = 3 := by
  refine ⟨by decide, ?_⟩
  obtain ⟨⟨b1, hp, hcap, _⟩, _⟩ :=
    push_capacity .int64 { length := 1, capacity := 1, data := [some 7] } 8
      (by decide) (by decide)
  exact ⟨b1, hp, hcap⟩

/-! ## The invariant at construction (C6) -/

/-- C6, amended: for each scalar element kind and every `int32_t` length `≥ 0`,
when `length < 2^30` the buffer returned by `Construct(length, fill)` satisfies
`0 ≤ length ≤ capacity` with `capacity` the `int32_t` value of `length * 2 + 1`,
which is `2 * length + 1`; when `2^30 ≤ length` that expression wraps to a
negative number and `Construct` returns no buffer. -/
theorem construct_invariant (s : ScalarKind) (length : Int) (fill : s.elem)
    (h0 : 0 ≤ length) (h1 : length < 2147483648) :
    (length < 1073741824 →
      ∃ b, Construct s length fill = some b ∧ Invariant b ∧
        b.capacity = wrap32 (length * 2 + 1) ∧ b.capacity = 2 * length + 1) ∧
    (1073741824 ≤ length →
      wrap32 (length * 2 + 1) < 0 ∧ Construct s length fill = none) := by
  constructor
  · intro hlt
    have hw : wrap32 (length * 2 + 1) = 2 * length + 1 := by
      rw [wrap32_of_range _ (by omega) (by omega)]; ring
    refine ⟨{ length := length, capacity := 2 * length + 1,
              data := List.replicate length.toNat (some fill)
                        ++ List.replicate (length.toNat + 1) none }, ?_, ?_, hw.symm, rfl⟩
    · rw [Construct_eq]
      exact makeWith_of_small _ (Kind.size_cases _) length fill h0 hlt
    · exact ⟨h0, by simp only; omega⟩
  · intro hge
    refine ⟨wrap32_neg_of_overflow _ (by omega) (by omega), ?_⟩
    rw [Construct_eq]
    exact makeWith_of_large _ (Kind.size_cases _) length fill hge h1

/-- C6 at `make_double_array(3, x)`: the buffer has length 3 and capacity 7. -/
theorem construct_invariant_witness :
    (0 : Int) ≤ 3 ∧ (3 : Int) < 2147483648 ∧
    ∃ b, make_double_array 3 0 = some b ∧ Invariant b ∧ b.capacity = 2 * 3 + 1 := by
  refine ⟨by decide, by decide, ?_⟩
  obtain ⟨b, hb, hi, _, hc⟩ := (construct_invariant .float64 3 0 (by decide) (by decide)).1
    (by decide)
  exact ⟨b, hb, hi, hc⟩

/-- C6 as stated fails at the `int32_t` length `2^30`: the `int32_t` expression
`length * 2 + 1` is `-2147483647`, below the length, and `make_int_array`
returns no buffer that satisfies `0 ≤ length ≤ capacity`. -/
theorem construct_invariant_counterexample :
    wrap32 (1073741824 * 2 + 1) = -2147483647 ∧
    ¬ ((1073741824 : Int) ≤ wrap32 (1073741824 * 2 + 1)) ∧
    ¬ ∃ b, make_int_array 1073741824 0 = some b ∧ Invariant b ∧
        b.capacity = wrap32 (1073741824 * 2 + 1) := by
  refine ⟨by decide, by decide, ?_⟩
  rintro ⟨b, hb, _⟩
  have h : make_int_array 1073741824 0 = none :=
    makeWith_of_large 4 (by decide) 1073741824 0 (by decide) (by decide)
  rw [h] at hb
  cases hb

/-! ## Preservation of the invariant (C7) -/

/-- C7: for each scalar buffer kind the predicate `0 ≤ length ≤ capacity` is
preserved.  If it holds for `b` and `capacity < 2^30`, it holds after every
`Push(b, v)` with a defined result, and after every `Put(b, i, v)` with a
defined result; when `b` is a buffer of the data model, `Push(b, v)` and
`Put(b, i, v)` with `i` in range do have a defined result, again a buffer of
the data model; and the predicate holds for every buffer reachable from
`Construct` by `Push` and `Put`. -/
theorem invariant_preserved (s : ScalarKind) (b : TypedArray s.elem) (hi : Invariant b) :
    (∀ v b1, b.capacity < 1073741824 → Push (.scalar s) b v = some b1 → Invariant b1) ∧
    (∀ i v b1, Put (.scalar s) b i v = some b1 → Invariant b1) ∧
    (IsBuffer b → ∀ v, b.capacity < 1073741824 →
      ∃ b1, Push (.scalar s) b v = some b1 ∧ IsBuffer b1) ∧
    (IsBuffer b → ∀ i v, 0 ≤ i → i < b.length →
      ∃ b1, Put (.scalar s) b i v = some b1 ∧ IsBuffer b1) ∧
    (∀ r, Reachable s r → Invariant r) := by
  obtain ⟨h0, hle⟩ := hi
  refine ⟨?_, ?_, ?_, ?_, ?_⟩
  · intro v b1 hc hp
    rw [Push_eq] at hp
    obtain ⟨hl, hcap⟩ := pushWith_some_fields _ b b1 v hp
    rw [wrap32_of_range _ (by omega) (by omega)] at hl
    constructor
    · omega
    · rw [hl, hcap]
      split
      · rw [wrap32_of_range _ (by omega) (by omega)]; omega
      · omega
  · intro i v b1 hp
    rw [Put_eq] at hp
    obtain ⟨hl, hcap, _⟩ := putWith_some b b1 i v hp
    exact ⟨by omega, by omega⟩
  · intro hb v hc
    obtain ⟨b1, hp, hl, hcap, hd, _, _⟩ :=
      pushWith_spec _ (Kind.size_cases (.scalar s)) b v hb (by omega) (Or.inr hc)
    refine ⟨b1, ?_, ⟨⟨by omega, ?_⟩, hd⟩⟩
    · rw [Push_eq]; exact hp
    · rw [hl, hcap]; split <;> omega
  · intro hb i v hi0 hi1
    obtain ⟨_, hd⟩ := hb
    obtain ⟨b1, hp, hl, hcap, hdl, _, _⟩ := putWith_spec b i v hi0 (by omega)
    refine ⟨b1, ?_, ⟨⟨by omega, by omega⟩, ?_⟩⟩
    · rw [Put_eq]; exact hp
    · rw [hdl, hcap]; exact hd
  · intro r hr
    exact hr.isBuffer.1.1

/-- C7 on the `char` buffer `make_char_array(1, 97)` returns: the invariant holds
for it, a push of 98 and a put of 99 at index 0 have a defined result in the
data model, and the buffer is reachable. -/
theorem invariant_preserved_witness :
    Invariant ({ length := 1, capacity := 3, data := [some 97, none, none] } : CharArray) ∧
    (∃ b1, array_char_push { length := 1, capacity := 3, data := [some 97, none, none] } 98
        = some b1 ∧ IsBuffer b1) ∧
    (∃ b1, array_char_put { length := 1, capacity := 3, data := [some 97, none, none] } 0 99
        = some b1 ∧ IsBuffer b1) ∧
    Reachable .character
      ({ length := 1, capacity := 3, data := [some 97, none, none] } : CharArray) := by
  have h := invariant_preserved .character
    ({ length := 1, capacity := 3, data := [some 97, none, none] } : CharArray) (by decide)
  refine ⟨by decide, h.2.2.1 (by decide) 98 (by decide),
    h.2.2.2.1 (by decide) 0 99 (by decide) (by decide), ?_⟩
  exact Reachable.construct 1 97 _ (by decide) (by decide)

/-! ## Capacity at construction (C8) -/

/-- C8: for each scalar buffer kind and every length with `0 ≤ length < 2^30`,
`Construct(length, fill)` returns a buffer whose capacity field is
`2 * length + 1` and whose storage has that many slots; for `length = 0` the
capacity is 1. -/
theorem construct_capacity (s : ScalarKind) (length : Int) (fill : s.elem)
    (h0 : 0 ≤ length) (h1 : length < 1073741824) :
    (∃ b, Construct s length fill = some b ∧ b.capacity = 2 * length + 1 ∧
      (b.data.length : Int) = 2 * length + 1) ∧
    (∃ b0, Construct s 0 fill = some b0 ∧ b0.capacity = 1 ∧ b0.data.length = 1) := by
  constructor
  · refine ⟨{ length := length, capacity := 2 * length + 1,
              data := List.replicate length.toNat (some fill)
                        ++ List.replicate (length.toNat + 1) none }, ?_, rfl, ?_⟩
    · rw [Construct_eq]
      exact makeWith_of_small _ (Kind.size_cases _) length fill h0 h1
    · simp only [List.length_append, List.length_replicate]
      push_cast
      omega
  · refine ⟨{ length := 0, capacity := 1, data := [none] }, ?_, rfl, rfl⟩
    rw [Construct_eq]
    exact makeWith_of_small _ (Kind.size_cases _) 0 fill (by decide) (by decide)

/-- C8 at `make_bool_array(4, 1)`: capacity 9 and nine slots. -/
theorem construct_capacity_witness :
    (0 : Int) ≤ 4 ∧ (4 : Int) < 1073741824 ∧
    ∃ b, make_bool_array 4 1 = some b ∧ b.capacity = 2 * 4 + 1 ∧
      (b.data.length : Int) = 2 * 4 + 1 :=
  ⟨by decide, by decide, (construct_capacity .boolean 4 1 (by decide) (by decide)).1⟩

/-! ## The length probe (C9) -/

theorem read_int32_bytes (x : Int) (h0 : -2147483648 ≤ x) (h1 : x < 2147483648)
    (rest : List Nat) : read_int32 (int32_bytes x ++ rest) = some x := by
  unfold int32_bytes read_int32
  simp only [List.cons_append, List.nil_append, Option.some.injEq]
  unfold wrap32
  push_cast
  omega

/-- C9: for every buffer variant and every buffer value `b` of that variant
whose length field is an `int32_t`, `get_array_length` applied to a handle of
`b` (a pointer to the bytes of the structure) returns the length field of
`b`; in particular it does so for every buffer reachable from `Construct` by
`Push` and `Put`. -/
theorem length_probe (k : Kind) (addr : Nat) (b : TypedArray k.elem)
    (h0 : -2147483648 ≤ b.length) (h1 : b.length < 2147483648) :
    get_array_length (object_bytes addr b) = some b.length ∧
    (∀ (s : ScalarKind) (r : TypedArray s.elem), Reachable s r →
      get_array_length (object_bytes addr r) = some r.length) := by
  constructor
  · unfold get_array_length object_bytes
    rw [List.append_assoc]
    exact read_int32_bytes _ h0 h1 _
  · intro s r hr
    obtain ⟨⟨⟨hr0, hrle⟩, _⟩, hrc⟩ := hr.isBuffer
    unfold get_array_length object_bytes
    rw [List.append_assoc]
    exact read_int32_bytes _ (by omega) (by omega) _

/-- C9 on a pointer buffer of length 2 whose capacity was never assigned. -/
theorem length_probe_witness :
    (-2147483648 : Int) ≤ 2 ∧ (2 : Int) < 2147483648 ∧
    get_array_length
      (object_bytes 4096 ({ length := 2, capacity := -5, data := [some 9, some 9] } : PtrArray))
      = some 2 :=
  ⟨by decide, by decide,
   (length_probe .ptr 4096 { length := 2, capacity := -5, data := [some 9, some 9] }
     (by decide) (by decide)).1⟩

/-! ## Put and get (C10) -/

/-- C10: for each buffer kind, every buffer `b` whose live elements lie in its
storage and every index `i` with `0 ≤ i < length`: `Put(b, i, v)` has a defined
result `b1` with `Get(b1, i) = v`, `Get(b1, j)` returns what `Get(b, j)`
returns for every `j ≠ i` in `[0, length)`, and the length and capacity fields
of `b1` are those of `b`; `Get` returns the buffer it was given. -/
theorem put_get (k : Kind) (b : TypedArray k.elem) (i : Int) (v : k.elem)
    (h0 : 0 ≤ i) (h1 : i < b.length) (hd : b.length ≤ b.data.length) :
    (∃ b1, Put k b i v = some b1 ∧ Get k b1 i = some (v, b1) ∧
      (∀ j : Int, 0 ≤ j → j < b.length → j ≠ i →
        (Get k b1 j).map Prod.fst = (Get k b j).map Prod.fst) ∧
      b1.length = b.length ∧ b1.capacity = b.capacity) ∧
    (∀ (j : Int) (x : k.elem) (b2 : TypedArray k.elem), Get k b j = some (x, b2) → b2 = b) := by
  constructor
  · obtain ⟨b1, hp, hl, hc, _, hv, hf⟩ := putWith_spec b i v h0 (by omega)
    refine ⟨b1, ?_, ?_, ?_, hl, hc⟩
    · rw [Put_eq]; exact hp
    · rw [Get_eq]
      unfold getWith
      rw [hv]
      rfl
    · intro j _ _ hj
      rw [Get_eq, Get_eq]
      unfold getWith
      rw [hf j hj]
      simp only [Option.map_map]
      rfl
  · intro j x b2 hg
    rw [Get_eq] at hg
    unfold getWith at hg
    simp only [Option.map_eq_some', Prod.mk.injEq] at hg
    obtain ⟨_, _, _, hb⟩ := hg
    exact hb.symm

/-- C10 on a pointer buffer of two elements: a put at index 1. -/
theorem put_get_witness :
    (0 : Int) ≤ 1 ∧
    ∃ b1, array_ptr_put { length := 2, capacity := 5, data := [some 9, some 9] } 1 4 = some b1 ∧
      array_ptr_get b1 1 = some (4, b1) ∧ b1.length = 2 ∧ b1.capacity = 5 := by
  refine ⟨by decide, ?_⟩
  obtain ⟨⟨b1, hp, hg, _, hl, hc⟩, _⟩ :=
    put_get .ptr { length := 2, capacity := 5, data := [some 9, some 9] } 1 4
      (by decide) (by decide) (by decide)
  exact ⟨b1, hp, hg, hl, hc⟩

/-! ## Byte string lemmas -/

theorem store_length {α : Type} (blk d : Block α) (i : Int) (v : α)
    (h : store blk i v = some d) : d.length = blk.length ∧ 0 ≤ i ∧ i < blk.length := by
  unfold store at h
  split at h
  · rename_i hc
    simp only [Option.some.injEq] at h
    subst h
    refine ⟨by simp, hc.1, by omega⟩
  · cases h

theorem scanLoop_literal (text : List char) (tail : Block char) (h0 : ∀ c ∈ text, c ≠ 0) :
    ∀ k : Int, 0 ≤ k → k + text.length < 2147483648 →
      scanLoop (text.map some ++ some 0 :: tail) k = some (k + text.length) := by
  induction text with
  | nil =>
    intro k _ _
    simp [scanLoop]
  | cons c cs ih =>
    intro k hk hlen
    simp only [List.length_cons, Nat.cast_add, Nat.cast_one] at hlen
    have hc : c ≠ 0 := h0 c (by simp)
    have hw : wrap32 (k + 1) = k + 1 := wrap32_of_range _ (by omega) (by omega)
    simp only [List.map_cons, List.cons_append, scanLoop, hw, List.append_eq]
    rw [if_pos hc, if_neg (by omega), ih (fun x hx => h0 x (by simp [hx])) (k + 1) (by omega)
      (by omega)]
    simp only [List.length_cons, Nat.cast_add, Nat.cast_one]
    congr 1
    omega

/-- A scan with a defined result read a run of written non-zero bytes and then a
zero, and counted them without leaving the `int` range. -/
theorem scanLoop_some (str : Block char) :
    ∀ (k len : Int), 0 ≤ k → k < 2147483648 → scanLoop str k = some len →
      ∃ (text : List char) (tail : Block char), str = text.map some ++ some 0 :: tail ∧
        (∀ c ∈ text, c ≠ 0) ∧ len = k + text.length ∧ len < 2147483648 := by
  induction str with
  | nil =>
    intro k len _ _ h
    simp [scanLoop] at h
  | cons slot rest ih =>
    intro k len hk hk2 h
    cases slot with
    | none => simp [scanLoop] at h
    | some c =>
      simp only [scanLoop] at h
      by_cases hc : c ≠ 0
      · rw [if_pos hc] at h
        by_cases hw : wrap32 (k + 1) < 0
        · rw [if_pos hw] at h
          cases h
        · rw [if_neg hw] at h
          have hr := wrap32_range (k + 1)
          have hk1 : wrap32 (k + 1) = k + 1 := by
            unfold wrap32 at hw ⊢
            omega
          rw [hk1] at h
          obtain ⟨text, tail, hstr, hnz, hlen, hlt⟩ := ih (k + 1) len (by omega) (by omega) h
          refine ⟨c :: text, tail, ?_, ?_, ?_, hlt⟩
          · rw [hstr]
            rfl
          · intro x hx
            rcases List.mem_cons.mp hx with rfl | hx
            · exact hc
            · exact hnz x hx
          · simp only [List.length_cons, Nat.cast_add, Nat.cast_one]
            omega
      · rw [if_neg hc] at h
        simp only [Option.some.injEq] at h
        have hc0 : c = 0 := by
          by_contra hne
          exact hc hne
        subst hc0
        refine ⟨[], rest, rfl, by simp, by simp [h], by omega⟩

theorem copyLoop_nil_dst (src : Block char) (off : Int) (n : Nat) (i : Int) (hn : 0 < n) :
    copyLoop src off n i [] = none := by
  cases n with
  | zero => omega
  | succ n =>
    rw [copyLoop]
    cases load src i with
    | none => rfl
    | some c => simp [store_nil]

theorem copyLoop_length (src : Block char) (off : Int) :
    ∀ (n : Nat) (i : Int) (dst d : Block char),
      copyLoop src off n i dst = some d → d.length = dst.length := by
  intro n
  induction n with
  | zero =>
    intro i dst d h
    simp only [copyLoop, Option.some.injEq] at h
    rw [h]
  | succ n ih =>
    intro i dst d h
    rw [copyLoop] at h
    cases hl : load src i with
    | none => rw [hl] at h; cases h
    | some c =>
      rw [hl] at h
      simp only [Option.some_bind] at h
      cases hs : store dst (wrap32 (off + i)) c with
      | none => rw [hs] at h; cases h
      | some d1 =>
        rw [hs] at h
        simp only [Option.some_bind] at h
        rw [ih _ _ _ h, (store_length _ _ _ _ hs).1]

theorem load_append_mid {α : Type} (P Q : Block α) (x : α) (i : Nat) (hi : P.length = i) :
    load (P ++ some x :: Q) (i : Int) = some x := by
  rw [load_natCast, List.getElem?_append_right (by omega)]
  simp [hi]

theorem store_append_mid {α : Type} (A C : Block α) (b : Option α) (x : α) (i : Nat)
    (hi : A.length = i) :
    store (A ++ b :: C) (i : Int) x = some (A ++ some x :: C) := by
  rw [store_natCast, if_pos (by simp; omega)]
  subst hi
  simp

/-- The copy loop moves the bytes `xs` found at index `i` of the source to index
`off + i` of the destination. -/
theorem copyLoop_spec (off : Nat) (xs : List char) :
    ∀ (i : Nat) (P Q A B C : Block char), P.length = i → A.length = off + i →
      B.length = xs.length → off + i + xs.length < 2147483648 →
      copyLoop (P ++ xs.map some ++ Q) (off : Int) xs.length (i : Int) (A ++ B ++ C)
        = some (A ++ xs.map some ++ C) := by
  induction xs with
  | nil =>
    intro i P Q A B C _ _ hB _
    have : B = [] := List.length_eq_zero.mp hB
    subst this
    rw [List.length_nil, copyLoop]
    simp
  | cons x xs ih =>
    intro i P Q A B C hP hA hB hlt
    simp only [List.length_cons] at hB hlt
    obtain ⟨b, B1, rfl⟩ : ∃ b B1, B = b :: B1 := by
      cases B with
      | nil => simp at hB
      | cons b B1 => exact ⟨b, B1, rfl⟩
    simp only [List.length_cons, Nat.add_right_cancel_iff] at hB
    have hw : wrap32 ((off : Int) + (i : Int)) = ((off + i : Nat) : Int) := by
      rw [wrap32_of_range _ (by omega) (by omega)]
      push_cast
      rfl
    have hload : load (P ++ (x :: xs).map some ++ Q) (i : Int) = some x := by
      rw [List.map_cons, List.append_assoc, List.cons_append]
      exact load_append_mid _ _ _ _ hP
    have hstore : store (A ++ b :: B1 ++ C) (((off + i : Nat) : Int)) x
        = some (A ++ some x :: (B1 ++ C)) := by
      rw [List.append_assoc, List.cons_append]
      exact store_append_mid _ _ _ _ _ hA
    rw [List.length_cons, copyLoop, hload, Option.some_bind, hw, hstore, Option.some_bind]
    have hsrc : P ++ (x :: xs).map some ++ Q = (P ++ [some x]) ++ xs.map some ++ Q := by
      simp
    have hdst : A ++ some x :: (B1 ++ C) = (A ++ [some x]) ++ B1 ++ C := by
      simp
    have hlenP : (P ++ [some x]).length = i + 1 := by
      rw [List.length_append, hP]; rfl
    have hlenA : (A ++ [some x]).length = off + (i + 1) := by
      rw [List.length_append, hA]; rfl
    have h := ih (i + 1) (P ++ [some x]) Q (A ++ [some x]) B1 C hlenP hlenA hB (by omega)
    have hcast : ((i + 1 : Nat) : Int) = (i : Int) + 1 := by push_cast; rfl
    rw [hcast] at h
    rw [hsrc, hdst, h]
    simp only [List.map_cons, List.append_assoc, List.singleton_append, List.cons_append,
      List.nil_append]

theorem malloc_bytes (n : Nat) (h : n < 2147483648) :
    (malloc (byteCount (n : Int) 1) 1 : Block char) = List.replicate n none := by
  rw [malloc_of_nonneg _ _ (by omega) (by omega) (Or.inl rfl)]
  simp

/-- The string `__builtin_create_string` builds from a text of non-zero bytes
followed by a zero, whatever comes after the zero. -/
theorem create_string_literal (text : List char) (tail : Block char)
    (h0 : ∀ c ∈ text, c ≠ 0) (hlen : text.length < 2147483647) :
    __builtin_create_string (text.map some ++ some 0 :: tail)
      = some (MoonBitStr.ofBytes text) := by
  have hscan := scanLoop_literal text tail h0 0 (le_refl 0) (by omega)
  rw [zero_add] at hscan
  have hw : wrap32 ((text.length : Int) + 1) = ((text.length + 1 : Nat) : Int) := by
    rw [wrap32_of_range _ (by omega) (by omega)]
    push_cast
    rfl
  have hcopy := copyLoop_spec 0 text 0 [] (some 0 :: tail) [] (List.replicate text.length none)
    [none] rfl rfl (by simp) (by omega)
  simp only [List.nil_append, Nat.cast_zero] at hcopy
  have hstore : store (text.map some ++ [none]) (text.length : Int) (0 : char)
      = some (text.map some ++ [some 0]) :=
    store_append_mid _ _ _ _ _ (by simp)
  have hblock : (List.replicate (text.length + 1) none : Block char)
      = List.replicate text.length none ++ [none] := by
    rw [List.replicate_succ']
  unfold __builtin_create_string
  rw [hscan, Option.some_bind]
  simp only [hw, Int.toNat_ofNat]
  rw [malloc_bytes _ (by omega), hblock, hcopy, Option.some_bind, hstore]
  rfl

/-- A text of `INT32_MAX` bytes: the byte count `len + 1` leaves the `int` range,
the allocation is refused, and the copy writes through the null pointer. -/
theorem create_string_overflow (text : List char) (tail : Block char)
    (h0 : ∀ c ∈ text, c ≠ 0) (hlen : text.length = 2147483647) :
    __builtin_create_string (text.map some ++ some 0 :: tail) = none := by
  have hscan := scanLoop_literal text tail h0 0 (le_refl 0) (by omega)
  rw [zero_add] at hscan
  have hneg : wrap32 ((text.length : Int) + 1) < 0 :=
    wrap32_neg_of_overflow _ (by omega) (by omega)
  unfold __builtin_create_string
  rw [hscan, Option.some_bind]
  simp only
  rw [malloc_of_neg _ _ (wrap32_range _).1 hneg (Or.inl rfl),
    copyLoop_nil_dst _ _ _ _ (by omega)]
  rfl

/-- The concatenation of two strings of the data model whose lengths add up to
less than `INT32_MAX`. -/
theorem concat_ofBytes (x y : List char) (h : x.length + y.length < 2147483647) :
    __builtin_string_concat (MoonBitStr.ofBytes x) (MoonBitStr.ofBytes y)
      = some (MoonBitStr.ofBytes (x ++ y)) := by
  have hlen : wrap32 ((x.length : Int) + (y.length : Int)) = ((x.length + y.length : Nat) : Int) := by
    rw [wrap32_of_range _ (by omega) (by omega)]
    push_cast
    rfl
  have hw : wrap32 (((x.length + y.length : Nat) : Int) + 1)
      = ((x.length + y.length + 1 : Nat) : Int) := by
    rw [wrap32_of_range _ (by omega) (by omega)]
    push_cast
    rfl
  have hblock : (List.replicate (x.length + y.length + 1) none : Block char)
      = List.replicate x.length none ++ List.replicate (y.length + 1) none := by
    rw [List.append_replicate_replicate]
    congr 1
  have hcopy1 := copyLoop_spec 0 x 0 [] [some 0] [] (List.replicate x.length none)
    (List.replicate (y.length + 1) none) rfl rfl (by simp) (by omega)
  simp only [Nat.cast_zero, List.nil_append] at hcopy1
  have hblock2 : (x.map some ++ List.replicate (y.length + 1) none : Block char)
      = x.map some ++ List.replicate y.length none ++ [none] := by
    rw [List.replicate_succ', List.append_assoc]
  have hcopy2 := copyLoop_spec x.length y 0 [] [some 0] (x.map some)
    (List.replicate y.length none) [none] rfl (by simp) (by simp) (by omega)
  simp only [Nat.cast_zero, List.nil_append] at hcopy2
  have hstore : store (x.map some ++ y.map some ++ [none]) ((x.length + y.length : Nat) : Int)
      (0 : char) = some (x.map some ++ y.map some ++ [some 0]) :=
    store_append_mid _ _ _ _ _ (by simp)
  unfold __builtin_string_concat MoonBitStr.ofBytes
  simp only [hlen, hw, Int.toNat_ofNat]
  rw [malloc_bytes _ (by omega), hblock, hcopy1, Option.some_bind, hblock2, hcopy2,
    Option.some_bind, hstore]
  simp

theorem all_written {α : Type} (l : Block α) (h : ∀ slot ∈ l, slot ≠ none) :
    ∃ bs : List α, l = bs.map some := by
  induction l with
  | nil => exact ⟨[], rfl⟩
  | cons slot rest ih =>
    obtain ⟨bs, hbs⟩ := ih (fun x hx => h x (List.mem_cons_of_mem _ hx))
    cases slot with
    | none => exact absurd rfl (h none (List.mem_cons_self _ _))
    | some v => exact ⟨v :: bs, by rw [hbs]; rfl⟩

theorem load_map_some {α : Type} (bs : List α) (i : Nat) :
    load (bs.map some) (i : Int) = bs[i]? := by
  rw [load_natCast, List.getElem?_map]
  cases bs[i]? <;> rfl

/-- The strings of the data model are the values `MoonBitStr.ofBytes bytes`. -/
theorem isString_iff (s : MoonBitStr) :
    IsString s ↔ ∃ bytes : List char, s = MoonBitStr.ofBytes bytes ∧ bytes.length < 2147483648 := by
  constructor
  · rintro ⟨h0, h1, hd, hw, hz⟩
    obtain ⟨bs, hbs⟩ := all_written s.data hw
    have hlen : bs.length = s.length.toNat + 1 := by
      have : s.data.length = bs.length := by rw [hbs, List.length_map]
      omega
    have hne : bs ≠ [] := by
      intro hnil
      rw [hnil] at hlen
      simp at hlen
    obtain ⟨init, last, hsplit⟩ : ∃ init last, bs = init ++ [last] :=
      ⟨bs.dropLast, bs.getLast hne, (List.dropLast_append_getLast hne).symm⟩
    subst hsplit
    simp only [List.length_append, List.length_singleton, Nat.add_right_cancel_iff] at hlen
    have hcast : s.length = ((init.length : Nat) : Int) := by omega
    have hlast : last = 0 := by
      rw [hbs, hcast, load_map_some, List.getElem?_append_right (le_refl _)] at hz
      simpa using hz
    refine ⟨init, ?_, by omega⟩
    obtain ⟨data, length⟩ := s
    simp only at hbs hcast
    simp only [MoonBitStr.ofBytes, MoonBitStr.mk.injEq]
    refine ⟨?_, hcast⟩
    rw [hbs, hlast, List.map_append]
    rfl
  · rintro ⟨bytes, rfl, hlt⟩
    refine ⟨by simp [MoonBitStr.ofBytes], by simp [MoonBitStr.ofBytes]; omega,
      by simp [MoonBitStr.ofBytes], ?_, ?_⟩
    · intro slot hslot
      simp only [MoonBitStr.ofBytes, List.mem_append, List.mem_map, List.mem_singleton] at hslot
      rcases hslot with ⟨c, _, rfl⟩ | rfl <;> simp
    · simp only [MoonBitStr.ofBytes]
      exact load_append_mid _ _ _ _ (by simp)

/-- A concatenation whose length, or whose byte count `length + 1`, leaves the
`int32_t` range: the allocation is refused and the first byte copied goes
through the null pointer. -/
theorem concat_overflow (x y : List char) (hx : x.length < 2147483648)
    (hy : y.length < 2147483648) (h : 2147483647 ≤ x.length + y.length) :
    __builtin_string_concat (MoonBitStr.ofBytes x) (MoonBitStr.ofBytes y) = none := by
  have hneg : wrap32 (wrap32 ((x.length : Int) + (y.length : Int)) + 1) < 0 := by
    unfold wrap32
    omega
  unfold __builtin_string_concat MoonBitStr.ofBytes
  simp only [Int.toNat_ofNat]
  rw [malloc_of_neg _ _ (wrap32_range _).1 hneg (Or.inl rfl)]
  by_cases hx0 : 0 < x.length
  · rw [copyLoop_nil_dst _ _ _ _ hx0]
    rfl
  · have hx1 : x.length = 0 := by omega
    rw [hx1, copyLoop, Option.some_bind, copyLoop_nil_dst _ _ _ _ (by omega)]
    rfl

theorem getChar_ofBytes (bytes : List char) (i : Nat) (h : i < bytes.length) :
    __builtin_get_char_in_string (MoonBitStr.ofBytes bytes) (i : Int) = some bytes[i] := by
  unfold __builtin_get_char_in_string MoonBitStr.ofBytes
  simp only
  rw [load_natCast, List.getElem?_append_left (by simpa using h)]
  simp [List.getElem?_eq_getElem h]

theorem replicate_nonzero (n : Nat) : ∀ c ∈ List.replicate n (97 : char), c ≠ 0 := by
  intro c hc
  rw [List.eq_of_mem_replicate hc]
  decide

/-! ## String construction round trip (C11) -/

/-- C11, amended: for every text `s` of non-zero bytes followed by a zero byte
with `len(s) < 2^31 - 1`, whatever follows the zero byte in memory,
`__builtin_create_string` returns a string whose `__builtin_get_string_length`
is `len(s)` and whose `__builtin_get_char_in_string` at `i` is the `i`-th byte of
`s`, for every `0 ≤ i < len(s)`. -/
theorem create_string_roundtrip (text : List char) (tail : Block char)
    (h0 : ∀ c ∈ text, c ≠ 0) (hlen : text.length < 2147483647) :
    ∃ s, __builtin_create_string (text.map some ++ some 0 :: tail) = some s ∧
      IsString s ∧
      __builtin_get_string_length s = text.length ∧
      ∀ (i : Nat) (h : i < text.length),
        __builtin_get_char_in_string s (i : Int) = some text[i] := by
  refine ⟨MoonBitStr.ofBytes text, create_string_literal text tail h0 hlen, ?_, rfl, ?_⟩
  · exact (isString_iff _).mpr ⟨text, rfl, by omega⟩
  · intro i h
    exact getChar_ofBytes text i h

/-- C11 on the literal `"foo"`: length 3 and the bytes `f`, `o`, `o`. -/
theorem create_string_roundtrip_witness :
    (∀ c ∈ ([102, 111, 111] : List char), c ≠ 0) ∧
    ∃ s, __builtin_create_string (literal [102, 111, 111]) = some s ∧
      __builtin_get_string_length s = 3 ∧
      __builtin_get_char_in_string s 0 = some 102 ∧
      __builtin_get_char_in_string s 1 = some 111 ∧
      __builtin_get_char_in_string s 2 = some 111 := by
  refine ⟨by decide, ?_⟩
  obtain ⟨s, hs, _, hl, hc⟩ := create_string_roundtrip [102, 111, 111] [] (by decide) (by decide)
  exact ⟨s, hs, hl, hc 0 (by decide), hc 1 (by decide), hc 2 (by decide)⟩

/-- C11 as stated fails on a text of `2^31 - 1` non-zero bytes followed by a
zero: the scan counts `len = INT32_MAX`, the byte count `len + 1` leaves the
`int` range, the allocation is refused and the copy writes through the null
pointer, so no string of that length is returned. -/
theorem create_string_roundtrip_counterexample :
    (∀ c ∈ List.replicate 2147483647 (97 : char), c ≠ 0) ∧
    __builtin_create_string (literal (List.replicate 2147483647 97)) = none ∧
    ¬ ∃ s, __builtin_create_string (literal (List.replicate 2147483647 97)) = some s ∧
      __builtin_get_string_length s = 2147483647 := by
  have h : __builtin_create_string (literal (List.replicate 2147483647 97)) = none :=
    create_string_overflow _ [] (replicate_nonzero _) (List.length_replicate _ _)
  refine ⟨replicate_nonzero _, h, ?_⟩
  rintro ⟨s, hs, _⟩
  rw [h] at hs
  cases hs

/-! ## Concatenation (C12, C13) -/

/-- C12, amended: for all strings `a` and `b` of the data model with
`a.length + b.length < 2^31 - 1`, `__builtin_string_concat(a, b)` returns a
string of length `a.length + b.length` whose byte `i` is byte `i` of `a` for
`0 ≤ i < a.length` and whose byte `a.length + j` is byte `j` of `b` for
`0 ≤ j < b.length`. -/
theorem concat_bytes (a b : MoonBitStr) (ha : IsString a) (hb : IsString b)
    (hlen : a.length + b.length < 2147483647) :
    ∃ r, __builtin_string_concat a b = some r ∧ IsString r ∧
      __builtin_get_string_length r
        = __builtin_get_string_length a + __builtin_get_string_length b ∧
      (∀ i : Int, 0 ≤ i → i < a.length → ∃ c, __builtin_get_char_in_string a i = some c ∧
        __builtin_get_char_in_string r i = some c) ∧
      (∀ j : Int, 0 ≤ j → j < b.length → ∃ c, __builtin_get_char_in_string b j = some c ∧
        __builtin_get_char_in_string r (a.length + j) = some c) := by
  obtain ⟨x, rfl, hx⟩ := (isString_iff a).mp ha
  obtain ⟨y, rfl, hy⟩ := (isString_iff b).mp hb
  simp only [MoonBitStr.ofBytes] at hlen
  have hsum : x.length + y.length < 2147483647 := by omega
  refine ⟨MoonBitStr.ofBytes (x ++ y), concat_ofBytes x y hsum, ?_, ?_, ?_, ?_⟩
  · exact (isString_iff _).mpr ⟨x ++ y, rfl, by simp only [List.length_append]; omega⟩
  · simp [__builtin_get_string_length, MoonBitStr.ofBytes]
  · intro i hi0 hi1
    lift i to Nat using hi0
    simp only [MoonBitStr.ofBytes, Nat.cast_lt] at hi1
    refine ⟨x[i], getChar_ofBytes x i hi1, ?_⟩
    rw [getChar_ofBytes (x ++ y) i (by simp only [List.length_append]; omega),
      List.getElem_append_left hi1]
  · intro j hj0 hj1
    lift j to Nat using hj0
    simp only [MoonBitStr.ofBytes, Nat.cast_lt] at hj1
    refine ⟨y[j], getChar_ofBytes y j hj1, ?_⟩
    have hcast : ((MoonBitStr.ofBytes x).length + (j : Int)) = ((x.length + j : Nat) : Int) := by
      simp [MoonBitStr.ofBytes]
    rw [hcast, getChar_ofBytes (x ++ y) (x.length + j) (by simp only [List.length_append]; omega),
      List.getElem_append_right (by omega)]
    simp

/-- C12, the scenario of the specification: the concatenation of `"foo"` and
`"bar"` has length 6 and the bytes `f`, `o`, `o`, `b`, `a`, `r`. -/
theorem concat_bytes_witness :
    IsString (MoonBitStr.ofBytes [102, 111, 111]) ∧
    IsString (MoonBitStr.ofBytes [98, 97, 114]) ∧
    __builtin_create_string (literal [102, 111, 111]) = some (MoonBitStr.ofBytes [102, 111, 111]) ∧
    __builtin_create_string (literal [98, 97, 114]) = some (MoonBitStr.ofBytes [98, 97, 114]) ∧
    ∃ r, __builtin_string_concat (MoonBitStr.ofBytes [102, 111, 111])
        (MoonBitStr.ofBytes [98, 97, 114]) = some r ∧
      __builtin_get_string_length r = 6 ∧
      (List.range 6).map (fun i => __builtin_get_char_in_string r (i : Int))
        = [some 102, some 111, some 111, some 98, some 97, some 114] := by
  refine ⟨by decide, by decide, by decide, by decide, ?_⟩
  obtain ⟨r, hr, _, hl, _, _⟩ :=
    concat_bytes (MoonBitStr.ofBytes [102, 111, 111]) (MoonBitStr.ofBytes [98, 97, 114])
      (by decide) (by decide) (by decide)
  refine ⟨r, hr, hl, ?_⟩
  have hv : __builtin_string_concat (MoonBitStr.ofBytes [102, 111, 111])
      (MoonBitStr.ofBytes [98, 97, 114])
      = some (MoonBitStr.ofBytes [102, 111, 111, 98, 97, 114]) := by decide
  rw [hv] at hr
  cases hr
  decide

/-- C12 as stated fails on two strings of `2^30` bytes each: the `int32_t` sum of
the lengths leaves the range, the allocation is refused and the first byte
copied goes through the null pointer, so no string of length
`a.length + b.length` is returned. -/
theorem concat_bytes_counterexample :
    IsString (MoonBitStr.ofBytes (List.replicate 1073741824 97)) ∧
    __builtin_string_concat (MoonBitStr.ofBytes (List.replicate 1073741824 97))
      (MoonBitStr.ofBytes (List.replicate 1073741824 97)) = none ∧
    ¬ ∃ r, __builtin_string_concat (MoonBitStr.ofBytes (List.replicate 1073741824 97))
        (MoonBitStr.ofBytes (List.replicate 1073741824 97)) = some r ∧
      __builtin_get_string_length r = 1073741824 + 1073741824 := by
  have hl : (List.replicate 1073741824 (97 : char)).length = 1073741824 :=
    List.length_replicate _ _
  have h : __builtin_string_concat (MoonBitStr.ofBytes (List.replicate 1073741824 97))
      (MoonBitStr.ofBytes (List.replicate 1073741824 97)) = none :=
    concat_overflow _ _ (by rw [hl]; decide) (by rw [hl]; decide) (by rw [hl]; decide)
  refine ⟨(isString_iff _).mpr ⟨_, rfl, by rw [hl]; decide⟩, h, ?_⟩
  rintro ⟨r, hr, _⟩
  rw [h] at hr
  cases hr

/-- The grouping `concat(concat(x, y), z)`: the string of all the bytes while the
total length is below `2^31 - 1`, and no string from there on. -/
theorem concat_left_grouping (x y z : List char) (hx : x.length < 2147483648)
    (hy : y.length < 2147483648) (hz : z.length < 2147483648) :
    ((__builtin_string_concat (MoonBitStr.ofBytes x) (MoonBitStr.ofBytes y)).bind
      fun ab => __builtin_string_concat ab (MoonBitStr.ofBytes z))
      = if x.length + y.length + z.length < 2147483647
        then some (MoonBitStr.ofBytes (x ++ y ++ z)) else none := by
  by_cases hxy : x.length + y.length < 2147483647
  · rw [concat_ofBytes x y hxy, Option.some_bind]
    by_cases ht : x.length + y.length + z.length < 2147483647
    · rw [if_pos ht, concat_ofBytes (x ++ y) z (by rw [List.length_append]; exact ht)]
    · rw [if_neg ht]
      exact concat_overflow (x ++ y) z (by rw [List.length_append]; omega) hz
        (by rw [List.length_append]; omega)
  · rw [concat_overflow x y hx hy (by omega), if_neg (by omega)]
    rfl

/-- The grouping `concat(x, concat(y, z))`: the string of all the bytes while the
total length is below `2^31 - 1`, and no string from there on. -/
theorem concat_right_grouping (x y z : List char) (hx : x.length < 2147483648)
    (hy : y.length < 2147483648) (hz : z.length < 2147483648) :
    ((__builtin_string_concat (MoonBitStr.ofBytes y) (MoonBitStr.ofBytes z)).bind
      fun bc => __builtin_string_concat (MoonBitStr.ofBytes x) bc)
      = if x.length + y.length + z.length < 2147483647
        then some (MoonBitStr.ofBytes (x ++ y ++ z)) else none := by
  by_cases hyz : y.length + z.length < 2147483647
  · rw [concat_ofBytes y z hyz, Option.some_bind]
    by_cases ht : x.length + y.length + z.length < 2147483647
    · rw [if_pos ht, concat_ofBytes x (y ++ z) (by rw [List.length_append]; omega),
        List.append_assoc]
    · rw [if_neg ht]
      exact concat_overflow x (y ++ z) hx (by rw [List.length_append]; omega)
        (by rw [List.length_append]; omega)
  · rw [concat_overflow y z hy hz (by omega), if_neg (by omega)]
    rfl

/-- Every index from 0 to the length, the sentinel included, holds a byte. -/
theorem getChar_upto_length (bytes : List char) (i : Int) (h0 : 0 ≤ i)
    (h1 : i ≤ (MoonBitStr.ofBytes bytes).length) :
    ∃ v, __builtin_get_char_in_string (MoonBitStr.ofBytes bytes) i = some v := by
  lift i to Nat using h0
  simp only [MoonBitStr.ofBytes, Nat.cast_le] at h1
  by_cases hlt : i < bytes.length
  · exact ⟨_, getChar_ofBytes bytes i hlt⟩
  · have hi : i = bytes.length := by omega
    subst hi
    refine ⟨0, ?_⟩
    unfold __builtin_get_char_in_string MoonBitStr.ofBytes
    simp only
    rw [load_natCast, List.getElem?_append_right (by simp)]
    simp

/-- C13, amended: for all strings `a`, `b`, `c` of the data model with
`a.length + b.length + c.length < 2^31 - 1`, both
`concat(concat(a, b), c)` and `concat(a, concat(b, c))` return a string; the two
strings have the same length, `a.length + b.length + c.length`, and the same
byte at every index from 0 to the length, the terminating sentinel included. -/
theorem concat_assoc (a b c : MoonBitStr) (ha : IsString a) (hb : IsString b)
    (hc : IsString c) (hlen : a.length + b.length + c.length < 2147483647) :
    ∃ l r, ((__builtin_string_concat a b).bind fun ab => __builtin_string_concat ab c) = some l ∧
      ((__builtin_string_concat b c).bind fun bc => __builtin_string_concat a bc) = some r ∧
      IsString l ∧ IsString r ∧
      __builtin_get_string_length l = a.length + b.length + c.length ∧
      __builtin_get_string_length r = __builtin_get_string_length l ∧
      (∀ i : Int, 0 ≤ i → i ≤ __builtin_get_string_length l →
        ∃ v, __builtin_get_char_in_string l i = some v ∧
          __builtin_get_char_in_string r i = some v) := by
  obtain ⟨x, rfl, hx⟩ := (isString_iff a).mp ha
  obtain ⟨y, rfl, hy⟩ := (isString_iff b).mp hb
  obtain ⟨z, rfl, hz⟩ := (isString_iff c).mp hc
  simp only [MoonBitStr.ofBytes] at hlen
  have ht : x.length + y.length + z.length < 2147483647 := by omega
  have hstr : IsString (MoonBitStr.ofBytes (x ++ y ++ z)) :=
    (isString_iff _).mpr ⟨_, rfl, by simp only [List.length_append]; omega⟩
  refine ⟨MoonBitStr.ofBytes (x ++ y ++ z), MoonBitStr.ofBytes (x ++ y ++ z), ?_, ?_, hstr, hstr,
    ?_, rfl, ?_⟩
  · rw [concat_left_grouping x y z hx hy hz, if_pos ht]
  · rw [concat_right_grouping x y z hx hy hz, if_pos ht]
  · simp only [__builtin_get_string_length, MoonBitStr.ofBytes, List.length_append]
    push_cast
    ring
  · intro i h0 h1
    obtain ⟨v, hv⟩ := getChar_upto_length (x ++ y ++ z) i h0 h1
    exact ⟨v, hv, hv⟩

/-- C13 on `"a"`, `"b"`, `"c"`: both groupings give `"abc"`, of length 3, with the
bytes `a`, `b`, `c` and the sentinel. -/
theorem concat_assoc_witness :
    IsString (MoonBitStr.ofBytes [97]) ∧ IsString (MoonBitStr.ofBytes [98]) ∧
    IsString (MoonBitStr.ofBytes [99]) ∧
    (∃ l r, ((__builtin_string_concat (MoonBitStr.ofBytes [97]) (MoonBitStr.ofBytes [98])).bind
          fun ab => __builtin_string_concat ab (MoonBitStr.ofBytes [99])) = some l ∧
        ((__builtin_string_concat (MoonBitStr.ofBytes [98]) (MoonBitStr.ofBytes [99])).bind
          fun bc => __builtin_string_concat (MoonBitStr.ofBytes [97]) bc) = some r ∧
        __builtin_get_string_length l = 3 ∧ __builtin_get_string_length r = 3) ∧
    ((__builtin_string_concat (MoonBitStr.ofBytes [97]) (MoonBitStr.ofBytes [98])).bind
        fun ab => __builtin_string_concat ab (MoonBitStr.ofBytes [99]))
      = some (MoonBitStr.ofBytes [97, 98, 99]) := by
  obtain ⟨l, r, hl, hr, _, _, h1, h2, _⟩ :=
    concat_assoc (MoonBitStr.ofBytes [97]) (MoonBitStr.ofBytes [98]) (MoonBitStr.ofBytes [99])
      (by decide) (by decide) (by decide) (by decide)
  exact ⟨by decide, by decide, by decide, ⟨l, r, hl, hr, h1, by rw [h2]; exact h1⟩, by decide⟩

/-- C13 as stated fails on two strings of `2^30` bytes and the string `"c"`: the
total length leaves the `int32_t` range, so neither grouping returns a string
and there are no two results to have the same length and bytes. -/
theorem concat_assoc_counterexample :
    IsString (MoonBitStr.ofBytes (List.replicate 1073741824 97)) ∧
    IsString (MoonBitStr.ofBytes [99]) ∧
    ((__builtin_string_concat (MoonBitStr.ofBytes (List.replicate 1073741824 97))
        (MoonBitStr.ofBytes (List.replicate 1073741824 97))).bind
      fun ab => __builtin_string_concat ab (MoonBitStr.ofBytes [99])) = none ∧
    ((__builtin_string_concat (MoonBitStr.ofBytes (List.replicate 1073741824 97))
        (MoonBitStr.ofBytes [99])).bind
      fun bc => __builtin_string_concat (MoonBitStr.ofBytes (List.replicate 1073741824 97)) bc)
      = none := by
  have hl : (List.replicate 1073741824 (97 : char)).length = 1073741824 :=
    List.length_replicate _ _
  have hbig : (List.replicate 1073741824 (97 : char)).length < 2147483648 := by
    rw [hl]; decide
  have hc : ([99] : List char).length < 2147483648 := by decide
  have htotal : ¬ ((List.replicate 1073741824 (97 : char)).length
      + (List.replicate 1073741824 (97 : char)).length + ([99] : List char).length
        < 2147483647) := by
    rw [hl]; decide
  refine ⟨(isString_iff _).mpr ⟨_, rfl, hbig⟩, by decide, ?_, ?_⟩
  · rw [concat_left_grouping _ _ _ hbig hbig hc, if_neg htotal]
  · rw [concat_right_grouping _ _ _ hbig hbig hc, if_neg htotal]

/-! ## Decimal conversion lemmas -/

/-- The digit loop with enough fuel puts a non-empty run of digit characters in
front of `acc`, with a leading `'0'` only for zero. -/
theorem digitsLoop_spec : ∀ (fuel n : Nat) (acc : List char), n < fuel →
    ∃ ds : List char, digitsLoop fuel n acc = ds ++ acc ∧ ds ≠ [] ∧
      (∀ c ∈ ds, 48 ≤ c ∧ c ≤ 57) ∧ (ds.head? = some 48 → n = 0) := by
  intro fuel
  induction fuel with
  | zero => intro n acc h; omega
  | succ fuel ih =>
    intro n acc hn
    rw [digitsLoop]
    by_cases hz : n / 10 = 0
    · rw [if_pos hz]
      refine ⟨[(48 + (n % 10 : Nat) : Int)], rfl, by simp, ?_, ?_⟩
      · intro c hc
        rw [List.mem_singleton] at hc
        simp only [char] at *
        omega
      · intro hh
        simp only [List.head?_cons, Option.some.injEq] at hh
        simp only [char] at *
        omega
    · rw [if_neg hz]
      obtain ⟨ds, hds, hne, hdig, hhead⟩ :=
        ih (n / 10) ((48 + (n % 10 : Nat) : Int) :: acc) (by omega)
      refine ⟨ds ++ [(48 + (n % 10 : Nat) : Int)], ?_, by simp, ?_, ?_⟩
      · rw [hds]; simp
      · intro c hc
        rcases List.mem_append.mp hc with h | h
        · exact hdig c h
        · rw [List.mem_singleton] at h
          simp only [char] at *
          omega
      · intro hh
        have : ds.head? = some 48 := by
          cases ds with
          | nil => exact absurd rfl hne
          | cons d rest => simpa using hh
        exact absurd (hhead this) hz

theorem digitsLoop_length : ∀ (fuel k n : Nat) (acc : List char), n < 10 ^ (k + 1) →
    (digitsLoop fuel n acc).length ≤ acc.length + (k + 1) := by
  intro fuel
  induction fuel with
  | zero => intro k n acc _; rw [digitsLoop]; omega
  | succ fuel ih =>
    intro k n acc hn
    rw [digitsLoop]
    by_cases hz : n / 10 = 0
    · rw [if_pos hz]
      simp only [List.length_cons]
      omega
    · rw [if_neg hz]
      cases k with
      | zero => simp only [zero_add, pow_one] at hn; omega
      | succ k =>
        have h10 : n / 10 < 10 ^ (k + 1) := by
          rw [Nat.div_lt_iff_lt_mul (by decide)]
          rw [pow_succ] at hn
          exact hn
        have := ih k (n / 10) ((48 + (n % 10 : Nat) : Int) :: acc) h10
        simp only [List.length_cons] at this
        omega

theorem parseDigits_digitsLoop : ∀ (fuel n : Nat) (acc : List char), n < fuel →
    parseDigits (digitsLoop fuel n acc) 0 = parseDigits acc n := by
  intro fuel
  induction fuel with
  | zero => intro n acc h; omega
  | succ fuel ih =>
    intro n acc hn
    have hstep : ∀ a : Nat, parseDigits ((48 + (n % 10 : Nat) : Int) :: acc) a
        = parseDigits acc (a * 10 + n % 10) := by
      intro a
      rw [parseDigits, if_pos (by simp only [char] at *; omega)]
      congr 2
      simp only [char] at *
      omega
    rw [digitsLoop]
    by_cases hz : n / 10 = 0
    · rw [if_pos hz, hstep]
      congr 1
      omega
    · rw [if_neg hz, ih _ _ (by omega), hstep]
      congr 1
      omega

theorem decimalDigits_spec (n : Nat) :
    decimalDigits n ≠ [] ∧ (∀ c ∈ decimalDigits n, 48 ≤ c ∧ c ≤ 57) ∧
      ((decimalDigits n).head? = some 48 → n = 0) ∧
      parseDigits (decimalDigits n) 0 = some n := by
  obtain ⟨ds, hds, hne, hdig, hhead⟩ := digitsLoop_spec (n + 1) n [] (by omega)
  rw [List.append_nil] at hds
  have hp := parseDigits_digitsLoop (n + 1) n [] (by omega)
  unfold decimalDigits
  rw [hds] at hp ⊢
  exact ⟨hne, hdig, hhead, hp⟩

theorem decimalDigits_length (n k : Nat) (h : n < 10 ^ (k + 1)) :
    (decimalDigits n).length ≤ k + 1 := by
  have := digitsLoop_length (n + 1) k n [] h
  simpa [decimalDigits] using this

/-- The text of `%d` and `%lld`: canonical and read back to the value. -/
theorem format_d_spec (v : Int) :
    (∀ c ∈ format_d v, c ≠ 0) ∧ parseDecimal (format_d v) = some v ∧
      ((format_d v).head? = some 45 ↔ v < 0) := by
  obtain ⟨hne, hdig, _, hp⟩ := decimalDigits_spec v.natAbs
  obtain ⟨c, cs, hcs⟩ : ∃ c cs, decimalDigits v.natAbs = c :: cs := by
    cases h : decimalDigits v.natAbs with
    | nil => exact absurd h hne
    | cons c cs => exact ⟨c, cs, rfl⟩
  have hc : 48 ≤ c ∧ c ≤ 57 := hdig c (by rw [hcs]; exact List.mem_cons_self _ _)
  have hneg : ∀ ds : List char, ds ≠ [] → parseDecimal (45 :: ds)
      = (parseDigits ds 0).map fun (n : Nat) => -(Int.ofNat n) := by
    intro ds hds
    simp only [parseDecimal, if_neg hds, if_true]
  have hpos : ∀ (d : char) (ds : List char), d ≠ 45 → parseDecimal (d :: ds)
      = (parseDigits (d :: ds) 0).map fun (n : Nat) => Int.ofNat n := by
    intro d ds hd
    simp only [parseDecimal, if_neg hd]
  unfold format_d
  by_cases hv : v < 0
  · rw [if_pos hv]
    refine ⟨?_, ?_, by simp [hv]⟩
    · intro x hx
      rcases List.mem_cons.mp hx with rfl | hx
      · decide
      · have := hdig x hx
        simp only [char] at *
        omega
    · rw [hneg _ hne, hp]
      simp only [Option.map_some', Option.some.injEq, Int.ofNat_eq_coe]
      omega
  · rw [if_neg hv]
    refine ⟨?_, ?_, ?_⟩
    · intro x hx
      have := hdig x hx
      simp only [char] at *
      omega
    · rw [hcs] at hp ⊢
      rw [hpos c cs (by simp only [char] at *; omega), hp]
      simp only [Option.map_some', Option.some.injEq, Int.ofNat_eq_coe]
      omega
    · rw [hcs]
      simp only [List.head?_cons, Option.some.injEq]
      constructor
      · intro h
        simp only [char] at *
        omega
      · intro h; exact absurd h hv

theorem format_d_length (v : Int) (k : Nat) (h : v.natAbs < 10 ^ (k + 1)) :
    (format_d v).length ≤ k + 2 := by
  have := decimalDigits_length v.natAbs k h
  unfold format_d
  split
  · simp only [List.length_cons]; omega
  · omega

/-- A conversion whose text has no zero byte and fits the buffer returns the
string of that text. -/
theorem create_string_snprintf (size : Nat) (text : List char) (h0 : ∀ c ∈ text, c ≠ 0)
    (hfit : text.length < size) (hsize : size < 2147483647) :
    __builtin_create_string (snprintf size text) = some (MoonBitStr.ofBytes text) := by
  have htake : text.take (size - 1) = text := List.take_of_length_le (by omega)
  unfold snprintf
  rw [if_neg (by omega), htake, List.append_assoc]
  exact create_string_literal text _ h0 (by omega)

theorem written_map_some (t : List char) : written (t.map some) = some t := by
  induction t with
  | nil => rfl
  | cons c cs ih => rw [List.map_cons, written, ih]; rfl

theorem bytes_ofBytes (t : List char) : (MoonBitStr.ofBytes t).bytes = some t := by
  unfold MoonBitStr.bytes MoonBitStr.ofBytes
  simp only [Int.toNat_ofNat]
  rw [List.take_append_of_le_length (by simp), List.take_of_length_le (by simp)]
  exact written_map_some t

/-! ## Integer conversions (C15) -/

/-- C15: for every `int32_t` value `v`, `__builtin_int_to_string(v)`, and for every
`int64_t` value `v`, `__builtin_int64_to_string(v)`, returns a string whose bytes
are the canonical base-10 text of `v`: a `'-'` exactly when `v < 0`, then a
non-empty run of digits with no leading zero (`"0"` for zero); reading the
text as a decimal integer gives `v`, the minimum of each width included. -/
theorem int_to_string_decimal (v : Int) :
    (-2147483648 ≤ v → v < 2147483648 →
      ∃ s ds, __builtin_int_to_string v = some s ∧ IsString s ∧
        s.bytes = some ((if v < 0 then [45] else []) ++ ds) ∧
        ds ≠ [] ∧ (∀ c ∈ ds, 48 ≤ c ∧ c ≤ 57) ∧ (ds.head? = some 48 → ds = [48] ∧ v = 0) ∧
        parseDecimal ((if v < 0 then [45] else []) ++ ds) = some v) ∧
    (-9223372036854775808 ≤ v → v < 9223372036854775808 →
      ∃ s ds, __builtin_int64_to_string v = some s ∧ IsString s ∧
        s.bytes = some ((if v < 0 then [45] else []) ++ ds) ∧
        ds ≠ [] ∧ (∀ c ∈ ds, 48 ≤ c ∧ c ≤ 57) ∧ (ds.head? = some 48 → ds = [48] ∧ v = 0) ∧
        parseDecimal ((if v < 0 then [45] else []) ++ ds) = some v) := by
  obtain ⟨hne, hdig, hhead, _⟩ := decimalDigits_spec v.natAbs
  obtain ⟨hnz, hparse, _⟩ := format_d_spec v
  have htext : format_d v = (if v < 0 then [45] else []) ++ decimalDigits v.natAbs := by
    unfold format_d
    split <;> rfl
  have hzero : (decimalDigits v.natAbs).head? = some 48 →
      decimalDigits v.natAbs = [48] ∧ v = 0 := by
    intro h
    have h0 := hhead h
    rw [h0]
    exact ⟨rfl, by omega⟩
  constructor
  · intro h1 h2
    have hlen : (format_d v).length ≤ 11 :=
      format_d_length v 9 (by norm_num; omega)
    have hs := create_string_snprintf 32 (format_d v) hnz (by omega) (by decide)
    refine ⟨MoonBitStr.ofBytes (format_d v), decimalDigits v.natAbs, hs, ?_, ?_, hne, hdig,
      hzero, ?_⟩
    · exact (isString_iff _).mpr ⟨_, rfl, by omega⟩
    · rw [bytes_ofBytes, htext]
    · rw [← htext]; exact hparse
  · intro h1 h2
    have hlen : (format_d v).length ≤ 20 :=
      format_d_length v 18 (by norm_num; omega)
    have hs := create_string_snprintf 64 (format_d v) hnz (by omega) (by decide)
    refine ⟨MoonBitStr.ofBytes (format_d v), decimalDigits v.natAbs, hs, ?_, ?_, hne, hdig,
      hzero, ?_⟩
    · exact (isString_iff _).mpr ⟨_, rfl, by omega⟩
    · rw [bytes_ofBytes, htext]
    · rw [← htext]; exact hparse

/-- C15, the scenarios of the specification: `-42` gives `"-42"`,
`-9000000000` gives `"-9000000000"`, and the minimum `int32_t` value is read
back from its text. -/
theorem int_to_string_decimal_witness :
    (__builtin_int_to_string (-42)).bind MoonBitStr.bytes = some [45, 52, 50] ∧
    (__builtin_int64_to_string (-9000000000)).bind MoonBitStr.bytes
      = some [45, 57, 48, 48, 48, 48, 48, 48, 48, 48, 48] ∧
    (∃ s ds, __builtin_int_to_string (-2147483648) = some s ∧
      s.bytes = some ((if (-2147483648 : Int) < 0 then [45] else []) ++ ds) ∧
      parseDecimal ((if (-2147483648 : Int) < 0 then [45] else []) ++ ds)
        = some (-2147483648)) := by
  refine ⟨by decide, by decide, ?_⟩
  obtain ⟨s, ds, hs, _, hb, _, _, _, hp⟩ :=
    (int_to_string_decimal (-2147483648)).1 (by decide) (by decide)
  exact ⟨s, ds, hs, hb, hp⟩

/-! ## Character conversion (C16) -/

/-- C16, amended: for every char value `c` other than the zero byte,
`__builtin_char_to_string(c)` returns a string of length 1 whose byte at index
0 is `c`; for the zero byte it returns the empty string. -/
theorem char_to_string_byte (c : char) :
    (c ≠ 0 → ∃ s, __builtin_char_to_string c = some s ∧ IsString s ∧
      __builtin_get_string_length s = 1 ∧ __builtin_get_char_in_string s 0 = some c) ∧
    (c = 0 → ∃ s, __builtin_char_to_string c = some s ∧ IsString s ∧
      __builtin_get_string_length s = 0) := by
  constructor
  · intro hc
    have h := create_string_literal [c] [] (by simpa using hc) (by simp)
    refine ⟨MoonBitStr.ofBytes [c], h, ?_, rfl, ?_⟩
    · exact (isString_iff _).mpr ⟨_, rfl, by simp⟩
    · exact getChar_ofBytes [c] 0 (by simp)
  · intro hc
    subst hc
    exact ⟨MoonBitStr.ofBytes [], by decide, by decide, rfl⟩

/-- C16 on the letter `A`. -/
theorem char_to_string_byte_witness :
    (65 : char) ≠ 0 ∧ ∃ s, __builtin_char_to_string 65 = some s ∧
      __builtin_get_string_length s = 1 ∧ __builtin_get_char_in_string s 0 = some 65 := by
  refine ⟨by decide, ?_⟩
  obtain ⟨s, hs, _, hl, hc⟩ := (char_to_string_byte 65).1 (by decide)
  exact ⟨s, hs, hl, hc⟩

/-- C16 as stated fails for the zero byte: the buffer is `{0, 0}`, the scan of
`__builtin_create_string` stops at index 0, and the result is the empty string,
of length 0 and with no byte at index 0 below its length. -/
theorem char_to_string_byte_counterexample :
    __builtin_char_to_string 0 = some { data := [some 0], length := 0 } ∧
    ¬ ∃ s, __builtin_char_to_string 0 = some s ∧ __builtin_get_string_length s = 1 := by
  refine ⟨by decide, ?_⟩
  rintro ⟨s, hs, hl⟩
  have h : __builtin_char_to_string 0 = some { data := [some 0], length := 0 } := by decide
  rw [h] at hs
  cases hs
  cases hl

/-! ## Reallocations of a sequence of pushes (C18) -/

theorem growthCount_cons (k : Kind) (b b1 : TypedArray k.elem) (v : k.elem) (vs : List k.elem)
    (h : Push k b v = some b1) :
    growthCount k b (v :: vs)
      = (if b.length ≥ b.capacity then 1 else 0) + growthCount k b1 vs := by
  rw [growthCount, h]

/-- A sequence of pushes onto a buffer whose capacity is `2^(i+1) - 1`, the least
such number that holds its elements: the capacity stays of that form and the
exponent grows by the number of reallocations. -/
theorem pushAll_growth (k : Kind) (vs : List k.elem) :
    ∀ (b : TypedArray k.elem) (i : Nat), IsBuffer b → b.capacity = 2 * 2 ^ i - 1 →
      ((b.length = 0 ∧ i = 0) ∨ (2 : Int) ^ i ≤ b.length) →
      b.length + vs.length < 1073741824 →
      ∃ (b1 : TypedArray k.elem) (i1 : Nat), pushAll k b vs = some b1 ∧ IsBuffer b1 ∧
        b1.length = b.length + vs.length ∧ b1.capacity = 2 * 2 ^ i1 - 1 ∧
        ((b1.length = 0 ∧ i1 = 0) ∨ (2 : Int) ^ i1 ≤ b1.length) ∧
        growthCount k b vs + i = i1 := by
  induction vs with
  | nil =>
    intro b i hb hc hi _
    exact ⟨b, i, rfl, hb, by simp, hc, hi, by simp [growthCount]⟩
  | cons v vs ih =>
    intro b i hb hc hi hn
    simp only [List.length_cons, Nat.cast_add, Nat.cast_one] at hn
    have hb0 := hb
    obtain ⟨⟨h0, hle⟩, hd⟩ := hb0
    have hpow : (0 : Int) < 2 ^ i := by positivity
    have hcap : b.capacity < 2147483648 := by
      rcases hi with ⟨_, hi0⟩ | hi
      · subst hi0
        rw [hc]
        norm_num
      · omega
    obtain ⟨b1, hp, hl1, hc1, hd1, _, _⟩ :=
      pushWith_spec k.size (Kind.size_cases k) b v hb hcap (by omega)
    have hpush : Push k b v = some b1 := by rw [Push_eq]; exact hp
    by_cases hge : b.length ≥ b.capacity
    · rw [if_pos hge] at hc1
      have hb1 : IsBuffer b1 := ⟨⟨by omega, by omega⟩, hd1⟩
      have hc2 : b1.capacity = 2 * 2 ^ (i + 1) - 1 := by
        rw [hc1, hc, pow_succ]
        ring
      have hi2 : (b1.length = 0 ∧ i + 1 = 0) ∨ (2 : Int) ^ (i + 1) ≤ b1.length := by
        right
        rw [pow_succ, hl1]
        omega
      obtain ⟨b2, i2, hp2, hb2, hl2, hcap2, hi3, hg⟩ := ih b1 (i + 1) hb1 hc2 hi2 (by omega)
      refine ⟨b2, i2, ?_, hb2, ?_, hcap2, hi3, ?_⟩
      · rw [pushAll, hpush]; exact hp2
      · rw [hl2, hl1]
        simp only [List.length_cons, Nat.cast_add, Nat.cast_one]
        omega
      · rw [growthCount_cons k b b1 v vs hpush, if_pos hge]
        omega
    · rw [if_neg hge] at hc1
      have hb1 : IsBuffer b1 := ⟨⟨by omega, by omega⟩, hd1⟩
      have hc2 : b1.capacity = 2 * 2 ^ i - 1 := by rw [hc1, hc]
      have hi2 : (b1.length = 0 ∧ i = 0) ∨ (2 : Int) ^ i ≤ b1.length := by
        right
        rcases hi with ⟨_, hi0⟩ | hi
        · subst hi0
          rw [hl1]
          norm_num
          omega
        · omega
      obtain ⟨b2, i2, hp2, hb2, hl2, hcap2, hi3, hg⟩ := ih b1 i hb1 hc2 hi2 (by omega)
      refine ⟨b2, i2, ?_, hb2, ?_, hcap2, hi3, ?_⟩
      · rw [pushAll, hpush]; exact hp2
      · rw [hl2, hl1]
        simp only [List.length_cons, Nat.cast_add, Nat.cast_one]
        omega
      · rw [growthCount_cons k b b1 v vs hpush, if_neg hge]
        omega

/-- C18: for each scalar buffer kind, after `n` pushes (`1 ≤ n < 2^30`) onto
`Construct(0, fill)` the capacity is `2^k - 1` for the least `k` with
`n ≤ 2^k - 1`, the number of pushes that reallocated is `k - 1`, and
`k - 1 ≤ log2(n + 1)`. -/
theorem pushes_reallocate_logarithmically (s : ScalarKind) (fill : s.elem)
    (vs : List s.elem) (h1 : 1 ≤ vs.length) (h2 : vs.length < 1073741824) :
    ∃ (b0 b : TypedArray s.elem) (k : Nat), Construct s 0 fill = some b0 ∧
      pushAll (.scalar s) b0 vs = some b ∧ 1 ≤ k ∧
      b.capacity = 2 ^ k - 1 ∧ (vs.length : Int) ≤ 2 ^ k - 1 ∧
      (2 : Int) ^ (k - 1) - 1 < vs.length ∧
      growthCount (.scalar s) b0 vs = k - 1 ∧ k - 1 ≤ Nat.log 2 (vs.length + 1) := by
  have hmk : Construct s 0 fill = some { length := 0, capacity := 1, data := [none] } := by
    rw [Construct_eq]
    exact makeWith_of_small _ (Kind.size_cases _) 0 fill (by decide) (by decide)
  obtain ⟨b, i, hp, hb, hl, hc, hi, hg⟩ :=
    pushAll_growth (.scalar s) vs { length := 0, capacity := 1, data := [none] } 0
      isBuffer_empty.1 (by norm_num) (Or.inl ⟨rfl, rfl⟩) (by simp only [zero_add]; omega)
  simp only [zero_add] at hl
  have hpow : (2 : Int) ^ i ≤ vs.length := by
    rcases hi with ⟨h0, _⟩ | hi
    · omega
    · omega
  have hpowN : 2 ^ i ≤ vs.length := by exact_mod_cast hpow
  obtain ⟨⟨_, hle⟩, _⟩ := hb
  refine ⟨_, b, i + 1, hmk, hp, by omega, ?_, ?_, ?_, ?_, ?_⟩
  · rw [hc, pow_succ]; ring
  · rw [pow_succ]; omega
  · simp only [Nat.add_sub_cancel]; omega
  · simp only [Nat.add_sub_cancel]; omega
  · simp only [Nat.add_sub_cancel]
    exact Nat.le_log_of_pow_le (by decide) (by omega)

/-- C18 on four pushes: capacity `7 = 2^3 - 1` and two reallocations. -/
theorem pushes_reallocate_logarithmically_witness :
    1 ≤ ([10, 20, 30, 40] : List Int).length ∧
    (∃ (b0 b : IntArray) (k : Nat), make_int_array 0 0 = some b0 ∧
      pushAll (.scalar .int32) b0 [10, 20, 30, 40] = some b ∧ 1 ≤ k ∧
      b.capacity = 2 ^ k - 1 ∧ (([10, 20, 30, 40] : List Int).length : Int) ≤ 2 ^ k - 1 ∧
      (2 : Int) ^ (k - 1) - 1 < ([10, 20, 30, 40] : List Int).length ∧
      growthCount (.scalar .int32) b0 [10, 20, 30, 40] = k - 1 ∧
      k - 1 ≤ Nat.log 2 (([10, 20, 30, 40] : List Int).length + 1)) ∧
    ((make_int_array 0 0).bind fun b0 => pushAll (.scalar .int32) b0 [10, 20, 30, 40])
      = some { length := 4, capacity := 7,
               data := [some 10, some 20, some 30, some 40, none, none, none] } ∧
    (make_int_array 0 0).map (fun b0 => growthCount (.scalar .int32) b0 [10, 20, 30, 40])
      = some 2 :=
  ⟨by decide,
   pushes_reallocate_logarithmically .int32 0 [10, 20, 30, 40] (by decide) (by decide),
   by decide, by decide⟩

/-! ## Accesses stay inside the storage (C19) -/

/-- C19: for each scalar buffer kind and every buffer of the data model (storage
of exactly `capacity` slots) with `0 ≤ length ≤ capacity < 2^30`, the write of
`Push` has a defined result and lands at the index `length`, strictly below
the size of the storage after the push; and for every index `0 ≤ i < length`
the slot exists, `Get` returns its content, and `Put` has a defined result:
the out-of-bounds branch of the accesses is not taken. -/
theorem accesses_in_bounds (s : ScalarKind) (b : TypedArray s.elem) (hb : IsBuffer b)
    (hc : b.capacity < 1073741824) :
    (∀ v : s.elem, ∃ b1, Push (.scalar s) b v = some b1 ∧ 0 ≤ b.length ∧
      b.length < b1.data.length) ∧
    (∀ i : Int, 0 ≤ i → i < b.length →
      (∃ slot, b.data[i.toNat]? = some slot ∧
        Get (.scalar s) b i = slot.map (fun x => (x, b))) ∧
      (∀ v : s.elem, ∃ b1, Put (.scalar s) b i v = some b1)) := by
  obtain ⟨⟨h0, hle⟩, hd⟩ := hb
  constructor
  · intro v
    obtain ⟨b1, hp, hl, hcap, hd1, _, _⟩ :=
      pushWith_spec _ (Kind.size_cases (.scalar s)) b v ⟨⟨h0, hle⟩, hd⟩ (by omega) (Or.inr hc)
    refine ⟨b1, by rw [Push_eq]; exact hp, h0, ?_⟩
    rw [hd1, hcap]
    split <;> omega
  · intro i hi0 hi1
    have hlt : i.toNat < b.data.length := by omega
    constructor
    · refine ⟨b.data[i.toNat], List.getElem?_eq_getElem hlt, ?_⟩
      rw [Get_eq]
      unfold getWith load
      rw [if_pos hi0, List.getElem?_eq_getElem hlt]
      rfl
    · intro v
      obtain ⟨b1, hp, _⟩ := putWith_spec b i v hi0 (by omega)
      exact ⟨b1, by rw [Put_eq]; exact hp⟩

/-- C19 on a full `int32_t` buffer of two elements. -/
theorem accesses_in_bounds_witness :
    IsBuffer ({ length := 2, capacity := 2, data := [some 5, some 6] } : IntArray) ∧
    (∃ b1, array_int_push { length := 2, capacity := 2, data := [some 5, some 6] } 7 = some b1 ∧
      (2 : Int) < b1.data.length) ∧
    (∃ b1, array_int_put { length := 2, capacity := 2, data := [some 5, some 6] } 1 9
      = some b1) := by
  have h := accesses_in_bounds .int32
    ({ length := 2, capacity := 2, data := [some 5, some 6] } : IntArray) (by decide) (by decide)
  obtain ⟨b1, hp, _, hl⟩ := h.1 7
  exact ⟨by decide, ⟨b1, hp, hl⟩, (h.2 1 (by decide) (by decide)).2 9⟩

/-! ## Built strings hold no zero byte (C20) -/

/-- The invariant of the strings a program builds: a string of the data model
whose bytes below the length are not zero, short enough for its byte count. -/
theorem built_repr {s : MoonBitStr} (h : Built s) :
    ∃ bytes : List char, s = MoonBitStr.ofBytes bytes ∧ (∀ c ∈ bytes, c ≠ 0) ∧
      bytes.length < 2147483647 := by
  have hcreate : ∀ (str : Block char) (s : MoonBitStr), __builtin_create_string str = some s →
      ∃ bytes : List char, s = MoonBitStr.ofBytes bytes ∧ (∀ c ∈ bytes, c ≠ 0) ∧
        bytes.length < 2147483647 := by
    intro str s hs
    cases hscan : scanLoop str 0 with
    | none =>
      unfold __builtin_create_string at hs
      rw [hscan] at hs
      cases hs
    | some len =>
      obtain ⟨text, tail, hstr, hnz, hlen, hlt⟩ :=
        scanLoop_some str 0 len (le_refl 0) (by decide) hscan
      rw [zero_add] at hlen
      subst hstr
      by_cases hmax : text.length < 2147483647
      · rw [create_string_literal text tail hnz hmax] at hs
        cases hs
        exact ⟨text, rfl, hnz, hmax⟩
      · rw [create_string_overflow text tail hnz (by omega)] at hs
        cases hs
  induction h with
  | create str s hs => exact hcreate str s hs
  | concat a b s _ _ hs iha ihb =>
    obtain ⟨x, rfl, hx, hxl⟩ := iha
    obtain ⟨y, rfl, hy, hyl⟩ := ihb
    by_cases hsum : x.length + y.length < 2147483647
    · rw [concat_ofBytes x y hsum] at hs
      cases hs
      refine ⟨x ++ y, rfl, ?_, by rw [List.length_append]; exact hsum⟩
      intro c hc
      rcases List.mem_append.mp hc with h | h
      · exact hx c h
      · exact hy c h
    · rw [concat_overflow x y (by omega) (by omega) (by omega)] at hs
      cases hs
  | int v s _ _ hs => exact hcreate _ s hs
  | int64 v s _ _ hs => exact hcreate _ s hs
  | char c s hs => exact hcreate _ s hs

/-- C20: every string built with `__builtin_create_string`,
`__builtin_string_concat`, `__builtin_int_to_string`,
`__builtin_int64_to_string` and `__builtin_char_to_string` has a non-zero byte
at every index below `length`, and the scan for the first zero byte of `data`
(the length `"%s"` sees) stops at `length`. -/
theorem built_string_has_no_nul (s : MoonBitStr) (h : Built s) :
    (∀ i : Int, 0 ≤ i → i < s.length →
      ∃ c, __builtin_get_char_in_string s i = some c ∧ c ≠ 0) ∧
    scanLoop s.data 0 = some (__builtin_get_string_length s) ∧ IsString s := by
  obtain ⟨bytes, rfl, hnz, hlen⟩ := built_repr h
  refine ⟨?_, ?_, (isString_iff _).mpr ⟨bytes, rfl, by omega⟩⟩
  · intro i hi0 hi1
    lift i to Nat using hi0
    simp only [MoonBitStr.ofBytes, Nat.cast_lt] at hi1
    exact ⟨bytes[i], getChar_ofBytes bytes i hi1, hnz _ (List.getElem_mem _)⟩
  · have := scanLoop_literal bytes [] hnz 0 (le_refl 0) (by omega)
    rw [zero_add] at this
    exact this

/-- C20 on the concatenation of `"-42"` (from `__builtin_int_to_string`) and
`"A"` (from `__builtin_char_to_string`). -/
theorem built_string_has_no_nul_witness :
    Built (MoonBitStr.ofBytes [45, 52, 50, 65]) ∧
    scanLoop (MoonBitStr.ofBytes [45, 52, 50, 65]).data 0 = some 4 := by
  have hb : Built (MoonBitStr.ofBytes [45, 52, 50, 65]) :=
    Built.concat (MoonBitStr.ofBytes [45, 52, 50]) (MoonBitStr.ofBytes [65]) _
      (Built.int (-42) _ (by decide) (by decide) (by decide))
      (Built.char 65 _ (by decide)) (by decide)
  exact ⟨hb, (built_string_has_no_nul _ hb).2.1⟩

/-! ## Lemmas on digit texts -/

theorem parseDigits_append (xs ys : List char) :
    ∀ a : Nat, parseDigits (xs ++ ys) a = (parseDigits xs a).bind (parseDigits ys) := by
  induction xs with
  | nil => intro a; rfl
  | cons c cs ih =>
    intro a
    rw [List.cons_append, parseDigits, parseDigits]
    split
    · exact ih _
    · rfl

theorem parseDigits_some (ds : List char) (h : ∀ c ∈ ds, 48 ≤ c ∧ c ≤ 57) :
    ∃ n : Nat, n < 10 ^ ds.length ∧ ∀ a : Nat, parseDigits ds a = some (a * 10 ^ ds.length + n) := by
  induction ds with
  | nil => exact ⟨0, by simp, fun a => by simp [parseDigits]⟩
  | cons c cs ih =>
    obtain ⟨n, hn, hp⟩ := ih (fun x hx => h x (List.mem_cons_of_mem _ hx))
    have hc := h c (List.mem_cons_self _ _)
    simp only [char] at hc
    have hd : (c - 48).toNat < 10 := by omega
    refine ⟨(c - 48).toNat * 10 ^ cs.length + n, ?_, ?_⟩
    · rw [List.length_cons, pow_succ]
      have : (c - 48).toNat * 10 ^ cs.length ≤ 9 * 10 ^ cs.length :=
        Nat.mul_le_mul_right _ (by omega)
      omega
    · intro a
      rw [parseDigits, if_pos hc, hp, List.length_cons, pow_succ]
      congr 1
      ring

theorem parseDigits_zeros (z : Nat) (a : Nat) :
    parseDigits (List.replicate z 48) a = some (a * 10 ^ z) := by
  induction z generalizing a with
  | zero => simp [parseDigits]
  | succ z ih =>
    rw [List.replicate_succ, parseDigits, if_pos (by decide), ih, pow_succ]
    congr 1
    have : ((48 : char) - 48).toNat = 0 := by decide
    rw [this]
    ring

theorem stripZeros_spec (ds : List char) :
    ∃ z : Nat, ds = stripZeros ds ++ List.replicate z 48 := by
  unfold stripZeros
  refine ⟨(ds.reverse.takeWhile fun c => decide (c = 48)).length, ?_⟩
  have h1 := List.takeWhile_append_dropWhile (fun c => decide (c = 48)) ds.reverse
  have h2 : (ds.reverse.takeWhile fun c => decide (c = 48))
      = List.replicate (ds.reverse.takeWhile fun c => decide (c = 48)).length (48 : char) := by
    rw [List.eq_replicate_iff]
    refine ⟨rfl, ?_⟩
    intro b hb
    have := List.mem_takeWhile_imp hb
    simpa using this
  have h3 : ds = (ds.reverse.dropWhile fun c => decide (c = 48)).reverse
      ++ (ds.reverse.takeWhile fun c => decide (c = 48)).reverse := by
    rw [← List.reverse_append, h1, List.reverse_reverse]
  conv_lhs => rw [h3]
  congr 1
  conv_lhs => rw [h2]
  rw [List.reverse_replicate]

theorem stripZeros_subset (ds : List char) : ∀ c ∈ stripZeros ds, c ∈ ds := by
  intro c hc
  obtain ⟨z, hz⟩ := stripZeros_spec ds
  rw [hz]
  exact List.mem_append_left _ hc

theorem isDigit_iff (c : char) : isDigit c = true ↔ 48 ≤ c ∧ c ≤ 57 := by
  unfold isDigit
  exact decide_eq_true_iff

theorem span_digits (ds rest : List char) (hds : ∀ c ∈ ds, 48 ≤ c ∧ c ≤ 57)
    (hrest : ∀ c, rest.head? = some c → isDigit c = false) :
    (ds ++ rest).takeWhile isDigit = ds ∧ (ds ++ rest).dropWhile isDigit = rest := by
  induction ds with
  | nil =>
    cases rest with
    | nil => exact ⟨rfl, rfl⟩
    | cons r rs =>
      have hr := hrest r rfl
      simp [List.takeWhile_cons, List.dropWhile_cons, hr]
  | cons c cs ih =>
    have hc : isDigit c = true := (isDigit_iff c).mpr (hds c (List.mem_cons_self _ _))
    obtain ⟨h1, h2⟩ := ih (fun x hx => hds x (List.mem_cons_of_mem _ hx))
    simp [List.takeWhile_cons, List.dropWhile_cons, hc, h1, h2]

theorem parseDigits_leading_zero (ds : List char) :
    parseDigits (48 :: ds) 0 = parseDigits ds 0 := by
  rw [parseDigits, if_pos (by decide)]
  rfl

theorem parseExponent_exponentText (X : Int) : parseExponent (exponentText X) = some X := by
  obtain ⟨hne, _, _, hp⟩ := decimalDigits_spec X.natAbs
  have hdig : ∀ ds : List char, ds = (if X.natAbs < 10 then 48 :: decimalDigits X.natAbs
      else decimalDigits X.natAbs) → ds ≠ [] ∧ parseDigits ds 0 = some X.natAbs := by
    intro ds hds
    subst hds
    split
    · exact ⟨by simp, by rw [parseDigits_leading_zero]; exact hp⟩
    · exact ⟨hne, hp⟩
  obtain ⟨hne2, hp2⟩ := hdig _ rfl
  unfold exponentText
  by_cases hX : X < 0
  · simp only [hX, if_true, List.cons_append, List.nil_append, parseExponent, if_neg hne2, hp2,
      Option.map_some', Option.some.injEq, Int.ofNat_eq_coe]
    omega
  · have h43 : ¬ ((43 : char) = 45) := by decide
    simp only [hX, if_false, List.cons_append, List.nil_append, parseExponent, if_true, if_neg h43,
      if_neg hne2, hp2, Option.map_some', Option.some.injEq, Int.ofNat_eq_coe]
    omega

theorem exponentText_head (X : Int) : ∃ rest, exponentText X = 101 :: rest := by
  unfold exponentText
  exact ⟨_, rfl⟩

/-- The reading of a text made of an integer part `I`, the fraction of the digits
`R` and an exponent part: the digits `I ++ R` without the `z` trailing zeros of
`R`, scaled by the exponent minus the number of fraction digits kept. -/
theorem parseUnsigned_parts (I R expo : List char) (X : Int) (n : Nat)
    (hI : ∀ c ∈ I, 48 ≤ c ∧ c ≤ 57) (hIne : I ≠ []) (hR : ∀ c ∈ R, 48 ≤ c ∧ c ≤ 57)
    (hexpo : (expo = [] ∧ X = 0) ∨ expo = exponentText X)
    (hn : parseDigits (I ++ R) 0 = some n) :
    ∃ M z : Nat, parseUnsigned (I ++ fractionText R ++ expo)
        = some (M, X - Int.ofNat (R.length - z)) ∧ n = M * 10 ^ z ∧ z ≤ R.length := by
  obtain ⟨z, hz⟩ := stripZeros_spec R
  have hf : ∀ c ∈ stripZeros R, 48 ≤ c ∧ c ≤ 57 := fun c hc => hR c (stripZeros_subset R c hc)
  have hlen : R.length = (stripZeros R).length + z := by
    conv_lhs => rw [hz]
    simp
  -- the exponent part
  have hpe : parseExponent expo = some X := by
    rcases hexpo with ⟨h1, h2⟩ | h
    · rw [h1, h2]; rfl
    · rw [h]; exact parseExponent_exponentText X
  have hexpoHead : ∀ c, expo.head? = some c → isDigit c = false ∧ c ≠ 46 := by
    intro c hc
    rcases hexpo with ⟨h1, _⟩ | h
    · rw [h1] at hc; cases hc
    · obtain ⟨rest, hrest⟩ := exponentText_head X
      rw [h, hrest] at hc
      simp only [List.head?_cons, Option.some.injEq] at hc
      subst hc
      exact ⟨by decide, by decide⟩
  -- the digits read
  have hM : ∃ M, parseDigits (I ++ stripZeros R) 0 = some M ∧ n = M * 10 ^ z := by
    obtain ⟨M, _, hMp⟩ := parseDigits_some (I ++ stripZeros R) (by
      intro c hc
      rcases List.mem_append.mp hc with h | h
      · exact hI c h
      · exact hf c h)
    refine ⟨0 * 10 ^ (I ++ stripZeros R).length + M, hMp 0, ?_⟩
    have : parseDigits (I ++ R) 0 = some ((0 * 10 ^ (I ++ stripZeros R).length + M) * 10 ^ z) := by
      conv_lhs => rw [hz, ← List.append_assoc, parseDigits_append, hMp 0]
      exact parseDigits_zeros z _
    rw [this] at hn
    exact (Option.some.inj hn).symm
  obtain ⟨M, hMp, hMn⟩ := hM
  refine ⟨M, z, ?_, hMn, by omega⟩
  unfold fractionText
  by_cases hfe : stripZeros R = []
  · rw [if_pos hfe, List.append_nil]
    obtain ⟨h1, h2⟩ := span_digits I expo hI (fun c hc => (hexpoHead c hc).1)
    have h46 : ¬ (expo.head? = some 46) := by
      intro h
      exact (hexpoHead 46 h).2 rfl
    rw [hfe, List.append_nil] at hMp
    have hz0 : R.length - z = 0 := by rw [hlen, hfe]; simp
    unfold parseUnsigned
    simp only [h1, h2, if_neg h46, if_false, List.append_nil, Bool.false_eq_true,
      if_neg hIne, hMp, Option.some_bind, hpe, Option.map_some', List.length_nil, hz0]
  · rw [if_neg hfe]
    have hrest : ∀ c, (46 :: (stripZeros R ++ expo)).head? = some c → isDigit c = false := by
      intro c hc
      simp only [List.head?_cons, Option.some.injEq] at hc
      subst hc
      decide
    obtain ⟨h1, h2⟩ := span_digits I (46 :: (stripZeros R ++ expo)) hI hrest
    obtain ⟨h3, h4⟩ := span_digits (stripZeros R) expo hf (fun c hc => (hexpoHead c hc).1)
    have hassoc : I ++ 46 :: stripZeros R ++ expo = I ++ (46 :: (stripZeros R ++ expo)) := by
      simp
    have hne2 : I ++ stripZeros R ≠ [] := by
      simp [hIne]
    have hflen : (stripZeros R).length = R.length - z := by omega
    rw [hassoc]
    unfold parseUnsigned
    simp only [h1, h2, if_false, Bool.false_eq_true, List.head?_cons,
      if_true, List.tail_cons, h3, h4, if_neg hne2, hMp, Option.some_bind, hpe,
      Option.map_some', hflen]

/-! ## Lemmas on the six significant digits -/

theorem expUp_spec : ∀ (fuel num den : Nat), 0 < den → den ≤ num → num < den * 10 ^ fuel →
    den * 10 ^ expUp fuel num den ≤ num ∧ num < den * 10 ^ (expUp fuel num den + 1) := by
  intro fuel
  induction fuel with
  | zero =>
    intro num den _ h1 h2
    simp only [pow_zero, Nat.mul_one] at h2
    omega
  | succ fuel ih =>
    intro num den hd h1 h2
    rw [expUp]
    by_cases h10 : den * 10 ≤ num
    · rw [if_pos h10]
      have h3 : num < den * 10 * 10 ^ fuel := by
        rw [pow_succ] at h2
        calc num < den * (10 ^ fuel * 10) := h2
          _ = den * 10 * 10 ^ fuel := by ring
      obtain ⟨ha, hb⟩ := ih num (den * 10) (by omega) h10 h3
      constructor
      · calc den * 10 ^ (expUp fuel num (den * 10) + 1)
            = den * 10 * 10 ^ expUp fuel num (den * 10) := by rw [pow_succ]; ring
          _ ≤ num := ha
      · calc num < den * 10 * 10 ^ (expUp fuel num (den * 10) + 1) := hb
          _ = den * 10 ^ (expUp fuel num (den * 10) + 1 + 1) := by
            rw [pow_succ (10 : Nat) (expUp fuel num (den * 10) + 1)]; ring
    · rw [if_neg h10]
      simp only [pow_zero, Nat.mul_one, zero_add, pow_one]
      omega

theorem expDown_of_ge (fuel num den : Nat) (h : den ≤ num) : expDown fuel num den = 0 := by
  cases fuel with
  | zero => rfl
  | succ fuel => rw [expDown, if_neg (by omega)]

theorem expDown_spec : ∀ (fuel num den : Nat), 0 < num → num < den → den ≤ num * 10 ^ fuel →
    1 ≤ expDown fuel num den ∧ den ≤ num * 10 ^ expDown fuel num den ∧
      num * 10 ^ (expDown fuel num den - 1) < den := by
  intro fuel
  induction fuel with
  | zero =>
    intro num den _ h1 h2
    simp only [pow_zero, Nat.mul_one] at h2
    omega
  | succ fuel ih =>
    intro num den hn h1 h2
    rw [expDown, if_pos h1]
    by_cases h10 : num * 10 < den
    · have h3 : den ≤ num * 10 * 10 ^ fuel := by
        rw [pow_succ] at h2
        calc den ≤ num * (10 ^ fuel * 10) := h2
          _ = num * 10 * 10 ^ fuel := by ring
      obtain ⟨ha, hb, hc⟩ := ih (num * 10) den (by omega) h10 h3
      refine ⟨by omega, ?_, ?_⟩
      · calc den ≤ num * 10 * 10 ^ expDown fuel (num * 10) den := hb
          _ = num * 10 ^ (expDown fuel (num * 10) den + 1) := by rw [pow_succ]; ring
      · simp only [Nat.add_sub_cancel]
        obtain ⟨j, hj⟩ : ∃ j, expDown fuel (num * 10) den = j + 1 := ⟨_, (Nat.sub_add_cancel ha).symm⟩
        rw [hj] at hc ⊢
        simp only [Nat.add_sub_cancel] at hc
        calc num * 10 ^ (j + 1) = num * 10 * 10 ^ j := by rw [pow_succ]; ring
          _ < den := hc
    · rw [expDown_of_ge fuel (num * 10) den (by omega)]
      simp only [zero_add, pow_one, Nat.sub_self, pow_zero, Nat.mul_one]
      omega

theorem roundHalfEven_bounds (N D : Nat) :
    N / D ≤ roundHalfEven N D ∧ roundHalfEven N D ≤ N / D + 1 := by
  unfold roundHalfEven
  split <;> omega

/-- The rounded significand of a positive magnitude has six digits, or is `10^6`. -/
theorem significand_range (num den : Nat) (hn : 0 < num) (hd : 0 < den) :
    100000 ≤ significand num den (decimalExponent num den) ∧
      significand num den (decimalExponent num den) ≤ 1000000 := by
  have key : ∀ N D : Nat, 0 < D → D * 100000 ≤ N → N < D * 1000000 →
      100000 ≤ roundHalfEven N D ∧ roundHalfEven N D ≤ 1000000 := by
    intro N D hD h1 h2
    obtain ⟨ha, hb⟩ := roundHalfEven_bounds N D
    have h3 : 100000 ≤ N / D := by
      rw [Nat.le_div_iff_mul_le hD]
      calc 100000 * D = D * 100000 := by ring
        _ ≤ N := h1
    have h4 : N / D < 1000000 := by
      rw [Nat.div_lt_iff_lt_mul hD]
      calc N < D * 1000000 := h2
        _ = 1000000 * D := by ring
    omega
  unfold decimalExponent significand
  by_cases hle : den ≤ num
  · rw [if_pos hle]
    obtain ⟨ha, hb⟩ := expUp_spec num num den hd hle (by
      calc num < 10 ^ num := Nat.lt_pow_self (by decide) num
        _ ≤ den * 10 ^ num := Nat.le_mul_of_pos_left _ hd)
    generalize expUp num num den = k at ha hb ⊢
    by_cases hk : k ≤ 5
    · rw [if_pos (by simp only [Int.ofNat_eq_coe]; omega)]
      have ht : (5 - Int.ofNat k).toNat = 5 - k := by simp only [Int.ofNat_eq_coe]; omega
      rw [ht]
      have hsplit : (100000 : Nat) = 10 ^ k * 10 ^ (5 - k) := by
        have : k + (5 - k) = 5 := by omega
        rw [← pow_add, this]
        norm_num
      have hsplit6 : (1000000 : Nat) = 10 ^ (k + 1) * 10 ^ (5 - k) := by
        have : k + 1 + (5 - k) = 6 := by omega
        rw [← pow_add, this]
        norm_num
      apply key _ _ hd
      · calc den * 100000 = den * 10 ^ k * 10 ^ (5 - k) := by rw [hsplit]; ring
          _ ≤ num * 10 ^ (5 - k) := Nat.mul_le_mul_right _ ha
      · calc num * 10 ^ (5 - k) < den * 10 ^ (k + 1) * 10 ^ (5 - k) :=
            Nat.mul_lt_mul_of_pos_right hb (by positivity)
          _ = den * 1000000 := by rw [hsplit6]; ring
    · rw [if_neg (by simp only [Int.ofNat_eq_coe]; omega)]
      have ht : (Int.ofNat k - 5).toNat = k - 5 := by simp only [Int.ofNat_eq_coe]; omega
      rw [ht]
      have hsplit : (10 : Nat) ^ k = 10 ^ (k - 5) * 100000 := by
        have h5 : (100000 : Nat) = 10 ^ 5 := by norm_num
        have : k = k - 5 + 5 := by omega
        rw [h5, ← pow_add, ← this]
      have hsplit6 : (10 : Nat) ^ (k + 1) = 10 ^ (k - 5) * 1000000 := by
        have h6 : (1000000 : Nat) = 10 ^ 6 := by norm_num
        have : k + 1 = k - 5 + 6 := by omega
        rw [h6, ← pow_add, ← this]
      apply key _ _ (by positivity)
      · calc den * 10 ^ (k - 5) * 100000 = den * 10 ^ k := by rw [hsplit]; ring
          _ ≤ num := ha
      · calc num < den * 10 ^ (k + 1) := hb
          _ = den * 10 ^ (k - 5) * 1000000 := by rw [hsplit6]; ring
  · rw [if_neg hle]
    obtain ⟨h1, ha, hb⟩ := expDown_spec den num den hn (by omega) (by
      calc den ≤ 10 ^ den := le_of_lt (Nat.lt_pow_self (by decide) den)
        _ ≤ num * 10 ^ den := Nat.le_mul_of_pos_left _ hn)
    generalize expDown den num den = k at h1 ha hb ⊢
    rw [if_pos (by simp only [Int.ofNat_eq_coe]; omega)]
    have ht : (5 - -Int.ofNat k).toNat = k + 5 := by simp only [Int.ofNat_eq_coe]; omega
    rw [ht]
    have hsplit : (10 : Nat) ^ (k + 5) = 10 ^ k * 100000 := by
      rw [pow_add]; norm_num
    have hsplit6 : (10 : Nat) ^ (k + 5) = 10 ^ (k - 1) * 1000000 := by
      have h6 : (1000000 : Nat) = 10 ^ 6 := by norm_num
      have : k + 5 = k - 1 + 6 := by omega
      rw [h6, ← pow_add, ← this]
    apply key _ _ hd
    · calc den * 100000 ≤ num * 10 ^ k * 100000 := Nat.mul_le_mul_right _ ha
        _ = num * 10 ^ (k + 5) := by rw [hsplit]; ring
    · calc num * 10 ^ (k + 5) = num * 10 ^ (k - 1) * 1000000 := by rw [hsplit6]; ring
        _ < den * 1000000 := Nat.mul_lt_mul_of_pos_right hb (by decide)

theorem sixDigits_range (num den : Nat) (hn : 0 < num) (hd : 0 < den) :
    100000 ≤ (sixDigits num den).1 ∧ (sixDigits num den).1 < 1000000 := by
  obtain ⟨ha, hb⟩ := significand_range num den hn hd
  unfold sixDigits
  split
  · exact ⟨by simp, by simp⟩
  · rename_i hne
    exact ⟨ha, by omega⟩

/-- The text of a number of six digits. -/
theorem decimalDigits_six (d : Nat) (h1 : 100000 ≤ d) (h2 : d < 1000000) :
    (decimalDigits d).length = 6 ∧ (∀ c ∈ decimalDigits d, 48 ≤ c ∧ c ≤ 57) ∧
      parseDigits (decimalDigits d) 0 = some d := by
  obtain ⟨_, hdig, _, hp⟩ := decimalDigits_spec d
  have hle : (decimalDigits d).length ≤ 6 := decimalDigits_length d 5 (by omega)
  obtain ⟨n, hn, hpn⟩ := parseDigits_some (decimalDigits d) hdig
  have hd : d = n := by
    have := hpn 0
    rw [hp] at this
    simp only [Nat.zero_mul, Nat.zero_add, Option.some.injEq] at this
    exact this
  have hge : 6 ≤ (decimalDigits d).length := by
    by_contra hlt
    have h5 : (decimalDigits d).length ≤ 5 := by omega
    have : (10 : Nat) ^ (decimalDigits d).length ≤ 10 ^ 5 :=
      Nat.pow_le_pow_right (by decide) h5
    omega
  exact ⟨by omega, hdig, hp⟩

/-- Dropping `z` trailing zeros of the digits and adding `z` to the exponent
keeps the magnitude denoted. -/
theorem denotes_shift (M z d : Nat) (E0 : Int) (num den : Nat) (hd : d = M * 10 ^ z)
    (h : DenotesMagnitude d E0 num den) : DenotesMagnitude M (E0 + z) num den := by
  unfold DenotesMagnitude at h ⊢
  by_cases h0 : 0 ≤ E0
  · rw [if_pos h0] at h
    rw [if_pos (by omega)]
    have ht : (E0 + z).toNat = z + E0.toNat := by omega
    rw [ht, pow_add, ← h, hd]
    ring
  · rw [if_neg h0] at h
    by_cases h1 : 0 ≤ E0 + z
    · rw [if_pos h1]
      have ht : z = (E0 + z).toNat + (-E0).toNat := by omega
      have hpos : 0 < 10 ^ (-E0).toNat := by positivity
      apply Nat.eq_of_mul_eq_mul_right hpos
      rw [← h, hd]
      conv_rhs => rw [ht, pow_add]
      ring
    · rw [if_neg h1]
      have ht : (-E0).toNat = (-(E0 + z)).toNat + z := by omega
      have hpos : 0 < 10 ^ z := by positivity
      apply Nat.eq_of_mul_eq_mul_right hpos
      calc M * den * 10 ^ z = M * 10 ^ z * den := by ring
        _ = num * 10 ^ (-E0).toNat := by rw [← hd]; exact h
        _ = num * 10 ^ (-(E0 + z)).toNat * 10 ^ z := by rw [ht, pow_add]; ring

/-- The reading of a text with or without a leading `'-'`. -/
theorem parseFloat_signed (negative : Bool) (text : List char) (r : Nat × Int)
    (h45 : text.head? ≠ some 45) (hne : text ≠ []) (h : parseUnsigned text = some r) :
    parseFloat ((if negative then [45] else []) ++ text) = some (negative, r.1, r.2) := by
  cases negative with
  | true =>
    simp only [if_true, List.singleton_append, parseFloat, h, Option.map_some']
  | false =>
    obtain ⟨c, rest, hc⟩ : ∃ c rest, text = c :: rest := by
      cases text with
      | nil => exact absurd rfl hne
      | cons c rest => exact ⟨c, rest, rfl⟩
    subst hc
    have hc45 : ¬ (c = 45) := by
      intro h0
      apply h45
      rw [h0]
      rfl
    simp only [Bool.false_eq_true, if_false, List.nil_append, parseFloat, if_neg hc45, h,
      Option.map_some']

theorem mem_take_or_drop {α : Type} (l : List α) (n : Nat) :
    (∀ c ∈ l.take n, c ∈ l) ∧ (∀ c ∈ l.drop n, c ∈ l) :=
  ⟨fun _ hc => List.mem_of_mem_take hc, fun _ hc => List.mem_of_mem_drop hc⟩

/-- The `%g` text of six digits `d` and exponent `X` reads back as the digits of
`d` without `z` trailing zeros, times `10^(X - 5 + z)`. -/
theorem parseUnsigned_renderG (d : Nat) (X : Int) (h1 : 100000 ≤ d) (h2 : d < 1000000) :
    ∃ M z : Nat, parseUnsigned (renderG d X) = some (M, X - 5 + z) ∧ d = M * 10 ^ z := by
  obtain ⟨hlen, hdig, hp⟩ := decimalDigits_six d h1 h2
  have htd : ∀ n, parseDigits ((decimalDigits d).take n ++ (decimalDigits d).drop n) 0 = some d := by
    intro n
    rw [List.take_append_drop]
    exact hp
  unfold renderG
  by_cases hE : X < -4 ∨ 6 ≤ X
  · rw [if_pos hE]
    obtain ⟨M, z, hpf, hd, hz⟩ := parseUnsigned_parts ((decimalDigits d).take 1)
      ((decimalDigits d).drop 1) (exponentText X) X d
      (fun c hc => hdig c ((mem_take_or_drop _ 1).1 c hc))
      (by
        intro hnil
        have := congrArg List.length hnil
        rw [List.length_take, hlen] at this
        simp at this)
      (fun c hc => hdig c ((mem_take_or_drop _ 1).2 c hc)) (Or.inr rfl) (htd 1)
    rw [List.length_drop, hlen] at hpf hz
    refine ⟨M, z, ?_, hd⟩
    rw [hpf]
    congr 2
    simp only [Int.ofNat_eq_coe]
    omega
  · rw [if_neg hE]
    by_cases h0 : 0 ≤ X
    · rw [if_pos h0]
      obtain ⟨M, z, hpf, hd, hz⟩ := parseUnsigned_parts ((decimalDigits d).take (X.toNat + 1))
        ((decimalDigits d).drop (X.toNat + 1)) [] 0 d
        (fun c hc => hdig c ((mem_take_or_drop _ _).1 c hc))
        (by
          intro hnil
          have := congrArg List.length hnil
          rw [List.length_take, hlen] at this
          simp at this)
        (fun c hc => hdig c ((mem_take_or_drop _ _).2 c hc)) (Or.inl ⟨rfl, rfl⟩) (htd _)
      rw [List.length_drop, hlen, List.append_nil] at hpf
      rw [List.length_drop, hlen] at hz
      refine ⟨M, z, ?_, hd⟩
      rw [hpf]
      congr 2
      simp only [Int.ofNat_eq_coe]
      omega
    · rw [if_neg h0]
      have hzeros : ∀ c ∈ List.replicate (-X - 1).toNat (48 : char) ++ decimalDigits d,
          48 ≤ c ∧ c ≤ 57 := by
        intro c hc
        rcases List.mem_append.mp hc with h | h
        · rw [List.eq_of_mem_replicate h]
          decide
        · exact hdig c h
      have hval : parseDigits ([48] ++ (List.replicate (-X - 1).toNat (48 : char)
          ++ decimalDigits d)) 0 = some d := by
        rw [List.singleton_append, parseDigits_leading_zero, parseDigits_append,
          parseDigits_zeros, Option.some_bind, Nat.zero_mul]
        exact hp
      obtain ⟨M, z, hpf, hd, hz⟩ := parseUnsigned_parts [48]
        (List.replicate (-X - 1).toNat (48 : char) ++ decimalDigits d) [] 0 d
        (by intro c hc; rw [List.mem_singleton] at hc; rw [hc]; decide) (by simp) hzeros
        (Or.inl ⟨rfl, rfl⟩) hval
      rw [List.length_append, List.length_replicate, hlen, List.append_nil,
        List.singleton_append] at hpf
      rw [List.length_append, List.length_replicate, hlen] at hz
      refine ⟨M, z, ?_, hd⟩
      rw [hpf]
      congr 2
      simp only [Int.ofNat_eq_coe]
      omega

/-! ## Shape of the `%g` text -/

theorem stripZeros_length_le (R : List char) : (stripZeros R).length ≤ R.length := by
  obtain ⟨z, hz⟩ := stripZeros_spec R
  conv_rhs => rw [hz]
  rw [List.length_append]
  omega

theorem fractionText_spec (R : List char) :
    (∀ c ∈ fractionText R, c = 46 ∨ c ∈ R) ∧ (fractionText R).length ≤ R.length + 1 := by
  have hl := stripZeros_length_le R
  unfold fractionText
  split
  · exact ⟨fun c hc => (by cases hc), by simp⟩
  · constructor
    · intro c hc
      rcases List.mem_cons.mp hc with h | h
      · exact Or.inl h
      · exact Or.inr (stripZeros_subset R c h)
    · rw [List.length_cons]
      omega

theorem exponentText_spec (X : Int) (hX : X.natAbs < 10000) :
    (∀ c ∈ exponentText X, 43 ≤ c) ∧ (exponentText X).length ≤ 6 := by
  obtain ⟨_, hdig, _, _⟩ := decimalDigits_spec X.natAbs
  have hlen := decimalDigits_length X.natAbs 3 (by omega)
  have hlen1 : X.natAbs < 10 → (decimalDigits X.natAbs).length ≤ 1 := fun h =>
    decimalDigits_length X.natAbs 0 (by omega)
  unfold exponentText
  constructor
  · intro c hc
    simp only [List.cons_append, List.nil_append, List.mem_cons] at hc
    rcases hc with h | h | h
    · rw [h]; decide
    · rw [h]; by_cases hx : X < 0 <;> simp [hx]
    · have h48 : 48 ≤ c := by
        split at h
        · rcases List.mem_cons.mp h with h | h
          · exact le_of_eq h.symm
          · exact (hdig c h).1
        · exact (hdig c h).1
      simp only [char] at h48 ⊢
      omega
  · simp only [List.cons_append, List.nil_append, List.length_cons]
    split
    · rename_i h10
      have := hlen1 h10
      simp only [List.length_cons]
      omega
    · omega

/-- The `%g` text of six digits: characters from `'+'` on, a digit first, and
at most 13 characters. -/
theorem renderG_spec (d : Nat) (X : Int) (h1 : 100000 ≤ d) (h2 : d < 1000000)
    (hX : X.natAbs < 10000) :
    (∀ c ∈ renderG d X, 43 ≤ c) ∧ (renderG d X).length ≤ 13 ∧
      (renderG d X).head? ≠ some 45 ∧ renderG d X ≠ [] := by
  obtain ⟨hlen, hdig, _⟩ := decimalDigits_six d h1 h2
  obtain ⟨c0, cs, hcs⟩ : ∃ c0 cs, decimalDigits d = c0 :: cs := by
    cases h : decimalDigits d with
    | nil => rw [h] at hlen; cases hlen
    | cons c0 cs => exact ⟨c0, cs, rfl⟩
  have hc0 : 48 ≤ c0 ∧ c0 ≤ 57 := hdig c0 (by rw [hcs]; exact List.mem_cons_self _ _)
  have hdig43 : ∀ c ∈ decimalDigits d, 43 ≤ c := by
    intro c hc
    have := hdig c hc
    simp only [char] at this ⊢
    omega
  have hfrac : ∀ R : List char, (∀ c ∈ R, 43 ≤ c) → ∀ c ∈ fractionText R, 43 ≤ c := by
    intro R hR c hc
    rcases (fractionText_spec R).1 c hc with h | h
    · rw [h]; decide
    · exact hR c h
  have hhead : ∀ (n : Nat) (rest : List char), ((decimalDigits d).take (n + 1) ++ rest).head?
      = some c0 := by
    intro n rest
    rw [hcs]
    rfl
  have hc45 : some c0 ≠ some (45 : char) := by
    intro h
    have := Option.some.inj h
    simp only [char] at hc0 this
    omega
  unfold renderG
  by_cases hE : X < -4 ∨ 6 ≤ X
  · rw [if_pos hE]
    obtain ⟨he1, he2⟩ := exponentText_spec X hX
    refine ⟨?_, ?_, ?_, ?_⟩
    · intro c hc
      rcases List.mem_append.mp hc with h | h
      · rcases List.mem_append.mp h with h | h
        · exact hdig43 c (List.mem_of_mem_take h)
        · exact hfrac _ (fun x hx => hdig43 x (List.mem_of_mem_drop hx)) c h
      · exact he1 c h
    · have := (fractionText_spec ((decimalDigits d).drop 1)).2
      rw [List.length_drop, hlen] at this
      rw [List.length_append, List.length_append, List.length_take, hlen]
      omega
    · rw [List.append_assoc, hhead 0]
      exact hc45
    · intro hnil
      have := congrArg List.head? hnil
      rw [List.append_assoc, hhead 0] at this
      cases this
  · rw [if_neg hE]
    by_cases h0 : 0 ≤ X
    · rw [if_pos h0]
      refine ⟨?_, ?_, ?_, ?_⟩
      · intro c hc
        rcases List.mem_append.mp hc with h | h
        · exact hdig43 c (List.mem_of_mem_take h)
        · exact hfrac _ (fun x hx => hdig43 x (List.mem_of_mem_drop hx)) c h
      · have := (fractionText_spec ((decimalDigits d).drop (X.toNat + 1))).2
        rw [List.length_drop, hlen] at this
        rw [List.length_append, List.length_take, hlen]
        omega
      · rw [hhead]
        exact hc45
      · intro hnil
        have := congrArg List.head? hnil
        rw [hhead] at this
        cases this
    · rw [if_neg h0]
      refine ⟨?_, ?_, by simp, by simp⟩
      · intro c hc
        rcases List.mem_cons.mp hc with h | h
        · rw [h]; decide
        · refine hfrac _ ?_ c h
          intro x hx
          rcases List.mem_append.mp hx with h | h
          · rw [List.eq_of_mem_replicate h]; decide
          · exact hdig43 x h
      · have := (fractionText_spec
          (List.replicate (-X - 1).toNat (48 : char) ++ decimalDigits d)).2
        rw [List.length_append, List.length_replicate, hlen] at this
        rw [List.length_cons]
        omega

theorem pow_two_lt_pow_ten (e k : Nat) (he : e ≠ 0) (h : e ≤ k) : 2 ^ e < 10 ^ k :=
  lt_of_lt_of_le (Nat.pow_lt_pow_left (by decide) he) (Nat.pow_le_pow_right (by decide) h)

/-- The decimal exponent of a magnitude between `2^-1074` and `2^1024`. -/
theorem sixDigits_exponent (num den : Nat) (hn : 0 < num) (hd : 0 < den)
    (hhi : num < 2 ^ 1024 * den) (hlo : den ≤ 2 ^ 1074 * num) :
    ((sixDigits num den).2).natAbs < 10000 := by
  have hX : -1074 ≤ decimalExponent num den ∧ decimalExponent num den < 1024 := by
    unfold decimalExponent
    by_cases hle : den ≤ num
    · rw [if_pos hle]
      obtain ⟨ha, _⟩ := expUp_spec num num den hd hle (by
        calc num < 10 ^ num := Nat.lt_pow_self (by decide) num
          _ ≤ den * 10 ^ num := Nat.le_mul_of_pos_left _ hd)
      generalize expUp num num den = k at ha
      have hk : k < 1024 := by
        by_contra hge
        have hk0 : 1024 ≤ k := Nat.le_of_not_lt hge
        have h3 : den * 2 ^ 1024 < den * 10 ^ k :=
          Nat.mul_lt_mul_of_pos_left (pow_two_lt_pow_ten 1024 k (by decide) hk0) hd
        have h4 : 2 ^ 1024 * den = den * 2 ^ 1024 := Nat.mul_comm _ _
        generalize (2 : Nat) ^ 1024 = P at hhi h3 h4
        generalize (10 : Nat) ^ k = Q at ha h3
        omega
      simp only [Int.ofNat_eq_coe]
      omega
    · rw [if_neg hle]
      obtain ⟨h1, _, hb⟩ := expDown_spec den num den hn (by omega) (by
        calc den ≤ 10 ^ den := le_of_lt (Nat.lt_pow_self (by decide) den)
          _ ≤ num * 10 ^ den := Nat.le_mul_of_pos_left _ hn)
      generalize expDown den num den = k at h1 hb
      have hk : k - 1 < 1074 := by
        by_contra hge
        have hk0 : 1074 ≤ k - 1 := Nat.le_of_not_lt hge
        have h4 : num * 2 ^ 1074 < num * 10 ^ (k - 1) :=
          Nat.mul_lt_mul_of_pos_left (pow_two_lt_pow_ten 1074 (k - 1) (by decide) hk0) hn
        have h5 : 2 ^ 1074 * num = num * 2 ^ 1074 := Nat.mul_comm _ _
        generalize (2 : Nat) ^ 1074 = P at hlo h4 h5
        generalize (10 : Nat) ^ (k - 1) = Q at hb h4
        omega
      simp only [Int.ofNat_eq_coe]
      omega
  unfold sixDigits
  split
  · simp only
    omega
  · simp only
    omega

/-! ## The range of the finite values -/

theorem inRange_subnormal (hi lo m p q : Nat) (hm : m < 2 ^ p) (hp : p ≤ hi) (hq : q ≤ lo) :
    InRange hi lo (.finite m (2 ^ q)) := by
  intro num den h
  cases h
  have h2q : 0 < 2 ^ q := by positivity
  refine ⟨h2q, ?_, ?_⟩
  · exact lt_of_lt_of_le hm
      (le_trans (Nat.pow_le_pow_right (by decide) hp) (Nat.le_mul_of_pos_right _ h2q))
  · intro hpos
    exact le_trans (Nat.pow_le_pow_right (by decide) hq) (Nat.le_mul_of_pos_right _ hpos)

theorem inRange_large (hi lo n p j : Nat) (hn : n < 2 ^ p) (hj : p + j ≤ hi) :
    InRange hi lo (.finite (n * 2 ^ j) 1) := by
  intro num den h
  cases h
  refine ⟨by decide, ?_, ?_⟩
  · rw [Nat.mul_one]
    have h1 : n * 2 ^ j < 2 ^ (p + j) := by
      rw [pow_add]
      exact Nat.mul_lt_mul_of_pos_right hn (by positivity)
    exact lt_of_lt_of_le h1 (Nat.pow_le_pow_right (by decide) hj)
  · intro hpos
    exact le_trans Nat.one_le_two_pow (Nat.le_mul_of_pos_right _ hpos)

theorem double_class_inRange (bits : Nat) : InDoubleRange (double_class bits) := by
  have hm : bits % 4503599627370496 < 2 ^ 52 := Nat.mod_lt _ (by decide)
  have h52 : (4503599627370496 : Nat) = 2 ^ 52 := by norm_num
  have he : bits / 4503599627370496 % 2048 < 2048 := Nat.mod_lt _ (by decide)
  unfold double_class
  unfold InDoubleRange
  simp only
  generalize bits / 4503599627370496 % 2048 = e at he ⊢
  generalize bits % 4503599627370496 = m at hm ⊢
  by_cases h1 : e = 2047
  · rw [if_pos h1]
    split <;> (intro num den h; cases h)
  · rw [if_neg h1]
    by_cases h2 : e = 0
    · rw [if_pos h2]
      exact inRange_subnormal 1024 1074 _ 52 1074 hm (by decide) (le_refl _)
    · rw [if_neg h2]
      have hm2 : 4503599627370496 + m < 2 ^ 53 := by rw [h52]; omega
      by_cases h3 : 1075 ≤ e
      · rw [if_pos h3]
        exact inRange_large 1024 1074 _ 53 _ hm2 (by omega)
      · rw [if_neg h3]
        exact inRange_subnormal 1024 1074 _ 53 _ hm2 (by decide) (by omega)

theorem float_class_inRange (bits : Nat) : InDoubleRange (float_class bits) := by
  have hm : bits % 8388608 < 2 ^ 23 := Nat.mod_lt _ (by decide)
  have h23 : (8388608 : Nat) = 2 ^ 23 := by norm_num
  have he : bits / 8388608 % 256 < 256 := Nat.mod_lt _ (by decide)
  unfold float_class
  unfold InDoubleRange
  simp only
  generalize bits / 8388608 % 256 = e at he ⊢
  generalize bits % 8388608 = m at hm ⊢
  by_cases h1 : e = 255
  · rw [if_pos h1]
    split <;> (intro num den h; cases h)
  · rw [if_neg h1]
    by_cases h2 : e = 0
    · rw [if_pos h2]
      exact inRange_subnormal 1024 1074 _ 23 149 hm (by decide) (by decide)
    · rw [if_neg h2]
      have hm2 : 8388608 + m < 2 ^ 24 := by rw [h23]; omega
      by_cases h3 : 150 ≤ e
      · rw [if_pos h3]
        exact inRange_large 1024 1074 _ 24 _ hm2 (by omega)
      · rw [if_neg h3]
        exact inRange_subnormal 1024 1074 _ 24 _ hm2 (by decide) (by omega)

/-- The `%g` text of a value in the range of a `double`: no zero byte, at most
14 characters. -/
theorem format_g_spec (negative : Bool) (c : FpClass) (hc : InDoubleRange c) :
    (∀ ch ∈ format_g negative c, ch ≠ 0) ∧ (format_g negative c).length ≤ 14 := by
  have hsign : (∀ ch ∈ (if negative then [(45 : char)] else []), 43 ≤ ch) ∧
      (if negative then [(45 : char)] else []).length ≤ 1 := by
    cases negative <;> simp
  have hbody : ∀ body : List char, (∀ ch ∈ body, 43 ≤ ch) → body.length ≤ 13 →
      (∀ ch ∈ (if negative then [(45 : char)] else []) ++ body, ch ≠ 0) ∧
        ((if negative then [(45 : char)] else []) ++ body).length ≤ 14 := by
    intro body h1 h2
    constructor
    · intro ch hch
      have h43 : 43 ≤ ch := by
        rcases List.mem_append.mp hch with h | h
        · exact hsign.1 ch h
        · exact h1 ch h
      simp only [char] at h43 ⊢
      omega
    · rw [List.length_append]
      have := hsign.2
      omega
  unfold format_g
  cases c with
  | nan => exact hbody _ (by decide) (by decide)
  | inf => exact hbody _ (by decide) (by decide)
  | finite num den =>
    obtain ⟨hd, hhi, hlo⟩ := hc num den rfl
    simp only
    by_cases h0 : num = 0
    · rw [if_pos h0]
      exact hbody _ (by decide) (by decide)
    · rw [if_neg h0]
      have hn : 0 < num := Nat.pos_of_ne_zero h0
      obtain ⟨h1, h2⟩ := sixDigits_range num den hn hd
      obtain ⟨ha, hb, _, _⟩ := renderG_spec _ _ h1 h2 (sixDigits_exponent num den hn hd hhi (hlo hn))
      exact hbody _ ha hb

/-- A floating-point conversion returns the string of its `%g` text. -/
theorem to_string_format_g (negative : Bool) (c : FpClass) (hc : InDoubleRange c) :
    __builtin_create_string (snprintf 64 (format_g negative c))
      = some (MoonBitStr.ofBytes (format_g negative c)) := by
  obtain ⟨h0, hlen⟩ := format_g_spec negative c hc
  exact create_string_snprintf 64 _ h0 (by omega) (by decide)

/-! ## Floating-point conversions (C17) -/

/-- The denominator of a decimal fraction is positive. -/
theorem decimalFraction_pos (M : Nat) (E : Int) : 0 < (decimalFraction M E).2 := by
  unfold decimalFraction
  split
  · exact Nat.one_pos
  · exact Nat.pow_pos (by decide)

/-- A decimal number is a magnitude exactly when its fraction is. -/
theorem denotes_iff_fraction (M : Nat) (E : Int) (num den : Nat) :
    DenotesMagnitude M E num den ↔
      (decimalFraction M E).1 * den = num * (decimalFraction M E).2 := by
  unfold DenotesMagnitude decimalFraction
  split
  · simp only [mul_one]
  · rfl

/-- Trailing zeros moved into the exponent leave the fraction unchanged. -/
theorem decimalFraction_shift (M z d : Nat) (E0 : Int) (hd : d = M * 10 ^ z) :
    (decimalFraction d E0).1 * (decimalFraction M (E0 + z)).2
      = (decimalFraction M (E0 + z)).1 * (decimalFraction d E0).2 := by
  have h0 : DenotesMagnitude d E0 (decimalFraction d E0).1 (decimalFraction d E0).2 :=
    (denotes_iff_fraction d E0 _ _).mpr rfl
  exact ((denotes_iff_fraction M (E0 + z) _ _).mp (denotes_shift M z d E0 _ _ hd h0)).symm

/-- A comparison with twice a fraction does not depend on how the fraction is
written. -/
theorem cross_le (L D a b a1 b1 : Nat) (hb : 0 < b) (hb1 : 0 < b1) (h : a * b1 = a1 * b) :
    (L * b ≤ 2 * a * D ↔ L * b1 ≤ 2 * a1 * D) ∧ (L * b < 2 * a * D ↔ L * b1 < 2 * a1 * D) ∧
    (2 * a * D ≤ L * b ↔ 2 * a1 * D ≤ L * b1) ∧ (2 * a * D < L * b ↔ 2 * a1 * D < L * b1) := by
  have e1 : L * b * b1 = L * b1 * b := by ring
  have e2 : 2 * a * D * b1 = 2 * a1 * D * b := by
    calc 2 * a * D * b1 = 2 * D * (a * b1) := by ring
      _ = 2 * D * (a1 * b) := by rw [h]
      _ = 2 * a1 * D * b := by ring
  refine ⟨?_, ?_, ?_, ?_⟩
  · rw [← mul_le_mul_right hb1, e1, e2, mul_le_mul_right hb]
  · rw [← Nat.mul_lt_mul_right hb1, e1, e2, Nat.mul_lt_mul_right hb]
  · rw [← mul_le_mul_right hb1, e1, e2, mul_le_mul_right hb]
  · rw [← Nat.mul_lt_mul_right hb1, e1, e2, Nat.mul_lt_mul_right hb]

/-- Correct rounding does not depend on how the fraction is written. -/
theorem roundsTo_congr (cls : Nat → FpClass) (top k a b a1 b1 : Nat) (hb : 0 < b)
    (hb1 : 0 < b1) (h : a * b1 = a1 * b) :
    RoundsTo cls top k a b ↔ RoundsTo cls top k a1 b1 := by
  unfold RoundsTo AboveMidpoint BelowMidpoint
  obtain ⟨c1, c2, _, _⟩ := cross_le
    ((gridPoint cls top (k - 1)).1 * (gridPoint cls top k).2
      + (gridPoint cls top k).1 * (gridPoint cls top (k - 1)).2)
    ((gridPoint cls top (k - 1)).2 * (gridPoint cls top k).2) a b a1 b1 hb hb1 h
  obtain ⟨_, _, c3, c4⟩ := cross_le
    ((gridPoint cls top k).1 * (gridPoint cls top (k + 1)).2
      + (gridPoint cls top (k + 1)).1 * (gridPoint cls top k).2)
    ((gridPoint cls top k).2 * (gridPoint cls top (k + 1)).2) a b a1 b1 hb hb1 h
  cases decide (k % 2 = 0) with
  | true => simp only [if_true, c1, c3]
  | false => simp only [Bool.false_eq_true, if_false, c2, c4]

/-- The `%g` text of a finite value other than zero reads as its sign and its six
digits without `z` trailing zeros, times the matching power of ten. -/
theorem parseFloat_format_g (negative : Bool) (num den : Nat)
    (hc : InDoubleRange (.finite num den)) (h0 : num ≠ 0) :
    ∃ M z : Nat, parseFloat (format_g negative (.finite num den))
        = some (negative, M, (sixDigits num den).2 - 5 + z) ∧
      (sixDigits num den).1 = M * 10 ^ z := by
  obtain ⟨hd, hhi, hlo⟩ := hc num den rfl
  have hn : 0 < num := Nat.pos_of_ne_zero h0
  obtain ⟨h1, h2⟩ := sixDigits_range num den hn hd
  obtain ⟨_, _, h45, hne⟩ :=
    renderG_spec _ _ h1 h2 (sixDigits_exponent num den hn hd hhi (hlo hn))
  obtain ⟨M, z, hpu, hdz⟩ := parseUnsigned_renderG _ (sixDigits num den).2 h1 h2
  refine ⟨M, z, ?_, hdz⟩
  unfold format_g
  simp only
  rw [if_neg h0]
  exact parseFloat_signed negative _ _ h45 hne hpu

/-- The `%g` text of zero reads as zero with its sign. -/
theorem parseFloat_format_g_zero (negative : Bool) (den : Nat) :
    parseFloat (format_g negative (.finite 0 den)) = some (negative, 0, 0) := by
  unfold format_g
  simp only [if_true]
  exact parseFloat_signed negative [48] (0, 0) (by decide) (by decide) (by decide)

/-- Reading the `%g` text of a finite value gives the magnitude with fields `k`
exactly when the six-digit rounding of the value rounds to that magnitude. -/
theorem roundsTo_format_g (cls : Nat → FpClass) (top k : Nat) (negative : Bool) (num den : Nat)
    (hc : InDoubleRange (.finite num den)) (hzero : num = 0 → RoundsTo cls top k 0 1) :
    ∃ M E, parseFloat (format_g negative (.finite num den)) = some (negative, M, E) ∧
      (RoundsTo cls top k (decimalFraction M E).1 (decimalFraction M E).2
        ↔ SixDigitsRoundBack cls top k num den) := by
  by_cases h0 : num = 0
  · subst h0
    refine ⟨0, 0, parseFloat_format_g_zero negative den, ?_⟩
    have hf : decimalFraction 0 0 = (0, 1) := by decide
    rw [hf]
    exact ⟨fun _ => Or.inl rfl, fun _ => hzero rfl⟩
  · obtain ⟨M, z, hp, hdz⟩ := parseFloat_format_g negative num den hc h0
    refine ⟨M, _, hp, ?_⟩
    have hcongr := roundsTo_congr cls top k _ _ _ _
      (decimalFraction_pos (sixDigits num den).1 ((sixDigits num den).2 - 5))
      (decimalFraction_pos M ((sixDigits num den).2 - 5 + z))
      (decimalFraction_shift M z _ ((sixDigits num den).2 - 5) hdz)
    unfold SixDigitsRoundBack
    rw [hcongr]
    exact ⟨fun h => Or.inr h, fun h => h.resolve_left h0⟩

/-- The units of a magnitude written with its exponent field `e` and fraction
field `m`, in the three shapes the decoding gives. -/
theorem units_link (P s e m : Nat) :
    (s + 1 ≤ e → (P + m) * 2 ^ (e - (s + 1)) * 2 ^ s = (P + m) * 2 ^ (e - 1) * 1) ∧
    (1 ≤ e → e ≤ s → (P + m) * 2 ^ s = (P + m) * 2 ^ (e - 1) * 2 ^ (s + 1 - e)) := by
  constructor
  · intro h
    have : e - 1 = (e - (s + 1)) + s := by omega
    rw [this, pow_add]
    ring
  · intro h1 h2
    have : s = (e - 1) + (s + 1 - e) := by omega
    nth_rewrite 1 [this]
    rw [pow_add]
    ring

/-- Consecutive fields are consecutive magnitudes: the units grow. -/
theorem ordinalValue_lt (P k : Nat) (hP : 0 < P) :
    ordinalValue P k < ordinalValue P (k + 1) := by
  have hm : k % P < P := Nat.mod_lt _ hP
  have hk : P * (k / P) + k % P = k := Nat.div_add_mod k P
  by_cases hnext : k % P + 1 < P
  · have hdm : (k + 1) / P = k / P ∧ (k + 1) % P = k % P + 1 :=
      (Nat.div_mod_unique hP).mpr ⟨by omega, hnext⟩
    unfold ordinalValue
    rw [hdm.1, hdm.2]
    by_cases he : k / P = 0
    · rw [if_pos he, if_pos he]
      omega
    · rw [if_neg he, if_neg he]
      exact Nat.mul_lt_mul_of_pos_right (by omega) (Nat.pow_pos (by decide))
  · have hdm : (k + 1) / P = k / P + 1 ∧ (k + 1) % P = 0 :=
      (Nat.div_mod_unique hP).mpr ⟨by rw [Nat.mul_add, Nat.mul_one]; omega, hP⟩
    have hV1 : ordinalValue P (k + 1) = P * 2 ^ (k / P) := by
      unfold ordinalValue
      rw [hdm.1, hdm.2, if_neg (Nat.succ_ne_zero _), Nat.add_sub_cancel, Nat.add_zero]
    rw [hV1]
    unfold ordinalValue
    by_cases he : k / P = 0
    · rw [if_pos he, he, pow_zero]
      omega
    · rw [if_neg he]
      obtain ⟨j, hj⟩ := Nat.exists_eq_succ_of_ne_zero he
      rw [hj, Nat.succ_sub_one, pow_succ]
      have hpos : 0 < 2 ^ j := Nat.pow_pos (by decide)
      calc (P + k % P) * 2 ^ j < (P + P) * 2 ^ j :=
            Nat.mul_lt_mul_of_pos_right (by omega) hpos
        _ = P * (2 ^ j * 2) := by ring

/-- Fractions compare as their units do. -/
theorem frac_lt_of_units (S a b c d Va Vc : Nat) (hb : 0 < b) (hd : 0 < d)
    (ha : a * S = Va * b) (hc : c * S = Vc * d) (hlt : Va < Vc) : a * d < c * b := by
  have h1 : a * d * S = Va * (b * d) := by
    calc a * d * S = a * S * d := by ring
      _ = Va * b * d := by rw [ha]
      _ = Va * (b * d) := by ring
  have h2 : c * b * S = Vc * (b * d) := by
    calc c * b * S = c * S * b := by ring
      _ = Vc * d * b := by rw [hc]
      _ = Vc * (b * d) := by ring
  have h3 : a * d * S < c * b * S := by
    rw [h1, h2]
    exact Nat.mul_lt_mul_of_pos_right hlt (Nat.mul_pos hb hd)
  exact Nat.lt_of_mul_lt_mul_right h3

/-- A magnitude lies above its midpoint with a smaller one. -/
theorem above_midpoint (tie : Bool) (lo v : Nat × Nat) (hv : 0 < v.2)
    (h1 : lo.1 * v.2 < v.1 * lo.2) : AboveMidpoint tie lo v v.1 v.2 := by
  have ha : (lo.1 * v.2 + v.1 * lo.2) * v.2 < 2 * v.1 * (lo.2 * v.2) := by
    calc (lo.1 * v.2 + v.1 * lo.2) * v.2 < (v.1 * lo.2 + v.1 * lo.2) * v.2 :=
          Nat.mul_lt_mul_of_pos_right (by omega) hv
      _ = 2 * v.1 * (lo.2 * v.2) := by ring
  unfold AboveMidpoint
  cases tie with
  | true => rw [if_pos rfl]; exact le_of_lt ha
  | false => simpa using ha

/-- A magnitude lies below its midpoint with a larger one. -/
theorem below_midpoint (tie : Bool) (v hi : Nat × Nat) (hv : 0 < v.2)
    (h2 : v.1 * hi.2 < hi.1 * v.2) : BelowMidpoint tie v hi v.1 v.2 := by
  have hb : 2 * v.1 * (v.2 * hi.2) < (v.1 * hi.2 + hi.1 * v.2) * v.2 := by
    calc 2 * v.1 * (v.2 * hi.2) = (v.1 * hi.2 + v.1 * hi.2) * v.2 := by ring
      _ < (v.1 * hi.2 + hi.1 * v.2) * v.2 := Nat.mul_lt_mul_of_pos_right (by omega) hv
  unfold BelowMidpoint
  cases tie with
  | true => rw [if_pos rfl]; exact le_of_lt hb
  | false => simpa using hb

/-- A finite magnitude is the one nearest to itself, once the grid of the format
is known to grow in units `2^-s`. -/
theorem roundsTo_self (cls : Nat → FpClass) (top s P k : Nat) (hP : 0 < P)
    (hfin : (cls k).isFinite = true)
    (hgrid : ∀ j, j ≤ k + 1 → 0 < (gridPoint cls top j).2 ∧
      (gridPoint cls top j).1 * 2 ^ s = ordinalValue P j * (gridPoint cls top j).2) :
    RoundsTo cls top k (gridPoint cls top k).1 (gridPoint cls top k).2 := by
  obtain ⟨hk0, hk1⟩ := hgrid k (by omega)
  obtain ⟨hn0, hn1⟩ := hgrid (k + 1) (by omega)
  have hup : (gridPoint cls top k).1 * (gridPoint cls top (k + 1)).2
      < (gridPoint cls top (k + 1)).1 * (gridPoint cls top k).2 :=
    frac_lt_of_units _ _ _ _ _ _ _ hk0 hn0 hk1 hn1 (ordinalValue_lt P k hP)
  by_cases hz : k = 0
  · exact ⟨hfin, Or.inl hz, below_midpoint _ _ _ hk0 hup⟩
  · obtain ⟨hp0, hp1⟩ := hgrid (k - 1) (by omega)
    have hlt := ordinalValue_lt P (k - 1) hP
    rw [Nat.sub_add_cancel (by omega)] at hlt
    have hdown : (gridPoint cls top (k - 1)).1 * (gridPoint cls top k).2
        < (gridPoint cls top k).1 * (gridPoint cls top (k - 1)).2 :=
      frac_lt_of_units _ _ _ _ _ _ _ hp0 hk0 hp1 hk1 hlt
    exact ⟨hfin, Or.inr (above_midpoint _ _ _ hk0 hdown), below_midpoint _ _ _ hk0 hup⟩

/-- The grid of the `double` format in units of `2^-1074`, up to the fields of
infinity, which stand for `2^1024`. -/
theorem double_grid (j : Nat) (hj : j ≤ 2047 * 4503599627370496) :
    0 < (gridPoint double_class 1024 j).2 ∧
      (gridPoint double_class 1024 j).1 * 2 ^ 1074
        = ordinalValue 4503599627370496 j * (gridPoint double_class 1024 j).2 := by
  have he : j / 4503599627370496 % 2048 = j / 4503599627370496 := by omega
  have hP : (4503599627370496 : Nat) = 2 ^ 52 := by norm_num
  unfold gridPoint double_class ordinalValue
  simp only [he]
  by_cases h1 : j / 4503599627370496 = 2047
  · have hm : j % 4503599627370496 = 0 := by omega
    rw [if_pos h1, if_pos hm, if_neg (by omega), h1, hm]
    refine ⟨Nat.one_pos, ?_⟩
    rw [hP, Nat.add_zero, Nat.mul_one, ← pow_add, ← pow_add]
  · rw [if_neg h1]
    by_cases h2 : j / 4503599627370496 = 0
    · rw [if_pos h2, if_pos h2]
      dsimp only
      exact ⟨pow_pos Nat.zero_lt_two _, rfl⟩
    · rw [if_neg h2, if_neg h2]
      by_cases h3 : 1075 ≤ j / 4503599627370496
      · rw [if_pos h3]
        exact ⟨Nat.one_pos, (units_link _ 1074 _ _).1 h3⟩
      · rw [if_neg h3]
        exact ⟨pow_pos Nat.zero_lt_two _, (units_link _ 1074 _ _).2 (by omega) (by omega)⟩

/-- The grid of the `float` format in units of `2^-149`, up to the fields of
infinity, which stand for `2^128`. -/
theorem float_grid (j : Nat) (hj : j ≤ 255 * 8388608) :
    0 < (gridPoint float_class 128 j).2 ∧
      (gridPoint float_class 128 j).1 * 2 ^ 149
        = ordinalValue 8388608 j * (gridPoint float_class 128 j).2 := by
  have he : j / 8388608 % 256 = j / 8388608 := by omega
  have hP : (8388608 : Nat) = 2 ^ 23 := by norm_num
  unfold gridPoint float_class ordinalValue
  simp only [he]
  by_cases h1 : j / 8388608 = 255
  · have hm : j % 8388608 = 0 := by omega
    rw [if_pos h1, if_pos hm, if_neg (by omega), h1, hm]
    refine ⟨Nat.one_pos, ?_⟩
    rw [hP, Nat.add_zero, Nat.mul_one, ← pow_add, ← pow_add]
  · rw [if_neg h1]
    by_cases h2 : j / 8388608 = 0
    · rw [if_pos h2, if_pos h2]
      dsimp only
      exact ⟨pow_pos Nat.zero_lt_two _, rfl⟩
    · rw [if_neg h2, if_neg h2]
      by_cases h3 : 150 ≤ j / 8388608
      · rw [if_pos h3]
        exact ⟨Nat.one_pos, (units_link _ 149 _ _).1 h3⟩
      · rw [if_neg h3]
        exact ⟨pow_pos Nat.zero_lt_two _, (units_link _ 149 _ _).2 (by omega) (by omega)⟩

/-- The class of a `double` does not depend on its sign bit. -/
theorem double_class_low (bits : Nat) :
    double_class (bits % 9223372036854775808) = double_class bits := by
  have h1 : bits % 9223372036854775808 / 4503599627370496 % 2048
      = bits / 4503599627370496 % 2048 := by omega
  have h2 : bits % 9223372036854775808 % 4503599627370496 = bits % 4503599627370496 := by omega
  unfold double_class
  simp only [h1, h2]

/-- The class of a `float` does not depend on its sign bit. -/
theorem float_class_low (bits : Nat) :
    float_class (bits % 2147483648) = float_class bits := by
  have h1 : bits % 2147483648 / 8388608 % 256 = bits / 8388608 % 256 := by omega
  have h2 : bits % 2147483648 % 8388608 = bits % 8388608 := by omega
  unfold float_class
  simp only [h1, h2]

/-- A finite `double` is the `double` nearest to its own value. -/
theorem double_rounds_self (bits num den : Nat) (h : double_class bits = .finite num den) :
    RoundsTo double_class 1024 (bits % 9223372036854775808) num den := by
  have hk : double_class (bits % 9223372036854775808) = .finite num den := by
    rw [double_class_low, h]
  have hfields : bits % 9223372036854775808 / 4503599627370496 % 2048 ≠ 2047 := by
    intro he
    unfold double_class at hk
    simp only [he, if_true] at hk
    split at hk <;> cases hk
  have hgp : gridPoint double_class 1024 (bits % 9223372036854775808) = (num, den) := by
    unfold gridPoint
    rw [hk]
  have hself := roundsTo_self double_class 1024 1074 4503599627370496
    (bits % 9223372036854775808) (by decide) (by rw [hk]; rfl)
    (fun j hj => double_grid j (by omega))
  rw [hgp] at hself
  exact hself

/-- A finite `float` is the `float` nearest to its own value. -/
theorem float_rounds_self (bits num den : Nat) (h : float_class bits = .finite num den) :
    RoundsTo float_class 128 (bits % 2147483648) num den := by
  have hk : float_class (bits % 2147483648) = .finite num den := by
    rw [float_class_low, h]
  have hfields : bits % 2147483648 / 8388608 % 256 ≠ 255 := by
    intro he
    unfold float_class at hk
    simp only [he, if_true] at hk
    split at hk <;> cases hk
  have hgp : gridPoint float_class 128 (bits % 2147483648) = (num, den) := by
    unfold gridPoint
    rw [hk]
  have hself := roundsTo_self float_class 128 149 8388608
    (bits % 2147483648) (by decide) (by rw [hk]; rfl)
    (fun j hj => float_grid j (by omega))
  rw [hgp] at hself
  exact hself

/-- The text of a conversion and what reading it back gives, for a format whose
magnitude with fields `k` is `num / den`: the text reads back as that
magnitude exactly when the six-digit rounding of `num / den` rounds to it, and
it does whenever rounding to six digits leaves `num / den` unchanged. -/
theorem reads_back_key (cls : Nat → FpClass) (top k : Nat) (negative : Bool) (num den : Nat)
    (hc : InDoubleRange (.finite num den)) (hself : RoundsTo cls top k num den) :
    ((match parseFloat (format_g negative (.finite num den)) with
      | some (n, M, E) =>
        n = negative ∧ RoundsTo cls top k (decimalFraction M E).1 (decimalFraction M E).2
      | none => False) ↔ SixDigitsRoundBack cls top k num den) ∧
    (ExactInSixDigits (.finite num den) → SixDigitsRoundBack cls top k num den) := by
  obtain ⟨hd, _, _⟩ := hc num den rfl
  have hzero : num = 0 → RoundsTo cls top k 0 1 := by
    intro h0
    rw [h0] at hself
    exact (roundsTo_congr cls top k 0 den 0 1 hd Nat.one_pos (by simp)).mp hself
  obtain ⟨M, E, hp, hiff⟩ := roundsTo_format_g cls top k negative num den hc hzero
  constructor
  · rw [hp]
    simp only [true_and]
    exact hiff
  · intro hex
    unfold ExactInSixDigits at hex
    simp only at hex
    rcases hex with h0 | hden
    · exact Or.inl h0
    · right
      have hcross := (denotes_iff_fraction _ _ _ _).mp hden
      exact (roundsTo_congr cls top k num den _ _ hd (decimalFraction_pos _ _) hcross.symm).mp
        hself

/-- C17, amended: for every finite `double` `v`, and every finite `float` `v`,
the conversion returns a string whose text is the `%g` text of `v` (six
significant decimal digits, general format).  Reading that text back as the
same floating-point kind, correctly rounded, reproduces `v` exactly when `v` is
the value of its kind nearest to `v` rounded to six significant decimal digits;
in particular it does for every `v` that rounding to six significant digits
does not change. -/
theorem float_to_string_reads_back (bits : Nat) :
    (∀ num den, double_class bits = .finite num den →
      ∃ s text, __builtin_double_to_string bits = some s ∧ IsString s ∧
        s.bytes = some text ∧ text = format_g (double_negative bits) (.finite num den) ∧
        (ReadsBackAsDouble text bits
          ↔ SixDigitsRoundBack double_class 1024 (bits % 9223372036854775808) num den) ∧
        (ExactInSixDigits (.finite num den) → ReadsBackAsDouble text bits)) ∧
    (∀ num den, float_class bits = .finite num den →
      ∃ s text, __builtin_float_to_string bits = some s ∧ IsString s ∧
        s.bytes = some text ∧ text = format_g (float_negative bits) (.finite num den) ∧
        (ReadsBackAsFloat text bits
          ↔ SixDigitsRoundBack float_class 128 (bits % 2147483648) num den) ∧
        (ExactInSixDigits (.finite num den) → ReadsBackAsFloat text bits)) := by
  constructor
  · intro num den hcls
    have hc : InDoubleRange (.finite num den) := hcls ▸ double_class_inRange bits
    obtain ⟨_, hlen⟩ := format_g_spec (double_negative bits) (.finite num den) hc
    obtain ⟨hiff, hex⟩ := reads_back_key double_class 1024 (bits % 9223372036854775808)
      (double_negative bits) num den hc (double_rounds_self bits num den hcls)
    refine ⟨_, _, ?_, (isString_iff _).mpr ⟨_, rfl, by omega⟩, bytes_ofBytes _, rfl, hiff,
      fun h => hiff.mpr (hex h)⟩
    unfold __builtin_double_to_string
    rw [hcls]
    exact to_string_format_g _ _ hc
  · intro num den hcls
    have hc : InDoubleRange (.finite num den) := hcls ▸ float_class_inRange bits
    obtain ⟨_, hlen⟩ := format_g_spec (float_negative bits) (.finite num den) hc
    obtain ⟨hiff, hex⟩ := reads_back_key float_class 128 (bits % 2147483648)
      (float_negative bits) num den hc (float_rounds_self bits num den hcls)
    refine ⟨_, _, ?_, (isString_iff _).mpr ⟨_, rfl, by omega⟩, bytes_ofBytes _, rfl, hiff,
      fun h => hiff.mpr (hex h)⟩
    unfold __builtin_float_to_string
    rw [hcls]
    exact to_string_format_g _ _ hc

/-- C17 (amended) on 0.1 and 3.5: `double_to_string(0.1)` is `"0.1"` and
`double_to_string(3.5)` is `"3.5"`, the scenario of the specification; both
texts read back as the value converted, 0.1 because it is the `double` nearest
to the decimal 0.1, 3.5 because six digits hold it exactly.  The same for the
`float` 0.1. -/
theorem float_to_string_reads_back_witness :
    double_class 4591870180066957722 = .finite 7205759403792794 72057594037927936 ∧
    (∃ s text, __builtin_double_to_string 4591870180066957722 = some s ∧
      s.bytes = some text ∧ text = [48, 46, 49] ∧
      ReadsBackAsDouble text 4591870180066957722) ∧
    (∃ s text, __builtin_double_to_string 4615063718147915776 = some s ∧
      s.bytes = some text ∧ text = [51, 46, 53] ∧
      ReadsBackAsDouble text 4615063718147915776) ∧
    (∃ s text, __builtin_float_to_string 1036831949 = some s ∧
      s.bytes = some text ∧ text = [48, 46, 49] ∧
      ReadsBackAsFloat text 1036831949) := by
  obtain ⟨s1, t1, hs1, _, hb1, ht1, hiff1, _⟩ :=
    (float_to_string_reads_back 4591870180066957722).1 7205759403792794 72057594037927936
      (by decide)
  obtain ⟨s2, t2, hs2, _, hb2, ht2, _, hex2⟩ :=
    (float_to_string_reads_back 4615063718147915776).1 7881299347898368 2251799813685248
      (by decide)
  obtain ⟨s3, t3, hs3, _, hb3, ht3, hiff3, _⟩ :=
    (float_to_string_reads_back 1036831949).2 13421773 134217728 (by decide)
  exact ⟨by decide,
    ⟨s1, t1, hs1, hb1, ht1.trans (by decide), hiff1.mpr (by decide)⟩,
    ⟨s2, t2, hs2, hb2, ht2.trans (by decide), hex2 (by decide)⟩,
    ⟨s3, t3, hs3, hb3, ht3.trans (by decide), hiff3.mpr (by decide)⟩⟩

/-- C17 as stated fails for the `double` 1234567.0 (bits `0x4132D68700000000`):
the returned text is `"1.23457e+06"`, six significant digits, which reads back
as the `double` 1234570.0 (bits `0x4132D68A00000000`) and not as 1234567.0,
although the longer text `"1234567"` does read back as 1234567.0, so the text
returned is not a round-trippable one.  The same for the `float` 1234567.0
(bits `0x4996B438`). -/
theorem float_to_string_reads_back_counterexample :
    (__builtin_double_to_string 4698053236609777664).bind MoonBitStr.bytes
      = some [49, 46, 50, 51, 52, 53, 55, 101, 43, 48, 54] ∧
    ¬ ReadsBackAsDouble [49, 46, 50, 51, 52, 53, 55, 101, 43, 48, 54] 4698053236609777664 ∧
    ReadsBackAsDouble [49, 46, 50, 51, 52, 53, 55, 101, 43, 48, 54] 4698053249494679552 ∧
    ReadsBackAsDouble [49, 50, 51, 52, 53, 54, 55] 4698053236609777664 ∧
    (__builtin_float_to_string 1234613304).bind MoonBitStr.bytes
      = some [49, 46, 50, 51, 52, 53, 55, 101, 43, 48, 54] ∧
    ¬ ReadsBackAsFloat [49, 46, 50, 51, 52, 53, 55, 101, 43, 48, 54] 1234613304 ∧
    ReadsBackAsFloat [49, 50, 51, 52, 53, 54, 55] 1234613304 := by
  refine ⟨by decide, by decide, by decide, by decide, by decide, by decide, by decide⟩

/-! ## The sentinel (C14) -/

theorem ownsSentinel_of_isString (s : MoonBitStr) (h : IsString s) : OwnsSentinel s :=
  ⟨h.2.2.1, h.2.2.2.2⟩

/-- A string `__builtin_create_string` returns is a string of the data model. -/
theorem create_string_some (str : Block char) (s : MoonBitStr)
    (hs : __builtin_create_string str = some s) : IsString s := by
  cases hscan : scanLoop str 0 with
  | none =>
    unfold __builtin_create_string at hs
    rw [hscan] at hs
    cases hs
  | some len =>
    obtain ⟨text, tail, hstr, hnz, hlen, hlt⟩ :=
      scanLoop_some str 0 len (le_refl 0) (by decide) hscan
    subst hstr
    by_cases hmax : text.length < 2147483647
    · rw [create_string_literal text tail hnz hmax] at hs
      cases hs
      exact (isString_iff _).mpr ⟨text, rfl, by omega⟩
    · rw [create_string_overflow text tail hnz (by omega)] at hs
      cases hs

/-- A string `__builtin_string_concat` returns owns `length + 1` bytes and ends
with the sentinel, whatever the two arguments are. -/
theorem concat_some_sentinel (a b s : MoonBitStr)
    (hs : __builtin_string_concat a b = some s) : OwnsSentinel s := by
  unfold __builtin_string_concat at hs
  simp only [Option.bind_eq_some, Option.map_eq_some'] at hs
  obtain ⟨d1, h1, d2, h2, d3, h3, hs⟩ := hs
  subst hs
  have hl1 := copyLoop_length _ _ _ _ _ _ h1
  have hl2 := copyLoop_length _ _ _ _ _ _ h2
  obtain ⟨hl3, h0, hlt⟩ := store_length _ _ _ _ h3
  have hr := wrap32_range (a.length + b.length)
  generalize wrap32 (a.length + b.length) = L at h1 h3 h0 hlt hr hl1 ⊢
  have hblock : (d2.length : Int) = L + 1 := by
    rw [hl2, hl1]
    by_cases hneg : wrap32 (L + 1) < 0
    · rw [malloc_of_neg _ _ (wrap32_range _).1 hneg (Or.inl rfl)] at hl1 ⊢
      rw [hl2, hl1] at hlt
      simp only [List.length_nil, Nat.cast_zero] at hlt
      omega
    · have hw : wrap32 (L + 1) = L + 1 := by
        unfold wrap32 at hneg ⊢
        omega
      have hw2 := wrap32_range (L + 1)
      rw [hw] at hw2
      rw [hw, malloc_of_nonneg _ _ (by omega) hw2.2 (Or.inl rfl)]
      simp only [List.length_replicate]
      omega
  constructor
  · simp only
    rw [hl3]
    exact hblock
  · simp only
    unfold store at h3
    rw [if_pos ⟨h0, by omega⟩] at h3
    simp only [Option.some.injEq] at h3
    rw [← h3, load_set _ _ (by omega), if_pos (Int.toNat_of_nonneg h0).symm]

/-- C14: every string `__builtin_create_string` or `__builtin_string_concat`
returns, and the string every `*_to_string` conversion returns for every
value, owns exactly `length + 1` bytes and has the null sentinel at index
`length`. -/
theorem produced_strings_own_sentinel :
    (∀ str s, __builtin_create_string str = some s → OwnsSentinel s) ∧
    (∀ a b s, __builtin_string_concat a b = some s → OwnsSentinel s) ∧
    (∀ v : Int, -2147483648 ≤ v → v < 2147483648 →
      ∃ s, __builtin_int_to_string v = some s ∧ OwnsSentinel s) ∧
    (∀ v : Int, -9223372036854775808 ≤ v → v < 9223372036854775808 →
      ∃ s, __builtin_int64_to_string v = some s ∧ OwnsSentinel s) ∧
    (∀ c : char, ∃ s, __builtin_char_to_string c = some s ∧ OwnsSentinel s) ∧
    (∀ bits : float, ∃ s, __builtin_float_to_string bits = some s ∧ OwnsSentinel s) ∧
    (∀ bits : double, ∃ s, __builtin_double_to_string bits = some s ∧ OwnsSentinel s) := by
  have hcreate : ∀ str s, __builtin_create_string str = some s → OwnsSentinel s :=
    fun str s hs => ownsSentinel_of_isString s (create_string_some str s hs)
  refine ⟨hcreate, concat_some_sentinel, ?_, ?_, ?_, ?_, ?_⟩
  · intro v h1 h2
    have hlen : (format_d v).length ≤ 11 :=
      format_d_length v 9 (by norm_num; omega)
    have h := create_string_snprintf 32 (format_d v) (format_d_spec v).1 (by omega) (by decide)
    exact ⟨_, h, hcreate _ _ h⟩
  · intro v h1 h2
    have hlen : (format_d v).length ≤ 20 :=
      format_d_length v 18 (by norm_num; omega)
    have h := create_string_snprintf 64 (format_d v) (format_d_spec v).1 (by omega) (by decide)
    exact ⟨_, h, hcreate _ _ h⟩
  · intro c
    by_cases hc : c = 0
    · subst hc
      exact ⟨MoonBitStr.ofBytes [], by decide, by decide⟩
    · have h := create_string_literal [c] [] (by simpa using hc) (by simp)
      exact ⟨_, h, hcreate _ _ h⟩
  · intro bits
    have h := to_string_format_g (float_negative bits) (float_class bits)
      (float_class_inRange bits)
    exact ⟨_, h, hcreate _ _ h⟩
  · intro bits
    have h := to_string_format_g (double_negative bits) (double_class bits)
      (double_class_inRange bits)
    exact ⟨_, h, hcreate _ _ h⟩

/-- C14 on `"foo"`, on the concatenation of `"foo"` and `"bar"` and on the text of
`-42`. -/
theorem produced_strings_own_sentinel_witness :
    OwnsSentinel (MoonBitStr.ofBytes [102, 111, 111]) ∧
    OwnsSentinel (MoonBitStr.ofBytes [102, 111, 111, 98, 97, 114]) ∧
    (∃ s, __builtin_int_to_string (-42) = some s ∧ OwnsSentinel s) :=
  ⟨produced_strings_own_sentinel.1 (literal [102, 111, 111]) _ (by decide),
   produced_strings_own_sentinel.2.1 (MoonBitStr.ofBytes [102, 111, 111])
     (MoonBitStr.ofBytes [98, 97, 114]) _ (by decide),
   produced_strings_own_sentinel.2.2.1 (-42) (by decide) (by decide)⟩

/-! ## The queue of `queue.c` refines a bounded FIFO list -/

/-- After `initQueue` the queue holds nothing. -/
theorem holds_init (q0 : Queue) (h : q0.data.length = 5) : Holds (initQueue q0) [] := by
  refine ⟨h, ?_, ?_, ?_, ?_, ?_, ?_, ?_, ?_⟩ <;> simp [initQueue]

/-- Advancing an index of the ring: no overflow, and the remainder of C agrees
with the mathematical one. -/
theorem ring_index (x : Int) (h0 : -1 ≤ x) (h1 : x < 2147483647) :
    (wrap32 (x + 1)).tmod MAX_SIZE = (x + 1) % 5 ∧ 0 ≤ (x + 1) % 5 ∧ (x + 1) % 5 < 5 := by
  rw [wrap32_of_range _ (by omega) (by omega)]
  refine ⟨Int.tmod_eq_emod (by omega) (by decide), by omega, by omega⟩

/-- The function `enqueue` acts on the held items as the bounded FIFO list does. -/
theorem holds_enqueue (q : Queue) (l : List Int) (item : Int) (h : Holds q l) :
    ∃ q1, enqueue q item = some q1 ∧ Holds q1 (fifoEnqueue l item) := by
  obtain ⟨hd, hf0, hf1, hr0, hr1, hs, hl, hrf, hitems⟩ := h
  by_cases hfull : l.length = 5
  · refine ⟨q, ?_, ?_⟩
    · have hfull1 : isFull q = 1 := by
        unfold isFull MAX_SIZE
        rw [if_pos (by omega)]
      unfold enqueue
      rw [hfull1, if_pos (by decide)]
    · unfold fifoEnqueue
      rw [if_pos hfull]
      exact ⟨hd, hf0, hf1, hr0, hr1, hs, hl, hrf, hitems⟩
  · have hlt : l.length < 5 := by omega
    obtain ⟨hidx, hi0, hi1⟩ := ring_index q.rear hr0 (by omega)
    have hstore : store q.data ((q.rear + 1) % 5) item
        = some (q.data.set ((q.rear + 1) % 5).toNat (some item)) := by
      unfold store
      rw [if_pos ⟨hi0, by omega⟩]
    refine ⟨{ q with rear := (q.rear + 1) % 5,
                     data := q.data.set ((q.rear + 1) % 5).toNat (some item),
                     size := wrap32 (q.size + 1) }, ?_, ?_⟩
    · have hfull0 : isFull q = 0 := by
        unfold isFull MAX_SIZE
        rw [if_neg (by omega)]
      unfold enqueue
      rw [hfull0, if_neg (by decide)]
      simp only [hidx, hstore, Option.map_some']
    · unfold fifoEnqueue
      rw [if_neg hfull]
      have hsize : wrap32 (q.size + 1) = ((l ++ [item]).length : Nat) := by
        rw [wrap32_of_range _ (by omega) (by omega), List.length_append, List.length_singleton]
        push_cast
        omega
      refine ⟨by simpa using hd, hf0, hf1, by simp only; omega, by simp only; omega, hsize,
        by simp only [List.length_append, List.length_singleton]; omega, ?_, ?_⟩
      · simp only [List.length_append, List.length_singleton]
        push_cast
        omega
      · intro i hi
        simp only [List.length_append, List.length_singleton] at hi
        simp only
        rw [load_set _ _ (by omega)]
        rw [Int.toNat_of_nonneg hi0]
        by_cases hlast : i = l.length
        · subst hlast
          rw [if_pos (by omega)]
          simp
        · have hi2 : i < l.length := by omega
          rw [if_neg (by omega), hitems i hi2, List.getElem?_append_left hi2]

/-- The function `dequeue` returns and removes what the bounded FIFO list does. -/
theorem holds_dequeue (q : Queue) (l : List Int) (h : Holds q l) :
    ∃ q1, dequeue q = some ((fifoDequeue l).1, q1) ∧ Holds q1 (fifoDequeue l).2 := by
  obtain ⟨hd, hf0, hf1, hr0, hr1, hs, hl, hrf, hitems⟩ := h
  cases l with
  | nil =>
    refine ⟨q, ?_, hd, hf0, hf1, hr0, hr1, hs, hl, hrf, hitems⟩
    simp only [List.length_nil, Nat.cast_zero] at hs
    have hempty : isEmpty q = 1 := by
      unfold isEmpty
      rw [if_pos hs]
    unfold dequeue
    rw [hempty, if_pos (by decide)]
    rfl
  | cons x xs =>
    simp only [List.length_cons] at hs hl hrf hitems
    obtain ⟨hidx, hi0, hi1⟩ := ring_index q.front (by omega) (by omega)
    have hfirst : load q.data q.front = some x := by
      have := hitems 0 (by omega)
      simp only [Nat.cast_zero, add_zero, List.getElem?_cons_zero] at this
      rwa [Int.emod_eq_of_lt hf0 hf1] at this
    have hempty : isEmpty q = 0 := by
      unfold isEmpty
      rw [if_neg (by push_cast at hs; omega)]
    refine ⟨{ q with front := (q.front + 1) % 5, size := wrap32 (q.size - 1) }, ?_, ?_⟩
    · unfold dequeue
      rw [hempty, if_neg (by decide), hfirst, hidx]
      rfl
    · simp only [fifoDequeue]
      refine ⟨hd, hi0, hi1, hr0, hr1, ?_, by omega, ?_, ?_⟩
      · simp only
        rw [wrap32_of_range _ (by omega) (by omega)]
        push_cast at hs
        omega
      · simp only
        push_cast at hrf
        omega
      · intro i hi
        simp only
        have := hitems (i + 1) (by omega)
        simp only [List.getElem?_cons_succ] at this
        rw [← this]
        congr 1
        push_cast
        omega

/-- The function `peek` returns what the bounded FIFO list does. -/
theorem holds_peek (q : Queue) (l : List Int) (h : Holds q l) :
    peek q = some (fifoPeek l) := by
  obtain ⟨hd, hf0, hf1, hr0, hr1, hs, hl, hrf, hitems⟩ := h
  cases l with
  | nil =>
    simp only [List.length_nil, Nat.cast_zero] at hs
    have hempty : isEmpty q = 1 := by
      unfold isEmpty
      rw [if_pos hs]
    unfold peek
    rw [hempty, if_pos (by decide)]
    rfl
  | cons x xs =>
    simp only [List.length_cons] at hs hitems
    have hfirst : load q.data q.front = some x := by
      have := hitems 0 (by omega)
      simp only [Nat.cast_zero, add_zero, List.getElem?_cons_zero] at this
      rwa [Int.emod_eq_of_lt hf0 hf1] at this
    have hempty : isEmpty q = 0 := by
      unfold isEmpty
      rw [if_neg (by push_cast at hs; omega)]
    unfold peek
    rw [hempty, if_neg (by decide), hfirst]
    rfl

/-- Reading the ring from `front` gives the listed items. -/
theorem readRing_items (data : Block Int) (l : List Int) :
    ∀ front : Int, 0 ≤ front → front < 5 →
      (∀ i : Nat, i < l.length → load data ((front + i) % 5) = l[i]?) →
      readRing data front l.length = some l := by
  induction l with
  | nil => intro front _ _ _; rfl
  | cons x xs ih =>
    intro front h0 h1 hitems
    have hfirst : load data front = some x := by
      have := hitems 0 (by simp)
      simp only [Nat.cast_zero, add_zero, List.getElem?_cons_zero] at this
      rwa [Int.emod_eq_of_lt h0 h1] at this
    have hnext : (front + 1).tmod MAX_SIZE = (front + 1) % 5 :=
      Int.tmod_eq_emod (by omega) (by decide)
    have hrest := ih ((front + 1) % 5) (by omega) (by omega) (by
      intro i hi
      have := hitems (i + 1) (by simp only [List.length_cons]; omega)
      simp only [List.getElem?_cons_succ] at this
      rw [← this]
      congr 1
      push_cast
      omega)
    rw [List.length_cons, readRing, hfirst, Option.some_bind, hnext, hrest]
    rfl

/-- The items read back from a queue are the items it holds. -/
theorem holds_contents (q : Queue) (l : List Int) (h : Holds q l) : q.contents = some l := by
  obtain ⟨_, hf0, hf1, _, _, hs, _, _, hitems⟩ := h
  unfold Queue.contents
  rw [hs, Int.toNat_ofNat]
  exact readRing_items q.data l q.front hf0 hf1 hitems

/-- Every sequence of calls runs on the queue as on the bounded FIFO list. -/
theorem holds_run (calls : List Call) :
    ∀ (q : Queue) (l : List Int), Holds q l →
      ∃ q1, runQueue q calls = some ((fifoRun l calls).1, q1) ∧ Holds q1 (fifoRun l calls).2 := by
  induction calls with
  | nil => intro q l h; exact ⟨q, rfl, h⟩
  | cons c cs ih =>
    intro q l h
    have hstep : ∃ q1, callQueue q c = some ((fifoCall l c).1, q1) ∧
        Holds q1 (fifoCall l c).2 := by
      cases c with
      | enqueue item =>
        obtain ⟨q1, h1, h2⟩ := holds_enqueue q l item h
        exact ⟨q1, by simp only [callQueue, h1, Option.map_some', fifoCall], h2⟩
      | dequeue =>
        obtain ⟨q1, h1, h2⟩ := holds_dequeue q l h
        exact ⟨q1, by simp only [callQueue, h1, Option.map_some', fifoCall], h2⟩
      | peek =>
        exact ⟨q, by simp only [callQueue, holds_peek q l h, Option.map_some', fifoCall], h⟩
    obtain ⟨q1, h1, h2⟩ := hstep
    obtain ⟨q2, h3, h4⟩ := ih q1 _ h2
    exact ⟨q2, by simp only [runQueue, h1, Option.some_bind, h3, Option.map_some', fifoRun], h4⟩

/-- The queue of `queue.c` refines the bounded FIFO list of capacity 5. After `initQueue`, every sequence of `enqueue`, `dequeue` and `peek`
calls runs without fault and returns what the FIFO list returns (`-1` from the
empty list, otherwise the oldest item not yet removed); afterwards the queue
holds the items of the list, `0 <= size <= 5`, `0 <= front <= 4` and
`-1 <= rear <= 4`; `enqueue` on a full queue and `dequeue` on an empty one leave
the queue as it is. -/
theorem queue_refines_fifo (q0 : Queue) (calls : List Call) (hdata : q0.data.length = 5) :
    ∃ q, runQueue (initQueue q0) calls = some ((fifoRun [] calls).1, q) ∧
      q.contents = some (fifoRun [] calls).2 ∧
      0 ≤ q.size ∧ q.size ≤ 5 ∧ 0 ≤ q.front ∧ q.front < 5 ∧ -1 ≤ q.rear ∧ q.rear < 5 ∧
      (q.size = 5 → ∀ item, enqueue q item = some q) ∧
      (q.size = 0 → dequeue q = some (-1, q) ∧ peek q = some (-1)) := by
  obtain ⟨q, hrun, hq⟩ := holds_run calls (initQueue q0) [] (holds_init q0 hdata)
  have hc := holds_contents q _ hq
  obtain ⟨_, hf0, hf1, hr0, hr1, hs, hl, _, _⟩ := hq
  refine ⟨q, hrun, hc, by omega, by omega, hf0, hf1, hr0, hr1, ?_, ?_⟩
  · intro hfull item
    have hfull1 : isFull q = 1 := by
      unfold isFull MAX_SIZE
      rw [if_pos hfull]
    unfold enqueue
    rw [hfull1, if_pos (by decide)]
  · intro hzero
    have hempty : isEmpty q = 1 := by
      unfold isEmpty
      rw [if_pos hzero]
    unfold dequeue peek
    rw [hempty, if_pos (by decide), if_pos (by decide)]
    exact ⟨rfl, rfl⟩

/-- The refinement on the calls of `main` followed by one more dequeue: the peek
returns 10, the dequeues return 10, 20, 30, 40, 50 and 60, the dequeue after
them returns `-1`, and the queue holds nothing afterwards. -/
theorem queue_refines_fifo_witness :
    (freshQueue 0 0 0).data.length = 5 ∧
    ∃ q, runQueue (initQueue (freshQueue 0 0 0)) (mainCalls ++ [.dequeue])
        = some ([10, 10, 20, 30, 40, 50, 60, -1], q) ∧ q.contents = some [] ∧
      0 ≤ q.size ∧ q.size ≤ 5 := by
  obtain ⟨q, h1, h2, h3, h4, _⟩ :=
    queue_refines_fifo (freshQueue 0 0 0) (mainCalls ++ [.dequeue]) (by decide)
  exact ⟨by decide, q, h1, h2, h3, h4⟩

/-- C21: on the calls of `main` the code does not do what the two comments
`// Should fail` of `main` and the claim say. After enqueue 10, 20, 30, one
dequeue and enqueue 40, 50 the queue holds four items, so the enqueue of 60 is
accepted (the size becomes 5) instead of refused, and of the five dequeues that
follow the last one returns 60 instead of `-1`. -/
theorem main_accepts_sixth_item :
    (runQueue (initQueue (freshQueue 0 0 0))
        [.enqueue 10, .enqueue 20, .enqueue 30, .dequeue, .enqueue 40, .enqueue 50]).map
      (fun r => r.2.size) = some 4 ∧
    (runQueue (initQueue (freshQueue 0 0 0))
        [.enqueue 10, .enqueue 20, .enqueue 30, .dequeue, .enqueue 40, .enqueue 50,
         .enqueue 60]).map (fun r => r.2.size) = some 5 ∧
    (runQueue (initQueue (freshQueue 0 0 0))
        [.enqueue 10, .enqueue 20, .enqueue 30, .dequeue, .enqueue 40, .enqueue 50,
         .enqueue 60, .dequeue, .dequeue, .dequeue, .dequeue, .dequeue]).map Prod.fst
      = some [10, 20, 30, 40, 50, 60] := by
  decide

/-! ## The recursive `fib` -/

/-- A call with `n <= 1` returns `n` at once. -/
theorem fib_base (depth : Nat) (n : Int) (hn : n ≤ 1) : fib (depth + 1) n = some n := by
  rw [fib, if_pos hn]

/-- A call with `n >= 2` makes the two recursive calls and adds their results. -/
theorem fib_rec (depth : Nat) (n : Int) (hn : 2 ≤ n) (hhi : n < 2147483648) :
    fib (depth + 1) n =
      (fib depth (n - 1)).bind fun r1 => (fib depth (n - 2)).bind fun r2 =>
        some (wrap32 (r1 + r2)) := by
  rw [fib, if_neg (by omega), wrap32_of_range _ (by omega) (by omega),
    wrap32_of_range _ (by omega) (by omega)]

/-- The recursion ends: a call stack deeper than `k` is enough for `fib(k)`. -/
theorem fib_total (k : Nat) (hk : (k : Int) < 2147483648) :
    ∃ v : Int, ∀ depth, k < depth → fib depth (k : Int) = some v := by
  induction k using Nat.strong_induction_on with
  | _ k ih =>
    by_cases hsmall : k ≤ 1
    · refine ⟨(k : Int), ?_⟩
      intro depth hd
      obtain ⟨d, rfl⟩ : ∃ d, depth = d + 1 := ⟨depth - 1, by omega⟩
      exact fib_base d _ (by omega)
    · obtain ⟨v1, h1⟩ := ih (k - 1) (by omega) (by omega)
      obtain ⟨v2, h2⟩ := ih (k - 2) (by omega) (by omega)
      refine ⟨wrap32 (v1 + v2), ?_⟩
      intro depth hd
      obtain ⟨d, rfl⟩ : ∃ d, depth = d + 1 := ⟨depth - 1, by omega⟩
      have e1 : ((k : Int) - 1) = ((k - 1 : Nat) : Int) := by omega
      have e2 : ((k : Int) - 2) = ((k - 2 : Nat) : Int) := by omega
      rw [fib_rec d _ (by omega) hk, e1, e2, h1 d (by omega), h2 d (by omega)]
      rfl

/-- Up to 46 the value is the Fibonacci number: no sum leaves the `int` range. -/
theorem fib_value (k : Nat) (hk : k ≤ 46) :
    ∀ depth, k < depth → fib depth (k : Int) = some (Nat.fib k : Int) := by
  induction k using Nat.strong_induction_on with
  | _ k ih =>
    intro depth hd
    obtain ⟨d, rfl⟩ : ∃ d, depth = d + 1 := ⟨depth - 1, by omega⟩
    by_cases hsmall : k ≤ 1
    · rw [fib_base d _ (by omega)]
      interval_cases k <;> rfl
    · obtain ⟨j, rfl⟩ : ∃ j, k = j + 2 := ⟨k - 2, by omega⟩
      have h1 := ih (j + 1) (by omega) (by omega) d (by omega)
      have h2 := ih j (by omega) (by omega) d (by omega)
      have hmax : Nat.fib (j + 2) ≤ 1836311903 :=
        le_trans (Nat.fib_mono hk) (by decide)
      have hsum : Nat.fib (j + 2) = Nat.fib j + Nat.fib (j + 1) := Nat.fib_add_two
      have e1 : (((j + 2 : Nat) : Int) - 1) = ((j + 1 : Nat) : Int) := by omega
      have e2 : (((j + 2 : Nat) : Int) - 2) = ((j : Nat) : Int) := by omega
      rw [fib_rec d _ (by omega) (by omega), e1, e2, h1, h2]
      simp only [Option.some_bind]
      rw [wrap32_of_range _ (by omega) (by omega)]
      congr 1
      omega

/-- C22: `fib` terminates for every `int n` (a call stack deeper than `n`, one
frame for `n <= 1`, is enough, and then the result does not depend on the bound),
returns `n` for every `n <= 1`, and returns the `n`-th Fibonacci number for
`0 <= n <= 46`. -/
theorem fib_terminates_and_computes (n : Int) (hlo : -2147483648 ≤ n) (hhi : n < 2147483648) :
    ∃ v : Int, (∀ depth, n.toNat < depth → fib depth n = some v) ∧
      (n ≤ 1 → v = n) ∧
      (0 ≤ n → n ≤ 46 → v = (Nat.fib n.toNat : Int)) := by
  by_cases hneg : n < 0
  · refine ⟨n, ?_, fun _ => rfl, fun h => absurd h (by omega)⟩
    intro depth hd
    obtain ⟨d, rfl⟩ : ∃ d, depth = d + 1 := ⟨depth - 1, by omega⟩
    exact fib_base d n (by omega)
  · lift n to Nat using (by omega)
    obtain ⟨v, hv⟩ := fib_total n hhi
    rw [Int.toNat_ofNat]
    refine ⟨v, hv, ?_, ?_⟩
    · intro h1
      have := hv (n + 1) (by omega)
      rw [fib_base n _ h1] at this
      exact (Option.some.inj this).symm
    · intro _ h46
      have := hv (n + 1) (by omega)
      rw [fib_value n (by omega) (n + 1) (by omega)] at this
      exact (Option.some.inj this).symm

/-- C22 on the values the tests assert: `fib(10)` is 55 whatever the bound above
10, and `fib(0..10)` are 0, 1, 1, 2, 3, 5, 8, 13, 21, 34, 55. -/
theorem fib_terminates_and_computes_witness :
    (∀ depth, 10 < depth → fib depth 10 = some 55) ∧
    List.map (fib 11) [0, 1, 2, 3, 4, 5, 6, 7, 8, 9, 10]
      = [some 0, some 1, some 1, some 2, some 3, some 5, some 8, some 13, some 21, some 34,
         some 55] ∧
    fib 1 (-7) = some (-7) := by
  obtain ⟨v, hv, _, hfib⟩ := fib_terminates_and_computes 10 (by decide) (by decide)
  have h55 : v = 55 := hfib (by decide) (by decide)
  rw [h55] at hv
  exact ⟨hv, by decide, by decide⟩

end MoonMIR
